import Mathlib

/-! # btree-2.c: a shallow embedding of the B-tree and its verification

The C program keeps a B-tree of minimum degree `M = 4` over `int` keys
(`src/btree-2.c`).  A node is a `struct btree_t` with a key count `num`, a leaf
flag, a key array `key[KEY_NUM]` and a child array `child[KEY_NUM + 1]`.

Embedding conventions.

* A node is the value `BTree.node leaf key child`: `key` is the live prefix
  `key[0 .. num-1]` of the key array (so `num = key.length`), `child` the live
  prefix `child[0 .. num]` of the child array (empty for a leaf, whose child
  array the program never initialises).  The heap of the C program is a tree
  (every node has one owner), so a node mutated in place through a pointer is
  modelled by putting the new node value back into the slot that holds the
  pointer.
* `type_t` is a 32-bit `int`; keys are `Int`s and the one place where the
  program does arithmetic on keys (`btree_find_index`) wraps modulo `2^32`.
* Functions that write memory return an `Outcome`: the new tree, or the reason
  why the C execution does not produce a tree.
* Recursion that is not structural (`btree_insert_nonfull`, `btree_delete`)
  carries a recursion budget; the public entry points supply the height of the
  tree, which is the number of nodes on the longest root-to-leaf path.
-/

namespace BtreeC

/-! ## Data model -/

/-- The minimum degree: `#define M 4`. -/
def M : Nat := 4

/-- The node capacity: `#define KEY_NUM (2 * M - 1)`. -/
def KEY_NUM : Nat := 2 * M - 1

/-- A `struct btree_t`: leaf flag, live keys, live children. -/
inductive BTree where
  | node (leaf : Bool) (key : List Int) (child : List BTree)
deriving Repr

/-- The field `leaf`. -/
def BTree.leaf : BTree → Bool
  | .node l _ _ => l

/-- The live prefix of the field `key`. -/
def BTree.key : BTree → List Int
  | .node _ ks _ => ks

/-- The live prefix of the field `child`. -/
def BTree.child : BTree → List BTree
  | .node _ _ cs => cs

/-- The field `num`, the number of keys. -/
def BTree.num (t : BTree) : Nat := t.key.length

mutual
/-- Decidable equality of trees. -/
def BTree.decEq : (a b : BTree) → Decidable (a = b)
  | .node l1 k1 c1, .node l2 k2 c2 =>
    if hl : l1 = l2 then
      if hk : k1 = k2 then
        match BTree.decEqList c1 c2 with
        | isTrue hc => isTrue (by rw [hl, hk, hc])
        | isFalse hc => isFalse (fun h => hc (by injection h))
      else isFalse (fun h => hk (by injection h))
    else isFalse (fun h => hl (by injection h))
/-- Decidable equality of child arrays. -/
def BTree.decEqList : (a b : List BTree) → Decidable (a = b)
  | [], [] => isTrue rfl
  | [], _ :: _ => isFalse (fun h => by injection h)
  | _ :: _, [] => isFalse (fun h => by injection h)
  | a :: as, b :: bs =>
    match BTree.decEq a b with
    | isTrue h1 =>
      match BTree.decEqList as bs with
      | isTrue h2 => isTrue (by rw [h1, h2])
      | isFalse h2 => isFalse (fun h => h2 (by injection h))
    | isFalse h1 => isFalse (fun h => h1 (by injection h))
end

instance : DecidableEq BTree := BTree.decEq

/-- What a call that writes memory leaves behind. -/
inductive Outcome (α : Type) where
  /-- The call returns and the heap is the tree `val`. -/
  | ok (val : α)
  /-- The C execution reads or writes outside what the tree value determines:
  an array slot out of bounds or past the live prefix, a child pointer that is
  not there, a `memmove` with a negative length. -/
  | undefined
  /-- The call returns, but a child slot of the heap now holds words of two
  different pointers: the heap is no longer a tree. -/
  | corrupt
  /-- The recursion budget of the model ran out. -/
  | exhausted
deriving Repr, DecidableEq

mutual
/-- Number of nodes on the longest path from the node down to a leaf. -/
def height : BTree → Nat
  | .node _ _ cs => heightList cs + 1
/-- Largest height among a list of children. -/
def heightList : List BTree → Nat
  | [] => 0
  | c :: cs => max (height c) (heightList cs)
end

mutual
/-- In-order traversal: the keys of a leaf; for an internal node child 0,
key 0, child 1, key 1, ..., the last child. -/
def inorder : BTree → List Int
  | .node leaf ks cs => if leaf then ks else inorderList ks cs
/-- In-order traversal of children interleaved with the separators. -/
def inorderList : List Int → List BTree → List Int
  | _, [] => []
  | [], c :: _ => inorder c
  | k :: ks, c :: cs => inorder c ++ k :: inorderList ks cs
end

/-! ## Well-formedness (spec §3, invariants 1 to 4) -/

/-- Invariant 1 for one node: the keys are strictly increasing. -/
def strictSorted : List Int → Bool
  | a :: b :: l => decide (a < b) && strictSorted (b :: l)
  | _ => true

/-- All keys of a subtree lie in the open interval between the separators
`lo` and `hi` (an absent separator is an open end). -/
def between (lo hi : Option Int) (t : BTree) : Bool :=
  (inorder t).all fun x =>
    (match lo with | none => true | some l => decide (l < x)) &&
    (match hi with | none => true | some h => decide (x < h))

mutual
/-- Invariants 1 and 4 (ordering part): in every node the keys are strictly
sorted and every child subtree lies strictly between its adjacent
separators. -/
def ordered : BTree → Bool
  | .node _ ks cs => strictSorted ks && orderedList none ks cs
/-- The children `cs` against the separators `ks` to their right; `lo` is the
separator to the left of the first child. -/
def orderedList : Option Int → List Int → List BTree → Bool
  | _, _, [] => true
  | lo, ks, c :: cs =>
    ordered c && between lo ks.head? c && orderedList ks.head? ks.tail cs
end

/-- Invariants 2, 3 and 4 (counting part) for a node with `h` levels below and
including it: at most `KEY_NUM` keys; at least `M - 1` keys unless the node is
the root; a leaf has `h = 1` and no children; an internal node with `n` keys
has `n + 1` children, all with `h - 1` levels, so all leaves are equally deep.
An internal root holds at least one key (the zero-key internal root of the
spec exists only inside `btree_delete`, which collapses it before
returning). -/
def shaped (root : Bool) : Nat → BTree → Bool
  | 0, _ => false
  | h + 1, .node leaf ks cs =>
    decide (ks.length ≤ KEY_NUM) &&
    (if root then leaf || decide (1 ≤ ks.length) else decide (M - 1 ≤ ks.length)) &&
    (if leaf then decide (h = 0) && cs.isEmpty
     else decide (cs.length = ks.length + 1) && cs.all (shaped false h))

/-- A well-formed tree: invariants 1 to 4 of the spec with `M = 4`. -/
def wellFormed (t : BTree) : Bool :=
  shaped true (height t) t && ordered t

/-- Every key is a value of `type_t`, a 32-bit signed `int`. -/
def int32 (x : Int) : Bool := decide (-2147483648 ≤ x) && decide (x ≤ 2147483647)

/-! ## `btree_create` and `btree_search` -/

/-- The function `btree_create` (lines 37-49): a leaf with no keys. -/
def btree_create : BTree := .node true [] []

/-- The scan of `btree_search` (line 351):
`for (i = 0; i < btree->num && key > btree->key[i]; ++i);` -/
def scanUp (key : Int) : List Int → Nat
  | [] => 0
  | k :: ks => if key > k then scanUp key ks + 1 else 0

mutual
/-- The function `btree_search` (lines 345-364).  The result is the returned node pointer
(`none` for `NULL`) and the value left in `*index`. -/
def btree_search : BTree → Int → Option BTree × Int
  | .node leaf ks cs, key =>
    if ks[scanUp key ks]? = some key then
      (some (.node leaf ks cs), (scanUp key ks : Nat))
    else if leaf then (none, -1)
    else searchChild cs (scanUp key ks) key
/-- The recursive call `btree_search(btree->child[i], key, index)`: walks to
slot `i` of the child array and searches the node there.  An internal node of
the shape invariant has a child in every slot `i ≤ num`; a slot that the list
does not have reads as the `NULL` result. -/
def searchChild : List BTree → Nat → Int → Option BTree × Int
  | [], _, _ => (none, -1)
  | c :: _, 0, key => btree_search c key
  | _ :: cs, i + 1, key => searchChild cs i key
end

/-! ## Insertion -/

/-- The function `btree_split_child` (lines 369-409), `child` being `parent->child[pos]`.
The allocation of `brother` is taken to succeed.  The function reads
`child->key[M - 1 .. 2M - 2]`, so `child` must be full, and it writes
`parent->key[parent->num]` and `parent->child[parent->num + 1]`, so `parent`
must not be full. -/
def btree_split_child (parent : BTree) (pos : Nat) (child : BTree) : Outcome BTree :=
  if parent.num ≥ KEY_NUM ∨ child.num ≠ KEY_NUM ∨ pos > parent.num then .undefined
  else
    match child.key[M - 1]? with
    | none => .undefined
    | some median =>
      let brother := BTree.node child.leaf ((child.key.drop M).take (M - 1))
        (if child.leaf then [] else (child.child.drop M).take M)
      let child1 := BTree.node child.leaf (child.key.take (M - 1)) (child.child.take M)
      .ok (.node parent.leaf
        (parent.key.take pos ++ median :: parent.key.drop pos)
        (parent.child.take pos ++ child1 :: brother :: parent.child.drop (pos + 1)))

/-- The downward scans of `btree_insert_nonfull` (lines 439-442 and 449-453):
`while (i >= 0 && key < btree->key[i]) --i;` started at `i = num - 1`.  The
argument and the result are `i + 1`. -/
def scanDown (key : Int) (ks : List Int) : Nat → Nat
  | 0 => 0
  | i + 1 => if key < ks.getD i 0 then scanDown key ks i else i + 1

/-- The function `btree_insert_nonfull` (lines 431-468).  A leaf that already holds
`KEY_NUM` keys would be written at `key[KEY_NUM]`. -/
def btree_insert_nonfull : Nat → BTree → Int → Outcome BTree
  | 0, _, _ => .exhausted
  | fuel + 1, .node leaf ks cs, key =>
    if leaf then
      if ks.length ≥ KEY_NUM then .undefined
      else .ok (.node leaf
        (ks.take (scanDown key ks ks.length) ++ key :: ks.drop (scanDown key ks ks.length)) cs)
    else
      match cs[scanDown key ks ks.length]? with
      | none => .undefined
      | some c =>
        if c.num = KEY_NUM then
          match btree_split_child (.node leaf ks cs) (scanDown key ks ks.length) c with
          | .ok p =>
            match p.child[if key > p.key.getD (scanDown key ks ks.length) 0
                then scanDown key ks ks.length + 1 else scanDown key ks ks.length]? with
            | none => .undefined
            | some c2 =>
              match btree_insert_nonfull fuel c2 key with
              | .ok c3 => .ok (.node p.leaf p.key
                  (p.child.set (if key > p.key.getD (scanDown key ks ks.length) 0
                    then scanDown key ks ks.length + 1 else scanDown key ks ks.length) c3))
              | e => e
          | e => e
        else
          match btree_insert_nonfull fuel c key with
          | .ok c3 => .ok (.node leaf ks (cs.set (scanDown key ks ks.length) c3))
          | e => e

/-- The function `btree_insert` (lines 51-67), the allocation of the new root taken to
succeed. -/
def btree_insert (t : BTree) (key : Int) : Outcome BTree :=
  if t.num = KEY_NUM then
    match btree_split_child (.node false [] [t]) 0 t with
    | .ok p => btree_insert_nonfull (height p) p key
    | e => e
  else btree_insert_nonfull (height t) t key

/-! ## Deletion -/

/-- The data model of the C target: the size of `int` is 4 bytes in both, a
pointer is 4 bytes under ILP32 and 8 bytes under LP64. -/
inductive DataModel where
  | ilp32
  | lp64
deriving Repr, DecidableEq

/-- The number of `type_t` words in a pointer: `sizeof(type_t*) / sizeof(type_t)`. -/
def DataModel.ptrWords : DataModel → Nat
  | .ilp32 => 1
  | .lp64 => 2

/-- The number of padding words between `key[KEY_NUM]` and `child[0]` in
`struct btree_t`: `key` starts at byte 8 and ends at byte 36, and `child` is
aligned to the pointer size. -/
def DataModel.padWords : DataModel → Nat
  | .ilp32 => 0
  | .lp64 => 1

/-- The result of `int` subtraction, reduced modulo `2^32` into the range of
a signed 32-bit `int`. -/
def wrap32 (x : Int) : Int := (x + 2147483648) % 4294967296 - 2147483648

/-- The loop of `btree_find_index` (lines 415-417) from position `i` on, `ks`
being the keys not yet visited and `ret` the current value of `*ret`. -/
def findIndexFrom (key : Int) : List Int → Nat → Int → Nat × Int
  | [], i, ret => (i, ret)
  | k :: ks, i, _ =>
    if wrap32 (k - key) < 0 then findIndexFrom key ks (i + 1) (wrap32 (k - key))
    else (i, wrap32 (k - key))

/-- The function `btree_find_index` (lines 411-426): the returned index and the value left
in `*ret`.  `ret` is the value `*ret` holds at the call; `btree_delete` passes
the address of an uninitialised local, so that value is arbitrary, and it is
what `*ret` still holds when the node has no key. -/
def btree_find_index (t : BTree) (key : Int) (ret : Int) : Nat × Int :=
  findIndexFrom key t.key 0 ret

/-- One 4-byte word of a node, from `&key[0]` on. -/
inductive Word where
  /-- A live key. -/
  | key (v : Int)
  /-- Word `part` of the pointer stored in `child[slot]`. -/
  | ptr (slot part : Nat)
  /-- A key slot past the live prefix, or padding. -/
  | junk
deriving Repr, DecidableEq

/-- The words of a node from `&key[0]` to the end of the struct: the
`KEY_NUM` key slots, the padding, the `KEY_NUM + 1` child slots. -/
def nodeWords (dm : DataModel) (ks : List Int) : List Word :=
  ks.map Word.key ++ List.replicate (KEY_NUM - ks.length) Word.junk
    ++ List.replicate dm.padWords Word.junk
    ++ (List.range (KEY_NUM + 1)).flatMap fun s => (List.range dm.ptrWords).map (Word.ptr s)

/-- The effect on the words `mem` of `memmove(&mem[dst], &mem[src], 4 * n)`. -/
def memmoveWords (mem : List Word) (dst src n : Nat) : List Word :=
  (List.range mem.length).map fun j =>
    if dst ≤ j ∧ j < dst + n then mem.getD (src + (j - dst)) Word.junk
    else mem.getD j Word.junk

/-- Child slot `s` of the words `mem` still holds the pointer it held
originally. -/
def slotIntact (dm : DataModel) (mem : List Word) (s : Nat) : Bool :=
  (List.range dm.ptrWords).all fun p =>
    mem.getD (KEY_NUM + dm.padWords + s * dm.ptrWords + p) Word.junk == Word.ptr s p

/-- The keys among the first `n` words. -/
def liveKeys (mem : List Word) (n : Nat) : List Int :=
  (mem.take n).filterMap fun w =>
    match w with
    | .key v => some v
    | _ => none

/-- The words of a node with the keys `ks` after
`memmove(&sibling->key[0], &sibling->key[1], sizeof(type_t*) * (sibling->num))`
(lines 225-227), `sibling->num` being `ks.length - 1` by then: the byte count
is `sizeof(type_t*) / sizeof(type_t)` words for each of the `num` keys. -/
def shiftedWords (dm : DataModel) (ks : List Int) : List Word :=
  memmoveWords (nodeWords dm ks) 0 1 (dm.ptrWords * (ks.length - 1))

/-- The shrinking of the right sibling after a key was borrowed from it
(lines 223-231):
`sibling->num--;`
`memmove(&sibling->key[0], &sibling->key[1], sizeof(type_t*) * (sibling->num));`
`memmove(&sibling->child[0], &sibling->child[1], sizeof(btree_t*) * (sibling->num + 1));`
The first `memmove` counts its bytes in pointers, not in keys, so it is
carried out on the words of the node; the second then moves whatever the
child slots `1 .. num + 1` hold by then.  The child slots of a leaf are never
read. -/
def shrinkRightSibling (dm : DataModel) : BTree → Outcome BTree
  | .node leaf ks cs =>
    if ks.length = 0 ∨ ks.length > KEY_NUM then .undefined
    else if (liveKeys (shiftedWords dm ks) (ks.length - 1)).length ≠ ks.length - 1 then
      .undefined
    else if leaf then
      .ok (.node leaf (liveKeys (shiftedWords dm ks) (ks.length - 1)) cs)
    else if (List.range ks.length).all fun i => slotIntact dm (shiftedWords dm ks) (i + 1) then
      .ok (.node leaf (liveKeys (shiftedWords dm ks) (ks.length - 1))
        ((cs.drop 1).take ks.length))
    else .corrupt

/-- What one activation of `btree_delete` does before it returns or calls
itself. -/
inductive Step where
  /-- It returns `t` without a recursive call (cases 1 and 2). -/
  | done (t : BTree)
  /-- The node is now `btree`; the activation calls itself on
  `btree->child[i]` with the key `key`, and the node the callee leaves stays
  in that slot. -/
  | into (btree : BTree) (i : Nat) (key : Int)
  /-- The node was freed and `btree` set to `child`; the activation calls
  itself on `child` with the key `key` and returns `child`. -/
  | root (child : BTree) (key : Int)
deriving Repr, DecidableEq

/-- Removal of the separator `key[i]` and of the child slot `child[i + 1]`
from the node `node leaf ks cs`, whose child in slot `i` has become `merged`
(lines 164-180, 280-294 and 318-332): with more than one key the node shrinks
by the two `memmove`s, otherwise it is freed and the merged child takes its
place.  The recursion goes on in the merged child with the key `key`. -/
def dropSeparator (leaf : Bool) (ks : List Int) (cs : List BTree)
    (i : Nat) (merged : BTree) (key : Int) : Step :=
  if ks.length > 1 then
    .into (.node leaf (ks.eraseIdx i) ((cs.set i merged).eraseIdx (i + 1))) i key
  else .root merged key

/-- The right sibling of `child[index]` as the conditions at lines 213-215 and
260-262 read it: `(index < btree->num) && (sibling = btree->child[index + 1])`. -/
def rightSibling (ks : List Int) (cs : List BTree) (index : Nat) : Option BTree :=
  if index < ks.length then cs[index + 1]? else none

/-- The left sibling of `child[index]` as the conditions at lines 234-236 and
298-300 read it: `(index > 0) && (sibling = btree->child[index - 1])`. -/
def leftSibling (cs : List BTree) (index : Nat) : Option BTree :=
  if index > 0 then cs[index - 1]? else none

/-- Delete case 3 (lines 194-340) on the node `node leaf ks cs` for the child
index `index`: the enrichment of `child[index]` when it holds `M - 1` keys,
then the recursive call on it. -/
def enrich (dm : DataModel) (leaf : Bool) (ks : List Int) (cs : List BTree)
    (index : Nat) (key : Int) : Outcome Step :=
  match cs[index]? with
  | none => .undefined
  | some child =>
    if child.num ≠ M - 1 then .ok (.into (.node leaf ks cs) index key)
    else
      match rightSibling ks cs index, leftSibling cs index with
      | right, left =>
        if (match right with | some s => decide (s.num ≥ M) | none => false) then
          -- lines 213-232: borrow from the right sibling
          match right, ks[index]? with
          | some sibling, some sep =>
            match sibling.key.head?, shrinkRightSibling dm sibling with
            | some up, .ok sibling1 =>
              .ok (.into (.node leaf (ks.set index up)
                ((cs.set index (.node child.leaf (child.key ++ [sep])
                    (child.child ++ sibling.child.head?.toList))).set (index + 1) sibling1))
                index key)
            | none, _ => .undefined
            | _, .undefined => .undefined
            | _, .corrupt => .corrupt
            | _, .exhausted => .exhausted
          | _, _ => .undefined
        else if (match left with | some s => decide (s.num ≥ M) | none => false) then
          -- lines 234-253: borrow from the left sibling
          match left, ks[index - 1]? with
          | some sibling, some sep =>
            match sibling.key.getLast? with
            | some up =>
              .ok (.into (.node leaf (ks.set (index - 1) up)
                ((cs.set index (.node child.leaf (sep :: child.key)
                    ((sibling.child[sibling.num]?).toList ++ child.child))).set (index - 1)
                  (.node sibling.leaf sibling.key.dropLast (sibling.child.take sibling.num))))
                index key)
            | none => .undefined
          | _, _ => .undefined
        else if (match right with | some s => decide (s.num = M - 1) | none => false) then
          -- lines 260-297: merge with the right sibling
          match right, ks[index]? with
          | some sibling, some sep =>
            .ok (dropSeparator leaf ks cs index
              (.node child.leaf (child.key ++ sep :: sibling.key) (child.child ++ sibling.child))
              key)
          | _, _ => .undefined
        else if (match left with | some s => decide (s.num = M - 1) | none => false) then
          -- lines 298-337: merge with the left sibling
          match left, ks[index - 1]? with
          | some sibling, some sep =>
            .ok (dropSeparator leaf ks cs (index - 1)
              (.node sibling.leaf (sibling.key ++ sep :: child.key) (sibling.child ++ child.child))
              key)
          | _, _ => .undefined
        else .ok (.into (.node leaf ks cs) index key)

/-- One activation of `btree_delete` (lines 69-343) up to its return or its
recursive call.  `ret0` is the value the uninitialised local `ret` happens to
hold. -/
def deleteStep (dm : DataModel) (ret0 : Int) : BTree → Int → Outcome Step
  | .node leaf ks cs, key =>
    match btree_find_index (.node leaf ks cs) key ret0 with
    | (index, ret) =>
      if leaf ∧ ret = 0 then
        -- case 1, lines 78-89: the memmove has length num - index - 1
        if index ≥ ks.length then .undefined
        else .ok (.done (.node leaf (ks.eraseIdx index) cs))
      else if leaf then .ok (.done (.node leaf ks cs))
      else if ret = 0 then
        match cs[index]? with
        | none => .undefined
        | some preceding =>
          if preceding.num ≥ M then
            -- case 2a, lines 107-121
            match preceding.key.getLast? with
            | some replace => .ok (.into (.node leaf (ks.set index replace) cs) index replace)
            | none => .undefined
          else
            match cs[index + 1]? with
            | none => .undefined
            | some successor =>
              if successor.num ≥ M then
                -- case 2b, lines 124-138
                match successor.key.head? with
                | some replace =>
                  .ok (.into (.node leaf (ks.set index replace) cs) (index + 1) replace)
                | none => .undefined
              else if preceding.num = M - 1 ∧ successor.num = M - 1 then
                -- case 2c, lines 141-189
                .ok (dropSeparator leaf ks cs index
                  (.node preceding.leaf (preceding.key ++ key :: successor.key)
                    (preceding.child ++ successor.child)) key)
              else enrich dm leaf ks cs index key
      else enrich dm leaf ks cs index key

/-- Puts the outcome of a recursive call on `btree->child[i]` back into the
slot `i` of `btree`. -/
def putChild (btree : BTree) (i : Nat) : Outcome BTree → Outcome BTree
  | .ok c => .ok (.node btree.leaf btree.key (btree.child.set i c))
  | e => e

/-- The function `btree_delete` (lines 69-343) with a recursion budget.

The calls at lines 186 and 340 discard the pointer the callee returns.  The
callee returns a node other than the one it was given only when that node
holds at most one key; at line 186 the callee gets a node of `2M - 1` keys,
and at line 340 a node of at least `M` keys whenever the children of `btree`
hold at least `M - 1` keys.  The model puts the callee's result into the
slot of the node it was called on. -/
def btree_delete_aux (dm : DataModel) (ret0 : Int) : Nat → BTree → Int → Outcome BTree
  | 0, _, _ => .exhausted
  | fuel + 1, t, key =>
    match deleteStep dm ret0 t key with
    | .ok (.done t1) => .ok t1
    | .ok (.into b i k) =>
      match b.child[i]? with
      | some c => putChild b i (btree_delete_aux dm ret0 fuel c k)
      | none => .undefined
    | .ok (.root c k) => btree_delete_aux dm ret0 fuel c k
    | .undefined => .undefined
    | .corrupt => .corrupt
    | .exhausted => .exhausted

/-- The function `btree_delete` (lines 69-343) on a tree, for the data model `dm` and the
value `ret0` of the uninitialised local `ret`. -/
def btree_delete (dm : DataModel) (ret0 : Int) (t : BTree) (key : Int) : Outcome BTree :=
  btree_delete_aux dm ret0 (height t) t key

/-! ## Auxiliary definitions of the proofs -/

/-- The part of the in-order traversal of a node that comes before a child:
each earlier child followed by its separator. -/
def headA : List Int → List BTree → List Int
  | k :: ks, c :: cs => inorder c ++ k :: headA ks cs
  | _, _ => []

/-- The part of the in-order traversal of a node that comes after a child:
each later separator followed by its child. -/
def tailB : List Int → List BTree → List Int
  | [], _ => []
  | k :: ks, cs => k :: inorderList ks cs

/-- Along the path that `btree_delete` takes from the node for `key`, every
node below this one holds at least `M` keys, so that no borrow and no merge
takes place. -/
def richPath (key : Int) : Nat → BTree → Bool
  | 0, _ => false
  | h + 1, .node leaf ks cs =>
    leaf ||
    (match cs[(btree_find_index (.node leaf ks cs) key 0).1]? with
     | some c => decide (c.num ≥ M) && richPath key h c
     | none => false)

/-- The specification of one insertion on traversals: `after` is `before`
with `key` put in behind the keys not above it and in front of the keys not
below it. -/
def InsertedAt (key : Int) (before after : List Int) : Prop :=
  ∃ l r, before = l ++ r ∧ after = l ++ key :: r ∧
    (∀ x ∈ l, x ≤ key) ∧ (∀ x ∈ r, key ≤ x)

/-! ## The test driver and the trees of the examples -/

/-- The first loop of `main` (lines 482-484), `btree = btree_insert(btree, i)`,
run over the keys `keys`. -/
def insertAll : BTree → List Int → Outcome BTree
  | t, [] => .ok t
  | t, k :: ks =>
    match btree_insert t k with
    | .ok t1 => insertAll t1 ks
    | e => e

/-- The keys `1 .. NUM - 1` of the loops of `main`, `NUM` being 20000. -/
def testKeys : List Int := (List.range 19999).map fun i => (i : Int) + 1

/-- The keys `1 .. n` in increasing order. -/
def upTo (n : Nat) : List Int := (List.range n).map fun i => (i : Int) + 1

/-- The tree that `btree_insert` builds from the empty tree and the keys
1, 2, ..., 8: the root was split once. -/
def eightKeys : BTree :=
  .node false [4] [.node true [1, 2, 3] [], .node true [5, 6, 7, 8] []]

/-- A root leaf with the two keys -2000000000 and 2000000000. -/
def farApart : BTree := .node true [-2000000000, 2000000000] []

/-- The tree that `btree_insert` builds from the empty tree and the keys
36, 35, ..., 1: three levels, the left child of the root holds `M` keys. -/
def descending36 : BTree :=
  .node false [21]
    [.node false [5, 9, 13, 17]
      [.node true [1, 2, 3, 4] [], .node true [6, 7, 8] [], .node true [10, 11, 12] [],
       .node true [14, 15, 16] [], .node true [18, 19, 20] []],
     .node false [25, 29, 33]
      [.node true [22, 23, 24] [], .node true [26, 27, 28] [], .node true [30, 31, 32] [],
       .node true [34, 35, 36] []]]

/-- The tree that `btree_insert` builds from the empty tree and the keys
1, 2, ..., 48: three levels, the left child of the root holds `M - 1` keys
and the right child `2M - 1` keys. -/
def ascending48 : BTree :=
  .node false [16]
    [.node false [4, 8, 12]
      [.node true [1, 2, 3] [], .node true [5, 6, 7] [], .node true [9, 10, 11] [],
       .node true [13, 14, 15] []],
     .node false [20, 24, 28, 32, 36, 40, 44]
      [.node true [17, 18, 19] [], .node true [21, 22, 23] [], .node true [25, 26, 27] [],
       .node true [29, 30, 31] [], .node true [33, 34, 35] [], .node true [37, 38, 39] [],
       .node true [41, 42, 43] [], .node true [45, 46, 47, 48] []]]

/-- What `btree_delete` makes of `descending36` for the key 21: the new root
key 17 has the keys 18, 19, 20 in its left subtree. -/
def descending36Less21 : BTree :=
  .node false [17]
    [.node false [5, 9, 13]
      [.node true [1, 2, 3, 4] [], .node true [6, 7, 8] [], .node true [10, 11, 12] [],
       .node true [14, 15, 16, 18, 19, 20] []],
     .node false [25, 29, 33]
      [.node true [22, 23, 24] [], .node true [26, 27, 28] [], .node true [30, 31, 32] [],
       .node true [34, 35, 36] []]]

/-- The third loop of `main` (lines 495-498) over the keys `keys`:
`btree = btree_delete(btree, i); btree = btree_insert(btree, i);`. -/
def reinsertAll (dm : DataModel) (ret0 : Int) : BTree → List Int → Outcome BTree
  | t, [] => .ok t
  | t, k :: ks =>
    match btree_delete dm ret0 t k with
    | .ok t1 =>
      match btree_insert t1 k with
      | .ok t2 => reinsertAll dm ret0 t2 ks
      | e => e
    | e => e

/-- The run of `main` with `NUM = n + 1`, the third loop cut off after the
key `m`: the keys `1 .. n` are inserted into the empty tree, then each of the
keys `1 .. m` is deleted and inserted again. -/
def testRun (dm : DataModel) (ret0 : Int) (n m : Nat) : Outcome BTree :=
  match insertAll btree_create (upTo n) with
  | .ok t => reinsertAll dm ret0 t (upTo m)
  | e => e

/-- The keys among `keys` that `btree_search` does not find in the tree an
operation left behind. -/
def notFound (keys : List Int) : Outcome BTree → List Int
  | .ok t => keys.filter fun k => (btree_search t k).1.isNone
  | _ => []

/-- What `btree_insert` makes of `descending36Less21` for the key 21. -/
def descending36Again : BTree :=
  .node false [17]
    [.node false [5, 9, 13]
      [.node true [1, 2, 3, 4] [], .node true [6, 7, 8] [], .node true [10, 11, 12] [],
       .node true [14, 15, 16, 18, 19, 20] []],
     .node false [25, 29, 33]
      [.node true [21, 22, 23, 24] [], .node true [26, 27, 28] [], .node true [30, 31, 32] [],
       .node true [34, 35, 36] []]]

/-! ## Insertion with allocations that may fail -/

/-- The function `btree_split_child` with its `malloc` (lines 375-377): when
the allocation fails (`alloc = false`) the function returns `NULL` (`none`)
before it writes anything. -/
def btree_split_child_alloc (alloc : Bool) (parent : BTree) (pos : Nat) (child : BTree) :
    Outcome (Option BTree) :=
  if alloc then
    match btree_split_child parent pos child with
    | .ok p => .ok (some p)
    | .undefined => .undefined
    | .corrupt => .corrupt
    | .exhausted => .exhausted
  else .ok none

/-- The function `btree_insert_nonfull` (lines 431-468) with the allocations
of its splits: `allocs` says for each `malloc` of the descent, in order,
whether it succeeds (past the end of the list every one does).  Line 457
discards the pointer that `btree_split_child` returns; after a failed split
the node is as before, line 459 compares the key with `btree->key[i]`, a
slot past the live prefix when `i = num`, and line 464 descends into the
child, which is still full. -/
def btree_insert_nonfull_alloc : Nat → List Bool → BTree → Int → Outcome BTree
  | 0, _, _, _ => .exhausted
  | fuel + 1, allocs, .node leaf ks cs, key =>
    if leaf then
      if ks.length ≥ KEY_NUM then .undefined
      else .ok (.node leaf
        (ks.take (scanDown key ks ks.length) ++ key :: ks.drop (scanDown key ks ks.length)) cs)
    else
      match cs[scanDown key ks ks.length]? with
      | none => .undefined
      | some c =>
        if c.num = KEY_NUM then
          match btree_split_child_alloc (allocs.headD true) (.node leaf ks cs)
              (scanDown key ks ks.length) c with
          | .ok (some p) =>
            match p.child[if key > p.key.getD (scanDown key ks ks.length) 0
                then scanDown key ks ks.length + 1 else scanDown key ks ks.length]? with
            | none => .undefined
            | some c2 =>
              match btree_insert_nonfull_alloc fuel allocs.tail c2 key with
              | .ok c3 => .ok (.node p.leaf p.key
                  (p.child.set (if key > p.key.getD (scanDown key ks ks.length) 0
                    then scanDown key ks ks.length + 1 else scanDown key ks ks.length) c3))
              | e => e
          | .ok none =>
            match ks[scanDown key ks ks.length]? with
            | none => .undefined
            | some ki =>
              match cs[if key > ki then scanDown key ks ks.length + 1
                  else scanDown key ks ks.length]? with
              | none => .undefined
              | some c2 =>
                match btree_insert_nonfull_alloc fuel allocs.tail c2 key with
                | .ok c3 => .ok (.node leaf ks
                    (cs.set (if key > ki then scanDown key ks ks.length + 1
                      else scanDown key ks ks.length) c3))
                | e => e
          | .undefined => .undefined
          | .corrupt => .corrupt
          | .exhausted => .exhausted
        else
          match btree_insert_nonfull_alloc fuel allocs c key with
          | .ok c3 => .ok (.node leaf ks (cs.set (scanDown key ks ks.length) c3))
          | e => e

/-- The function `btree_insert` (lines 51-67) with its allocations; the result
is the pointer it returns, `none` for `NULL`.  When the `malloc` of the new
root fails it returns `NULL` and has written nothing (lines 56-58).  When the
`malloc` inside `btree_split_child` fails, line 63 sets `btree` to `NULL` and
line 66 passes it to `btree_insert_nonfull`, which reads `btree->num`. -/
def btree_insert_alloc (allocs : List Bool) (t : BTree) (key : Int) : Outcome (Option BTree) :=
  if t.num = KEY_NUM then
    if allocs.headD true then
      match btree_split_child_alloc (allocs.tail.headD true) (.node false [] [t]) 0 t with
      | .ok (some p) =>
        match btree_insert_nonfull_alloc (height p) allocs.tail.tail p key with
        | .ok t1 => .ok (some t1)
        | .undefined => .undefined
        | .corrupt => .corrupt
        | .exhausted => .exhausted
      | .ok none => .undefined
      | .undefined => .undefined
      | .corrupt => .corrupt
      | .exhausted => .exhausted
    else .ok none
  else
    match btree_insert_nonfull_alloc (height t) allocs t key with
    | .ok t1 => .ok (some t1)
    | .undefined => .undefined
    | .corrupt => .corrupt
    | .exhausted => .exhausted

/-- A root leaf that is full: the tree built from the keys 1 .. 7. -/
def sevenKeys : BTree := .node true [1, 2, 3, 4, 5, 6, 7] []

/-- A root with two keys over three leaves, the middle one full. -/
def fullMiddle : BTree :=
  .node false [4, 20]
    [.node true [1, 2, 3] [], .node true [5, 6, 7, 8, 9, 10, 11] [],
     .node true [21, 22, 23] []]

/-- A root with one key over two leaves of `M - 1` keys each. -/
def minimalPair : BTree :=
  .node false [4] [.node true [1, 2, 3] [], .node true [5, 6, 7] []]

/-! # Lemmas -/

/-! ## Lists of keys and scans -/

theorem scanUp_le (key : Int) (ks : List Int) : scanUp key ks ≤ ks.length := by
  induction ks with
  | nil => simp [scanUp]
  | cons k ks ih =>
    simp only [scanUp]
    split <;> simp [ih]

theorem scanUp_take_lt (key : Int) (ks : List Int) :
    ∀ x ∈ ks.take (scanUp key ks), x < key := by
  induction ks with
  | nil => simp [scanUp]
  | cons k ks ih =>
    simp only [scanUp]
    split
    · intro x hx
      simp only [List.take_succ_cons, List.mem_cons] at hx
      rcases hx with rfl | hx
      · omega
      · exact ih x hx
    · simp

theorem scanUp_drop_ge (key : Int) (ks : List Int) :
    ∀ x, (ks.drop (scanUp key ks)).head? = some x → key ≤ x := by
  induction ks with
  | nil => simp [scanUp]
  | cons k ks ih =>
    simp only [scanUp]
    split
    · intro x hx
      simp only [List.drop_succ_cons] at hx
      exact ih x hx
    · intro x hx
      simp at hx
      omega

theorem scanDown_le (key : Int) (ks : List Int) (n : Nat) : scanDown key ks n ≤ n := by
  induction n with
  | zero => simp [scanDown]
  | succ n ih =>
    simp only [scanDown]
    split <;> omega

theorem scanDown_gt (key : Int) (ks : List Int) (n : Nat) :
    ∀ j, scanDown key ks n ≤ j → j < n → key < ks.getD j 0 := by
  induction n with
  | zero => intro j _ h; omega
  | succ n ih =>
    intro j h1 h2
    simp only [scanDown] at h1
    split at h1
    · by_cases hj : j = n
      · subst hj; assumption
      · exact ih j h1 (by omega)
    · omega

theorem scanDown_le_key (key : Int) (ks : List Int) (n : Nat) :
    0 < scanDown key ks n → ks.getD (scanDown key ks n - 1) 0 ≤ key := by
  induction n with
  | zero => simp [scanDown]
  | succ n ih =>
    simp only [scanDown]
    split
    · exact ih
    · intro _
      simp only [Nat.add_sub_cancel]
      omega

theorem scanDown_drop_gt (key : Int) (ks : List Int) :
    ∀ x ∈ ks.drop (scanDown key ks ks.length), key < x := by
  intro x hx
  obtain ⟨j, hj, rfl⟩ := List.getElem_of_mem hx
  simp only [List.length_drop] at hj
  have := scanDown_gt key ks ks.length (scanDown key ks ks.length + j) (by omega) (by omega)
  rw [List.getElem_drop]
  rw [List.getD_eq_getElem _ _ (by omega)] at this
  exact this

theorem pairwise_le_getLast (l : List Int) (h : l.Pairwise (· ≤ ·)) :
    ∀ x ∈ l, ∀ y, l.getLast? = some y → x ≤ y := by
  induction l with
  | nil => simp
  | cons a l ih =>
    intro x hx y hy
    rw [List.pairwise_cons] at h
    cases l with
    | nil =>
      simp at hx hy
      omega
    | cons b l =>
      rw [List.getLast?_cons_cons] at hy
      rcases List.mem_cons.1 hx with rfl | hx
      · have : y ∈ b :: l := List.mem_of_getLast?_eq_some hy
        exact h.1 y this
      · exact ih h.2 x hx y hy

theorem scanDown_take_le (key : Int) (ks : List Int) (h : ks.Pairwise (· ≤ ·)) :
    ∀ x ∈ ks.take (scanDown key ks ks.length), x ≤ key := by
  intro x hx
  have hp := scanDown_le key ks ks.length
  by_cases h0 : scanDown key ks ks.length = 0
  · rw [h0] at hx; simp at hx
  · have h1 := scanDown_le_key key ks ks.length (by omega)
    rw [List.getD_eq_getElem _ _ (by omega)] at h1
    have hs : (ks.take (scanDown key ks ks.length)).Pairwise (· ≤ ·) :=
      h.sublist (List.take_sublist _ _)
    have hl : (ks.take (scanDown key ks ks.length)).getLast? =
        some (ks[scanDown key ks ks.length - 1]) := by
      rw [List.getLast?_eq_getElem?]
      simp only [List.length_take, Nat.min_eq_left hp]
      rw [List.getElem?_take_of_lt (by omega)]
      exact List.getElem?_eq_getElem (by omega)
    exact le_trans (pairwise_le_getLast _ hs x hx _ hl) h1

/-! ## In-order traversal of a node around one child -/

theorem leaf_node (l : Bool) (ks : List Int) (cs : List BTree) :
    (BTree.node l ks cs).leaf = l := rfl

theorem key_node (l : Bool) (ks : List Int) (cs : List BTree) :
    (BTree.node l ks cs).key = ks := rfl

theorem child_node (l : Bool) (ks : List Int) (cs : List BTree) :
    (BTree.node l ks cs).child = cs := rfl

theorem num_node (l : Bool) (ks : List Int) (cs : List BTree) :
    (BTree.node l ks cs).num = ks.length := rfl

theorem inorder_node (leaf : Bool) (ks : List Int) (cs : List BTree) :
    inorder (.node leaf ks cs) = if leaf then ks else inorderList ks cs := by
  simp [inorder]

theorem inorderList_cons (ks : List Int) (c : BTree) (cs : List BTree) :
    inorderList ks (c :: cs) = inorder c ++ tailB ks cs := by
  cases ks <;> simp [inorderList, tailB]

theorem inorderList_append (ks1 ks2 : List Int) (cs1 rest : List BTree)
    (h : cs1.length = ks1.length) :
    inorderList (ks1 ++ ks2) (cs1 ++ rest) = headA ks1 cs1 ++ inorderList ks2 rest := by
  induction ks1 generalizing cs1 with
  | nil =>
    cases cs1 with
    | nil => simp [headA]
    | cons c cs1 => simp at h
  | cons k ks1 ih =>
    cases cs1 with
    | nil => simp at h
    | cons c cs1 =>
      simp only [List.length_cons, Nat.add_right_cancel_iff] at h
      simp [inorderList, headA, ih cs1 h]

theorem inorderList_split (ks1 ks2 : List Int) (cs1 : List BTree) (c : BTree)
    (cs2 : List BTree) (h : cs1.length = ks1.length) :
    inorderList (ks1 ++ ks2) (cs1 ++ c :: cs2) =
      headA ks1 cs1 ++ (inorder c ++ tailB ks2 cs2) := by
  rw [inorderList_append _ _ _ _ h, inorderList_cons]

theorem headA_append (ks1 : List Int) (cs1 : List BTree) (k : Int) (c : BTree)
    (h : cs1.length = ks1.length) :
    headA (ks1 ++ [k]) (cs1 ++ [c]) = headA ks1 cs1 ++ (inorder c ++ [k]) := by
  induction ks1 generalizing cs1 with
  | nil =>
    cases cs1 with
    | nil => simp [headA]
    | cons c cs1 => simp at h
  | cons k1 ks1 ih =>
    cases cs1 with
    | nil => simp at h
    | cons c1 cs1 =>
      simp only [List.length_cons, Nat.add_right_cancel_iff] at h
      simp [headA, ih cs1 h]

theorem keys_sublist_headA (ks1 : List Int) (cs1 : List BTree)
    (h : cs1.length = ks1.length) : ks1.Sublist (headA ks1 cs1) := by
  induction ks1 generalizing cs1 with
  | nil => simp
  | cons k ks1 ih =>
    cases cs1 with
    | nil => simp at h
    | cons c cs1 =>
      simp only [List.length_cons, Nat.add_right_cancel_iff] at h
      simp only [headA]
      exact List.Sublist.trans ((ih cs1 h).cons₂ k) (List.sublist_append_right _ _)

theorem keys_sublist_inorderList (ks : List Int) (cs : List BTree)
    (h : cs.length = ks.length + 1) : ks.Sublist (inorderList ks cs) := by
  induction ks generalizing cs with
  | nil => simp
  | cons k ks ih =>
    cases cs with
    | nil => simp at h
    | cons c cs =>
      simp only [List.length_cons, Nat.add_right_cancel_iff] at h
      simp only [inorderList]
      exact List.Sublist.trans ((ih cs h).cons₂ k) (List.sublist_append_right _ _)

/-- The keys before a child are bounded by the separators before it. -/
theorem headA_le (ks1 : List Int) (cs1 : List BTree) (rest : List Int)
    (hs : (headA ks1 cs1 ++ rest).Pairwise (· ≤ ·)) :
    ∀ a ∈ headA ks1 cs1, ∃ k ∈ ks1, a ≤ k := by
  induction ks1 generalizing cs1 with
  | nil => simp [headA]
  | cons k ks1 ih =>
    cases cs1 with
    | nil => simp [headA]
    | cons c cs1 =>
      simp only [headA, List.append_assoc, List.cons_append] at hs ⊢
      intro a ha
      rw [List.pairwise_append] at hs
      rcases List.mem_append.1 ha with ha | ha
      · exact ⟨k, List.mem_cons_self _ _, hs.2.2 a ha k (List.mem_cons_self _ _)⟩
      · rcases List.mem_cons.1 ha with rfl | ha
        · exact ⟨a, List.mem_cons_self _ _, le_refl _⟩
        · obtain ⟨k1, hk1, hle⟩ := ih cs1 (List.Pairwise.of_cons hs.2.1) a ha
          exact ⟨k1, List.mem_cons_of_mem _ hk1, hle⟩

/-- The keys after a child are bounded below by the separator after it. -/
theorem tailB_ge (ks2 : List Int) (cs2 : List BTree) (front : List Int)
    (hs : (front ++ tailB ks2 cs2).Pairwise (· ≤ ·)) :
    ∀ b ∈ tailB ks2 cs2, ∃ k, ks2.head? = some k ∧ k ≤ b := by
  cases ks2 with
  | nil => simp [tailB]
  | cons k ks2 =>
    simp only [tailB] at hs ⊢
    intro b hb
    refine ⟨k, rfl, ?_⟩
    rw [List.pairwise_append] at hs
    rcases List.mem_cons.1 hb with rfl | hb
    · exact le_refl _
    · exact (List.pairwise_cons.1 hs.2.1).1 b hb

theorem list_split_at (cs : List BTree) (i : Nat) (c : BTree) (h : cs[i]? = some c) :
    cs = cs.take i ++ c :: cs.drop (i + 1) ∧ (cs.take i).length = i := by
  have hi : i < cs.length := by
    by_contra hc
    rw [List.getElem?_eq_none (by omega)] at h
    cases h
  have hc : cs[i] = c := by
    rw [List.getElem?_eq_getElem hi] at h
    exact Option.some.inj h
  refine ⟨?_, by simp; omega⟩
  rw [← hc]
  simp

theorem list_set_at (cs : List BTree) (i : Nat) (c : BTree) (h : i < cs.length) :
    cs.set i c = cs.take i ++ c :: cs.drop (i + 1) := by
  rw [List.set_eq_take_append_cons_drop, if_pos h]

/-! ## The shape invariant -/

theorem shaped_iff (r : Bool) (h : Nat) (leaf : Bool) (ks : List Int) (cs : List BTree) :
    shaped r (h + 1) (.node leaf ks cs) = true ↔
      ks.length ≤ KEY_NUM ∧
      (r = false → M - 1 ≤ ks.length) ∧
      (r = true → leaf = false → 1 ≤ ks.length) ∧
      (leaf = true → h = 0 ∧ cs = []) ∧
      (leaf = false → cs.length = ks.length + 1 ∧ ∀ c ∈ cs, shaped false h c = true) := by
  cases r <;> cases leaf <;> simp [shaped, List.isEmpty_iff, and_assoc]

theorem shaped_zero (r : Bool) (t : BTree) : shaped r 0 t = false := by
  cases t; rfl

theorem heightList_eq (cs : List BTree) (h : Nat) (hc : ∀ c ∈ cs, height c = h)
    (hne : cs ≠ []) : heightList cs = h := by
  induction cs with
  | nil => exact absurd rfl hne
  | cons c cs ih =>
    simp only [heightList]
    have h1 := hc c (List.mem_cons_self _ _)
    cases cs with
    | nil => simp [heightList, h1]
    | cons d cs =>
      have := ih (fun x hx => hc x (List.mem_cons_of_mem _ hx)) (by simp)
      rw [h1, this]; simp

theorem shaped_height (r : Bool) (h : Nat) (t : BTree) (hs : shaped r h t = true) :
    height t = h := by
  induction h generalizing r t with
  | zero => rw [shaped_zero] at hs; cases hs
  | succ h ih =>
    obtain ⟨leaf, ks, cs⟩ := t
    rw [shaped_iff] at hs
    obtain ⟨_, _, _, hl, hi⟩ := hs
    cases leaf with
    | true =>
      obtain ⟨h0, hcs⟩ := hl rfl
      subst h0; subst hcs
      simp [height, heightList]
    | false =>
      obtain ⟨hlen, hall⟩ := hi rfl
      have hne : cs ≠ [] := by
        intro hc; rw [hc] at hlen; simp at hlen
      simp only [height]
      rw [heightList_eq cs h (fun c hc => ih false c (hall c hc)) hne]

theorem shaped_root_of (h : Nat) (t : BTree) (hs : shaped false h t = true) :
    shaped true h t = true := by
  cases h with
  | zero => rw [shaped_zero] at hs; cases hs
  | succ h =>
    obtain ⟨leaf, ks, cs⟩ := t
    rw [shaped_iff] at hs ⊢
    obtain ⟨h1, h2, _, h4, h5⟩ := hs
    refine ⟨h1, by simp, ?_, h4, h5⟩
    intro _ _
    have := h2 rfl
    simp only [M] at this
    omega

/-! ## From the ordering invariant to a sorted traversal -/

theorem strictSorted_pairwise (ks : List Int) (h : strictSorted ks = true) :
    ks.Pairwise (· < ·) := by
  induction ks with
  | nil => exact List.Pairwise.nil
  | cons a l ih =>
    cases l with
    | nil => simp
    | cons b l =>
      simp only [strictSorted, Bool.and_eq_true, decide_eq_true_eq] at h
      have hp := ih h.2
      rw [List.pairwise_cons]
      refine ⟨?_, hp⟩
      intro x hx
      rcases List.mem_cons.1 hx with rfl | hx
      · exact h.1
      · exact lt_trans h.1 ((List.pairwise_cons.1 hp).1 x hx)

theorem between_iff (lo hi : Option Int) (t : BTree) :
    between lo hi t = true ↔
      ∀ x ∈ inorder t, (∀ l, lo = some l → l < x) ∧ (∀ u, hi = some u → x < u) := by
  cases lo <;> cases hi <;> simp [between, List.all_eq_true]

theorem orderedList_sorted (cs : List BTree) :
    ∀ (ks : List Int) (lo : Option Int), ks.Pairwise (· < ·) →
      (∀ l, lo = some l → ∀ k ∈ ks, l < k) →
      orderedList lo ks cs = true →
      (∀ c ∈ cs, ordered c = true → (inorder c).Pairwise (· < ·)) →
      cs.length = ks.length + 1 →
      (inorderList ks cs).Pairwise (· < ·) ∧
        ∀ x ∈ inorderList ks cs, ∀ l, lo = some l → l < x := by
  induction cs with
  | nil => intro ks lo _ _ _ _ hlen; simp at hlen
  | cons c cs ih =>
    intro ks lo hks hlo ho hc hlen
    simp only [orderedList, Bool.and_eq_true] at ho
    obtain ⟨⟨hoc, hb⟩, hrest⟩ := ho
    rw [between_iff] at hb
    have hcs := hc c (List.mem_cons_self _ _) hoc
    cases ks with
    | nil =>
      simp only [inorderList]
      exact ⟨hcs, fun x hx l hl => (hb x hx).1 l hl⟩
    | cons k ks =>
      simp only [List.length_cons, Nat.add_right_cancel_iff] at hlen
      simp only [List.head?_cons, List.tail_cons] at hb hrest
      rw [List.pairwise_cons] at hks
      obtain ⟨ih1, ih2⟩ := ih ks (some k) hks.2
        (fun l hl x hx => by cases hl; exact hks.1 x hx) hrest
        (fun d hd => hc d (List.mem_cons_of_mem _ hd)) hlen
      simp only [inorderList]
      constructor
      · rw [List.pairwise_append]
        refine ⟨hcs, ?_, ?_⟩
        · rw [List.pairwise_cons]
          exact ⟨fun x hx => ih2 x hx k rfl, ih1⟩
        · intro a ha b hb2
          have ha1 := (hb a ha).2 k rfl
          rcases List.mem_cons.1 hb2 with rfl | hb2
          · exact ha1
          · exact lt_trans ha1 (ih2 b hb2 k rfl)
      · intro x hx l hl
        have hlk : l < k := hlo l hl k (List.mem_cons_self _ _)
        rcases List.mem_append.1 hx with hx | hx
        · exact (hb x hx).1 l hl
        · rcases List.mem_cons.1 hx with rfl | hx
          · exact hlk
          · exact lt_trans hlk (ih2 x hx k rfl)

theorem ordered_sorted (h : Nat) : ∀ (r : Bool) (t : BTree), shaped r h t = true →
    ordered t = true → (inorder t).Pairwise (· < ·) := by
  induction h with
  | zero => intro r t hs; rw [shaped_zero] at hs; cases hs
  | succ h ih =>
    intro r t hs ho
    obtain ⟨leaf, ks, cs⟩ := t
    rw [shaped_iff] at hs
    simp only [ordered, Bool.and_eq_true] at ho
    have hks := strictSorted_pairwise ks ho.1
    cases leaf with
    | true => simpa [inorder] using hks
    | false =>
      obtain ⟨hlen, hall⟩ := hs.2.2.2.2 rfl
      simp only [inorder, Bool.false_eq_true, if_false]
      exact (orderedList_sorted cs ks none hks (by simp) ho.2
        (fun c hc hoc => ih false c (hall c hc) hoc) hlen).1

theorem wellFormed_iff (t : BTree) :
    wellFormed t = true ↔ shaped true (height t) t = true ∧ ordered t = true := by
  simp [wellFormed]

theorem wellFormed_sorted (t : BTree) (h : wellFormed t = true) :
    (inorder t).Pairwise (· < ·) :=
  ordered_sorted (height t) true t ((wellFormed_iff t).1 h).1 ((wellFormed_iff t).1 h).2

theorem pairwise_lt_le (l : List Int) (h : l.Pairwise (· < ·)) : l.Pairwise (· ≤ ·) :=
  h.imp (fun hab => le_of_lt hab)

/-! ## Search -/

theorem searchChild_eq (cs : List BTree) (i : Nat) (key : Int) :
    searchChild cs i key =
      match cs[i]? with
      | some c => btree_search c key
      | none => (none, -1) := by
  induction cs generalizing i with
  | nil => simp [searchChild]
  | cons c cs ih =>
    cases i with
    | zero => simp [searchChild]
    | succ i => simp [searchChild, ih]

/-- What the traversal of an internal node looks like around the child in
slot `i`, with the bounds that a sorted traversal gives. -/
theorem inorder_around (ks : List Int) (cs : List BTree) (i : Nat) (c : BTree)
    (hlen : cs.length = ks.length + 1) (hi : i ≤ ks.length) (hc : cs[i]? = some c)
    (hs : (inorderList ks cs).Pairwise (· ≤ ·)) :
    inorderList ks cs =
        headA (ks.take i) (cs.take i) ++ (inorder c ++ tailB (ks.drop i) (cs.drop (i + 1))) ∧
      (∀ d, inorderList ks (cs.set i d) =
        headA (ks.take i) (cs.take i) ++ (inorder d ++ tailB (ks.drop i) (cs.drop (i + 1)))) ∧
      (∀ a ∈ headA (ks.take i) (cs.take i), ∃ k ∈ ks.take i, a ≤ k) ∧
      (∀ b ∈ tailB (ks.drop i) (cs.drop (i + 1)), ∃ k, ks[i]? = some k ∧ k ≤ b) := by
  obtain ⟨hsplit, htl⟩ := list_split_at cs i c hc
  have hkl : (cs.take i).length = (ks.take i).length := by
    rw [htl]; simp; omega
  have e1 : inorderList ks cs =
      headA (ks.take i) (cs.take i) ++ (inorder c ++ tailB (ks.drop i) (cs.drop (i + 1))) := by
    conv_lhs => rw [← List.take_append_drop i ks, hsplit]
    exact inorderList_split _ _ _ _ _ hkl
  refine ⟨e1, ?_, ?_, ?_⟩
  · intro d
    have hi2 : i < cs.length := by omega
    rw [list_set_at cs i d hi2]
    conv_lhs => rw [← List.take_append_drop i ks]
    exact inorderList_split _ _ _ _ _ hkl
  · rw [e1] at hs
    exact headA_le _ _ _ hs
  · rw [e1, ← List.append_assoc] at hs
    intro b hb
    obtain ⟨k, hk, hle⟩ := tailB_ge _ _ _ hs b hb
    rw [List.head?_drop] at hk
    exact ⟨k, hk, hle⟩

theorem not_mem_keys_of_scanUp (key : Int) (ks : List Int) (hs : ks.Pairwise (· ≤ ·))
    (hne : ks[scanUp key ks]? ≠ some key) : key ∉ ks := by
  intro hmem
  rw [← List.take_append_drop (scanUp key ks) ks] at hmem hs
  rcases List.mem_append.1 hmem with h | h
  · exact absurd (scanUp_take_lt key ks key h) (lt_irrefl _)
  · cases hd : ks.drop (scanUp key ks) with
    | nil => rw [hd] at h; cases h
    | cons x l =>
      have hx : (ks.drop (scanUp key ks)).head? = some x := by rw [hd]; rfl
      have hge := scanUp_drop_ge key ks x hx
      rw [List.head?_drop] at hx
      have hxk : x ≠ key := fun e => hne (by rw [hx, e])
      rw [hd] at h hs
      have hp := (List.pairwise_append.1 hs).2.1
      rw [List.pairwise_cons] at hp
      rcases List.mem_cons.1 h with e | h
      · exact hxk e.symm
      · have := hp.1 key h
        omega

theorem search_spec (key : Int) (h : Nat) : ∀ (r : Bool) (t : BTree),
    shaped r h t = true → (inorder t).Pairwise (· ≤ ·) →
    (key ∉ inorder t ∧ btree_search t key = (none, -1)) ∨
    (key ∈ inorder t ∧
      ∃ (n : BTree) (i : Nat),
        btree_search t key = (some n, (i : Int)) ∧ n.key[i]? = some key) := by
  induction h with
  | zero => intro r t hs; rw [shaped_zero] at hs; cases hs
  | succ h ih =>
    intro r t hs hsort
    obtain ⟨leaf, ks, cs⟩ := t
    rw [shaped_iff] at hs
    rw [btree_search]
    by_cases hfound : ks[scanUp key ks]? = some key
    · rw [if_pos hfound]
      right
      have hmem : key ∈ ks := List.getElem?_mem hfound
      refine ⟨?_, _, _, rfl, hfound⟩
      cases leaf with
      | true => simpa [inorder] using hmem
      | false =>
        simp only [inorder, Bool.false_eq_true, if_false]
        exact (keys_sublist_inorderList ks cs (hs.2.2.2.2 rfl).1).subset hmem
    · rw [if_neg hfound]
      cases leaf with
      | true =>
        left
        simp only [inorder, if_true] at hsort ⊢
        exact ⟨not_mem_keys_of_scanUp key ks hsort hfound, trivial⟩
      | false =>
        obtain ⟨hlen, hall⟩ := hs.2.2.2.2 rfl
        simp only [inorder, Bool.false_eq_true, if_false] at hsort ⊢
        have hi := scanUp_le key ks
        have hlt : scanUp key ks < cs.length := by omega
        have hc : cs[scanUp key ks]? = some cs[scanUp key ks] := List.getElem?_eq_getElem hlt
        obtain ⟨e1, _, hA, hB⟩ := inorder_around ks cs _ _ hlen hi hc hsort
        rw [searchChild_eq, hc]
        simp only
        have hcs : (inorder cs[scanUp key ks]).Pairwise (· ≤ ·) := by
          rw [e1] at hsort
          exact (List.pairwise_append.1 (List.pairwise_append.1 hsort).2.1).1
        have hnA : key ∉ headA (ks.take (scanUp key ks)) (cs.take (scanUp key ks)) := by
          intro hm
          obtain ⟨k, hk, hle⟩ := hA key hm
          have := scanUp_take_lt key ks k hk
          omega
        have hnB : key ∉ tailB (ks.drop (scanUp key ks)) (cs.drop (scanUp key ks + 1)) := by
          intro hm
          obtain ⟨k, hk, hle⟩ := hB key hm
          have hge := scanUp_drop_ge key ks k (by rw [List.head?_drop]; exact hk)
          have : k = key := by omega
          exact hfound (by rw [hk, this])
        have hiff : key ∈ inorderList ks cs ↔ key ∈ inorder cs[scanUp key ks] := by
          rw [e1]
          simp only [List.mem_append]
          tauto
        rcases ih false _ (hall _ (List.getElem_mem hlt)) hcs with ⟨h1, h2⟩ | ⟨h1, h2⟩
        · left; exact ⟨fun hm => h1 (hiff.1 hm), h2⟩
        · right; exact ⟨hiff.2 h1, h2⟩

/-! ## Splitting a full child -/

theorem length_seven {α : Type} (l : List α) (h : l.length = 7) :
    ∃ a b c d e f g, l = [a, b, c, d, e, f, g] := by
  match l, h with
  | [a, b, c, d, e, f, g], _ => exact ⟨a, b, c, d, e, f, g, rfl⟩

theorem length_eight {α : Type} (l : List α) (h : l.length = 8) :
    ∃ a b c d e f g i, l = [a, b, c, d, e, f, g, i] := by
  match l, h with
  | [a, b, c, d, e, f, g, i], _ => exact ⟨a, b, c, d, e, f, g, i, rfl⟩

/-- The two halves of a full node and the median between them. -/
theorem split_halves (h : Nat) (c : BTree) (hs : shaped false h c = true)
    (hfull : c.num = KEY_NUM) :
    ∃ median, c.key[M - 1]? = some median ∧
      shaped false h (.node c.leaf (c.key.take (M - 1)) (c.child.take M)) = true ∧
      shaped false h (.node c.leaf ((c.key.drop M).take (M - 1))
        (if c.leaf then [] else (c.child.drop M).take M)) = true ∧
      inorder c = inorder (.node c.leaf (c.key.take (M - 1)) (c.child.take M)) ++
        median :: inorder (.node c.leaf ((c.key.drop M).take (M - 1))
          (if c.leaf then [] else (c.child.drop M).take M)) := by
  cases h with
  | zero => rw [shaped_zero] at hs; cases hs
  | succ h =>
    obtain ⟨leaf, ks, cs⟩ := c
    simp only [BTree.num, BTree.key, KEY_NUM, M] at hfull
    obtain ⟨k0, k1, k2, k3, k4, k5, k6, rfl⟩ := length_seven ks hfull
    rw [shaped_iff] at hs
    cases leaf with
    | true =>
      obtain ⟨_, hcs⟩ := hs.2.2.2.1 rfl
      subst hcs
      refine ⟨k3, rfl, ?_, ?_, ?_⟩
      · rw [shaped_iff]; simp [BTree.leaf, BTree.key, BTree.child, M, KEY_NUM, hs.2.2.2.1 rfl]
      · rw [shaped_iff]; simp [BTree.leaf, BTree.key, BTree.child, M, KEY_NUM, hs.2.2.2.1 rfl]
      · simp [inorder, BTree.leaf, BTree.key, BTree.child, M]
    | false =>
      obtain ⟨hlen, hall⟩ := hs.2.2.2.2 rfl
      obtain ⟨c0, c1, c2, c3, c4, c5, c6, c7, rfl⟩ := length_eight cs (by simpa using hlen)
      simp only [List.mem_cons, List.mem_singleton, forall_eq_or_imp, forall_eq,
        List.not_mem_nil, false_implies, implies_true, and_true] at hall
      refine ⟨k3, rfl, ?_, ?_, ?_⟩
      · rw [shaped_iff]; simp [BTree.leaf, BTree.key, BTree.child, M, KEY_NUM, hall]
      · rw [shaped_iff]; simp [BTree.leaf, BTree.key, BTree.child, M, KEY_NUM, hall]
      · simp [inorder, inorderList, BTree.leaf, BTree.key, BTree.child, M]

theorem split_halves_num (c : BTree) (hfull : c.num = KEY_NUM) :
    (BTree.node c.leaf (c.key.take (M - 1)) (c.child.take M)).num = M - 1 ∧
    (BTree.node c.leaf ((c.key.drop M).take (M - 1))
        (if c.leaf then [] else (c.child.drop M).take M)).num = M - 1 := by
  simp only [BTree.num, BTree.key, KEY_NUM, M] at hfull ⊢
  simp [hfull]

/-- What `btree_split_child` returns on a parent with room and a full child. -/
theorem split_child_eq (parent : BTree) (pos : Nat) (c : BTree) (median : Int)
    (hp : parent.num < KEY_NUM) (hc : c.num = KEY_NUM) (hpos : pos ≤ parent.num)
    (hm : c.key[M - 1]? = some median) :
    btree_split_child parent pos c = .ok (.node parent.leaf
      (parent.key.take pos ++ median :: parent.key.drop pos)
      (parent.child.take pos ++
        BTree.node c.leaf (c.key.take (M - 1)) (c.child.take M) ::
        BTree.node c.leaf ((c.key.drop M).take (M - 1))
          (if c.leaf then [] else (c.child.drop M).take M) ::
        parent.child.drop (pos + 1))) := by
  unfold btree_split_child
  rw [if_neg (by omega)]
  rw [hm]

/-! ## Insertion into a node with room -/

theorem getElem?_append_cons {α : Type} (l1 : List α) (a : α) (l2 : List α) (n : Nat)
    (h : l1.length = n) : (l1 ++ a :: l2)[n]? = some a := by
  subst h
  rw [List.getElem?_append_right (le_refl _)]
  simp

theorem getElem?_append_cons_cons {α : Type} (l1 : List α) (a b : α) (l2 : List α) (n : Nat)
    (h : l1.length = n) : (l1 ++ a :: b :: l2)[n + 1]? = some b := by
  subst h
  rw [List.getElem?_append_right (by omega)]
  simp

theorem set_append_cons {α : Type} (l1 : List α) (a b : α) (l2 : List α) (n : Nat)
    (h : l1.length = n) : (l1 ++ a :: l2).set n b = l1 ++ b :: l2 := by
  subst h; simp

theorem set_append_cons_cons {α : Type} (l1 : List α) (a b c : α) (l2 : List α) (n : Nat)
    (h : l1.length = n) : (l1 ++ a :: b :: l2).set (n + 1) c = l1 ++ a :: c :: l2 := by
  subst h
  rw [List.set_append_right _ _ (by omega)]
  simp

theorem getD_append_cons (l1 : List Int) (a : Int) (l2 : List Int) (n : Nat)
    (h : l1.length = n) : (l1 ++ a :: l2).getD n 0 = a := by
  rw [List.getD_eq_getElem?_getD, getElem?_append_cons _ _ _ _ h]
  rfl

theorem InsertedAt.wrap {key : Int} {before after : List Int} (h : InsertedAt key before after)
    (A B : List Int) (hA : ∀ x ∈ A, x ≤ key) (hB : ∀ x ∈ B, key ≤ x) :
    InsertedAt key (A ++ (before ++ B)) (A ++ (after ++ B)) := by
  obtain ⟨l, r, rfl, rfl, hl, hr⟩ := h
  refine ⟨A ++ l, r ++ B, by simp, by simp, ?_, ?_⟩
  · intro x hx
    rcases List.mem_append.1 hx with hx | hx
    · exact hA x hx
    · exact hl x hx
  · intro x hx
    rcases List.mem_append.1 hx with hx | hx
    · exact hr x hx
    · exact hB x hx

theorem InsertedAt.sorted {key : Int} {before after : List Int}
    (h : InsertedAt key before after) (hs : before.Pairwise (· ≤ ·)) :
    after.Pairwise (· ≤ ·) := by
  obtain ⟨l, r, rfl, rfl, hl, hr⟩ := h
  rw [List.pairwise_append] at hs ⊢
  refine ⟨hs.1, List.pairwise_cons.2 ⟨hr, hs.2.1⟩, ?_⟩
  intro a ha b hb
  rcases List.mem_cons.1 hb with rfl | hb
  · exact hl a ha
  · exact hs.2.2 a ha b hb

theorem InsertedAt.mem {key : Int} {before after : List Int}
    (h : InsertedAt key before after) : key ∈ after := by
  obtain ⟨l, r, _, rfl, _, _⟩ := h
  simp

theorem insert_nonfull_spec (key : Int) (h : Nat) : ∀ (r : Bool) (t : BTree),
    shaped r h t = true → t.num < KEY_NUM → (inorder t).Pairwise (· ≤ ·) →
    ∃ t1, btree_insert_nonfull h t key = .ok t1 ∧ shaped r h t1 = true ∧ 1 ≤ t1.num ∧
      InsertedAt key (inorder t) (inorder t1) := by
  induction h with
  | zero => intro r t hs; rw [shaped_zero] at hs; cases hs
  | succ h ih =>
    intro r t hs hroom hsort
    obtain ⟨leaf, ks, cs⟩ := t
    have hs0 := hs
    rw [shaped_iff] at hs
    simp only [BTree.num, BTree.key] at hroom
    have hp := scanDown_le key ks ks.length
    cases leaf with
    | true =>
      simp only [btree_insert_nonfull, if_true]
      rw [if_neg (by omega)]
      refine ⟨_, rfl, ?_, ?_, ?_⟩
      · rw [shaped_iff]
        refine ⟨?_, ?_, ?_, hs.2.2.2.1, by simp⟩
        · simp; omega
        · intro hr; have := hs.2.1 hr; simp; omega
        · simp
      · simp [BTree.num, BTree.key]; omega
      · simp only [inorder, if_true] at hsort ⊢
        exact ⟨_, _, (List.take_append_drop _ _).symm, rfl,
          scanDown_take_le key ks hsort,
          fun x hx => le_of_lt (scanDown_drop_gt key ks x hx)⟩
    | false =>
      obtain ⟨hlen, hall⟩ := hs.2.2.2.2 rfl
      simp only [inorder, Bool.false_eq_true, if_false] at hsort
      have hlt : scanDown key ks ks.length < cs.length := by omega
      have hc : cs[scanDown key ks ks.length]? = some cs[scanDown key ks ks.length] :=
        List.getElem?_eq_getElem hlt
      generalize hcdef : cs[scanDown key ks ks.length] = c at hc
      have hcmem : c ∈ cs := by rw [← hcdef]; exact List.getElem_mem hlt
      have hcsh := hall c hcmem
      obtain ⟨e1, eset, hA, hB⟩ := inorder_around ks cs _ c hlen hp hc hsort
      have hks : ks.Pairwise (· ≤ ·) := hsort.sublist (keys_sublist_inorderList ks cs hlen)
      have hA1 : ∀ a ∈ headA (ks.take (scanDown key ks ks.length))
          (cs.take (scanDown key ks ks.length)), a ≤ key := by
        intro a ha
        obtain ⟨k, hk, hle⟩ := hA a ha
        exact le_trans hle (scanDown_take_le key ks hks k hk)
      have hB1 : ∀ b ∈ tailB (ks.drop (scanDown key ks ks.length))
          (cs.drop (scanDown key ks ks.length + 1)), key ≤ b := by
        intro b hb
        obtain ⟨k, hk, hle⟩ := hB b hb
        have hk2 : k ∈ ks.drop (scanDown key ks ks.length) := by
          apply List.mem_of_mem_head?
          rw [List.head?_drop]; exact hk
        exact le_trans (le_of_lt (scanDown_drop_gt key ks k hk2)) hle
      have hcsort : (inorder c).Pairwise (· ≤ ·) := by
        rw [e1] at hsort
        exact (List.pairwise_append.1 (List.pairwise_append.1 hsort).2.1).1
      have htk : (ks.take (scanDown key ks ks.length)).length = scanDown key ks ks.length := by
        simp; omega
      have htc : (cs.take (scanDown key ks ks.length)).length = scanDown key ks ks.length := by
        simp; omega
      simp only [btree_insert_nonfull, Bool.false_eq_true, if_false, hc]
      by_cases hfull : c.num = KEY_NUM
      · -- the child is full: split it, then descend into one of the halves
        rw [if_pos hfull]
        obtain ⟨median, hm, hsh1, hsh2, hin⟩ := split_halves h c hcsh hfull
        obtain ⟨hn1, hn2⟩ := split_halves_num c hfull
        have hsp := split_child_eq (.node false ks cs) _ c median
          (by simpa [BTree.num, BTree.key] using hroom)
          hfull (by simpa [BTree.num, BTree.key] using hp) hm
        simp only [hsp, key_node, child_node, leaf_node]
        simp only [getD_append_cons _ _ _ _ htk]
        rw [hin] at hcsort
        have hs1 := (List.pairwise_append.1 hcsort).1
        have hs2 := (List.pairwise_cons.1 (List.pairwise_append.1 hcsort).2.1).2
        have hlo : ∀ x ∈ inorder (.node c.leaf (c.key.take (M - 1)) (c.child.take M)),
            x ≤ median := fun x hx =>
          (List.pairwise_append.1 hcsort).2.2 x hx median (List.mem_cons_self _ _)
        have hhi : ∀ x ∈ inorder (.node c.leaf ((c.key.drop M).take (M - 1))
            (if c.leaf then [] else (c.child.drop M).take M)), median ≤ x := fun x hx =>
          (List.pairwise_cons.1 (List.pairwise_append.1 hcsort).2.1).1 x hx
        have hshape : ∀ d, shaped false h d = true →
            ∀ (x y : BTree), (x = d ∨ shaped false h x = true) →
              (y = d ∨ shaped false h y = true) →
            shaped r (h + 1) (.node false
              (ks.take (scanDown key ks ks.length) ++ median :: ks.drop (scanDown key ks ks.length))
              (cs.take (scanDown key ks ks.length) ++ x :: y ::
                cs.drop (scanDown key ks ks.length + 1))) = true := by
          intro d hd x y hx hy
          rw [shaped_iff]
          refine ⟨?_, ?_, ?_, by simp, ?_⟩
          · simp; omega
          · intro hr; have := hs.2.1 hr; simp; omega
          · intro _ _; simp; omega
          · intro _
            refine ⟨by simp; omega, ?_⟩
            intro z hz
            simp only [List.mem_append, List.mem_cons] at hz
            rcases hz with hz | rfl | rfl | hz
            · exact hall z (List.mem_of_mem_take hz)
            · rcases hx with rfl | hx
              · exact hd
              · exact hx
            · rcases hy with rfl | hy
              · exact hd
              · exact hy
            · exact hall z (List.mem_of_mem_drop hz)
        by_cases hgt : key > median
        · -- descend into the new sibling
          rw [if_pos hgt]
          rw [getElem?_append_cons_cons _ _ _ _ _ htc]
          obtain ⟨c3, hc3, hsh3, _, hins⟩ :=
            ih false _ hsh2 (by rw [hn2]; simp [M, KEY_NUM]) hs2
          simp only [hc3]
          rw [set_append_cons_cons _ _ _ _ _ _ htc]
          refine ⟨_, rfl, hshape c3 hsh3 _ _ (Or.inr hsh1) (Or.inl rfl), ?_, ?_⟩
          · simp [BTree.num, BTree.key]; omega
          · simp only [inorder, Bool.false_eq_true, if_false]
            rw [e1, hin]
            have e2 : inorderList
                (ks.take (scanDown key ks ks.length) ++
                  median :: ks.drop (scanDown key ks ks.length))
                (cs.take (scanDown key ks ks.length) ++
                  BTree.node c.leaf (c.key.take (M - 1)) (c.child.take M) :: c3 ::
                  cs.drop (scanDown key ks ks.length + 1)) =
                (headA (ks.take (scanDown key ks ks.length)) (cs.take (scanDown key ks ks.length))
                  ++ (inorder (.node c.leaf (c.key.take (M - 1)) (c.child.take M)) ++ [median]))
                  ++ (inorder c3 ++ tailB (ks.drop (scanDown key ks ks.length))
                    (cs.drop (scanDown key ks ks.length + 1))) := by
              have := inorderList_split (ks.take (scanDown key ks ks.length) ++ [median])
                (ks.drop (scanDown key ks ks.length))
                (cs.take (scanDown key ks ks.length) ++
                  [BTree.node c.leaf (c.key.take (M - 1)) (c.child.take M)]) c3
                (cs.drop (scanDown key ks ks.length + 1)) (by simp [htk, htc])
              rw [headA_append _ _ _ _ (by rw [htk, htc])] at this
              simpa using this
            rw [e2]
            have := hins.wrap
              (headA (ks.take (scanDown key ks ks.length)) (cs.take (scanDown key ks ks.length))
                  ++ (inorder (.node c.leaf (c.key.take (M - 1)) (c.child.take M)) ++ [median]))
              (tailB (ks.drop (scanDown key ks ks.length))
                    (cs.drop (scanDown key ks ks.length + 1)))
              (by
                intro x hx
                simp only [List.mem_append, List.mem_singleton] at hx
                rcases hx with hx | hx | rfl
                · exact hA1 x hx
                · exact le_trans (hlo x hx) (le_of_lt hgt)
                · exact le_of_lt hgt)
              hB1
            simpa using this
        · -- descend into the truncated child
          rw [if_neg hgt]
          rw [getElem?_append_cons _ _ _ _ htc]
          obtain ⟨c3, hc3, hsh3, _, hins⟩ :=
            ih false _ hsh1 (by rw [hn1]; simp [M, KEY_NUM]) hs1
          simp only [hc3]
          rw [set_append_cons _ _ _ _ _ htc]
          refine ⟨_, rfl, hshape c3 hsh3 _ _ (Or.inl rfl) (Or.inr hsh2), ?_, ?_⟩
          · simp [BTree.num, BTree.key]; omega
          · simp only [inorder, Bool.false_eq_true, if_false]
            rw [e1, hin]
            rw [inorderList_split _ _ _ _ _ (by rw [htk, htc])]
            simp only [tailB, inorderList_cons]
            have := hins.wrap
              (headA (ks.take (scanDown key ks ks.length)) (cs.take (scanDown key ks ks.length)))
              (median :: (inorder (.node c.leaf ((c.key.drop M).take (M - 1))
                  (if c.leaf then [] else (c.child.drop M).take M)) ++
                tailB (ks.drop (scanDown key ks ks.length))
                    (cs.drop (scanDown key ks ks.length + 1))))
              hA1
              (by
                intro x hx
                simp only [List.mem_cons, List.mem_append] at hx
                have hkm : key ≤ median := not_lt.1 hgt
                rcases hx with rfl | hx | hx
                · exact hkm
                · exact le_trans hkm (hhi x hx)
                · exact hB1 x hx)
            simpa using this
      · -- the child has room
        rw [if_neg hfull]
        have hcroom : c.num < KEY_NUM := by
          have := shaped_iff false
          cases h with
          | zero => rw [shaped_zero] at hcsh; cases hcsh
          | succ h =>
            obtain ⟨cl, cks, ccs⟩ := c
            rw [shaped_iff] at hcsh
            simp only [BTree.num, BTree.key] at hfull ⊢
            omega
        obtain ⟨c3, hc3, hsh3, _, hins⟩ := ih false c hcsh hcroom hcsort
        simp only [hc3]
        refine ⟨_, rfl, ?_, ?_, ?_⟩
        · rw [shaped_iff]
          refine ⟨hs.1, hs.2.1, hs.2.2.1, by simp, ?_⟩
          intro _
          refine ⟨by simpa using hlen, ?_⟩
          intro z hz
          rcases List.mem_or_eq_of_mem_set hz with hz | rfl
          · exact hall z hz
          · exact hsh3
        · have := hs.2.1
          have := hs.2.2.1
          simp only [BTree.num, BTree.key]
          cases r with
          | true => exact hs.2.2.1 rfl rfl
          | false => have := hs.2.1 rfl; simp only [M] at this; omega
        · simp only [inorder, Bool.false_eq_true, if_false]
          rw [eset c3, e1]
          exact hins.wrap _ _ hA1 hB1

/-! ## `btree_insert` -/

theorem shaped_num_le (r : Bool) (h : Nat) (t : BTree) (hs : shaped r h t = true) :
    t.num ≤ KEY_NUM := by
  cases h with
  | zero => rw [shaped_zero] at hs; cases hs
  | succ h =>
    obtain ⟨leaf, ks, cs⟩ := t
    rw [shaped_iff] at hs
    exact hs.1

theorem shaped_nonroot_of (h : Nat) (t : BTree) (hs : shaped true h t = true)
    (hn : M - 1 ≤ t.num) : shaped false h t = true := by
  cases h with
  | zero => rw [shaped_zero] at hs; cases hs
  | succ h =>
    obtain ⟨leaf, ks, cs⟩ := t
    rw [shaped_iff] at hs ⊢
    exact ⟨hs.1, fun _ => hn, by simp, hs.2.2.2.1, hs.2.2.2.2⟩

/-- Insertion on a tree of the right shape whose traversal is weakly sorted. -/
theorem insert_spec (t : BTree) (key : Int) (h : Nat) (hs : shaped true h t = true)
    (hsort : (inorder t).Pairwise (· ≤ ·)) :
    ∃ t1, btree_insert t key = .ok t1 ∧ shaped true (height t1) t1 = true ∧
      1 ≤ t1.num ∧ t1.num ≤ KEY_NUM ∧ InsertedAt key (inorder t) (inorder t1) := by
  unfold btree_insert
  by_cases hfull : t.num = KEY_NUM
  · rw [if_pos hfull]
    have hnr := shaped_nonroot_of h t hs (by rw [hfull]; simp [KEY_NUM, M])
    obtain ⟨median, hm, hsh1, hsh2, hin⟩ := split_halves h t hnr hfull
    have hsp := split_child_eq (.node false [] [t]) 0 t median (by simp [num_node, KEY_NUM, M])
      hfull (by simp) hm
    simp only [hsp, key_node, child_node, leaf_node, List.take_zero, List.drop_zero,
      List.nil_append, List.drop_succ_cons, List.drop_nil]
    have hp : shaped true (h + 1) (.node false [median]
        [BTree.node t.leaf (t.key.take (M - 1)) (t.child.take M),
         BTree.node t.leaf ((t.key.drop M).take (M - 1))
          (if t.leaf then [] else (t.child.drop M).take M)]) = true := by
      rw [shaped_iff]
      refine ⟨by simp [KEY_NUM, M], by simp, by simp, by simp, ?_⟩
      intro _
      refine ⟨by simp, ?_⟩
      intro c hc
      simp only [List.mem_cons, List.mem_singleton, List.not_mem_nil, or_false] at hc
      rcases hc with rfl | rfl
      · exact hsh1
      · exact hsh2
    rw [shaped_height _ _ _ hp]
    have hin2 : inorder (.node false [median]
        [BTree.node t.leaf (t.key.take (M - 1)) (t.child.take M),
         BTree.node t.leaf ((t.key.drop M).take (M - 1))
          (if t.leaf then [] else (t.child.drop M).take M)]) = inorder t := by
      rw [hin]; simp [inorder, inorderList]
    obtain ⟨t1, h1, h2, h3, h4⟩ := insert_nonfull_spec key (h + 1) true _ hp
      (by simp [num_node, KEY_NUM, M]) (by rw [hin2]; exact hsort)
    rw [hin2] at h4
    refine ⟨t1, h1, ?_, h3, shaped_num_le _ _ _ h2, h4⟩
    rw [shaped_height _ _ _ h2]; exact h2
  · rw [if_neg hfull]
    rw [shaped_height _ _ _ hs]
    have := shaped_num_le _ _ _ hs
    obtain ⟨t1, h1, h2, h3, h4⟩ := insert_nonfull_spec key h true t hs (by omega) hsort
    refine ⟨t1, h1, ?_, h3, shaped_num_le _ _ _ h2, h4⟩
    rw [shaped_height _ _ _ h2]; exact h2

theorem orderedInsert_eq (key : Int) (l r : List Int) (hl : ∀ x ∈ l, x < key)
    (hr : ∀ x ∈ r, key ≤ x) : (l ++ r).orderedInsert (· ≤ ·) key = l ++ key :: r := by
  induction l with
  | nil =>
    cases r with
    | nil => simp
    | cons b r =>
      simp only [List.nil_append, List.orderedInsert]
      rw [if_pos (hr b (List.mem_cons_self _ _))]
  | cons a l ih =>
    simp only [List.cons_append, List.orderedInsert]
    have := hl a (List.mem_cons_self _ _)
    rw [if_neg (by omega)]
    exact congrArg (a :: ·) (ih (fun x hx => hl x (List.mem_cons_of_mem _ hx)))

theorem InsertedAt.strict {key : Int} {before after : List Int}
    (h : InsertedAt key before after) (hs : before.Pairwise (· < ·)) (hk : key ∉ before) :
    after.Pairwise (· < ·) ∧ after = before.orderedInsert (· ≤ ·) key := by
  obtain ⟨l, r, rfl, rfl, hl, hr⟩ := h
  have hl1 : ∀ x ∈ l, x < key := fun x hx =>
    lt_of_le_of_ne (hl x hx) (fun e => hk (by rw [← e]; exact List.mem_append_left _ hx))
  have hr1 : ∀ x ∈ r, key < x := fun x hx =>
    lt_of_le_of_ne (hr x hx) (fun e => hk (by rw [e]; exact List.mem_append_right _ hx))
  refine ⟨?_, (orderedInsert_eq key l r hl1 hr).symm⟩
  rw [List.pairwise_append] at hs ⊢
  refine ⟨hs.1, List.pairwise_cons.2 ⟨hr1, hs.2.1⟩, ?_⟩
  intro a ha b hb
  rcases List.mem_cons.1 hb with rfl | hb
  · exact hl1 a ha
  · exact hs.2.2 a ha b hb

theorem InsertedAt.subset {key : Int} {before after : List Int}
    (h : InsertedAt key before after) : ∀ x ∈ before, x ∈ after := by
  obtain ⟨l, r, rfl, rfl, _, _⟩ := h
  intro x hx
  simp only [List.mem_append, List.mem_cons] at hx ⊢
  tauto

theorem wellFormed_inv (t : BTree) (hw : wellFormed t = true) :
    shaped true (height t) t = true ∧ (inorder t).Pairwise (· ≤ ·) :=
  ⟨((wellFormed_iff t).1 hw).1, pairwise_lt_le _ (wellFormed_sorted t hw)⟩

/-! ## Deleting an absent key along a path of rich nodes -/

theorem wrap32_eq_zero (a b : Int) (ha : int32 a = true) (hb : int32 b = true)
    (h : wrap32 (a - b) = 0) : a = b := by
  simp only [int32, Bool.and_eq_true, decide_eq_true_eq] at ha hb
  simp only [wrap32] at h
  omega

theorem findIndexFrom_fst (key : Int) (ks : List Int) (i : Nat) (r1 r2 : Int) :
    (findIndexFrom key ks i r1).1 = (findIndexFrom key ks i r2).1 := by
  cases ks with
  | nil => simp [findIndexFrom]
  | cons k ks => simp only [findIndexFrom]

theorem findIndexFrom_le (key : Int) (ks : List Int) (i : Nat) (r : Int) :
    (findIndexFrom key ks i r).1 ≤ i + ks.length := by
  induction ks generalizing i r with
  | nil => simp [findIndexFrom]
  | cons k ks ih =>
    simp only [findIndexFrom]
    split
    · have := ih (i + 1) (wrap32 (k - key))
      simp only [List.length_cons]
      omega
    · simp

theorem findIndexFrom_snd (key : Int) (ks : List Int) (i : Nat) (r : Int) :
    (findIndexFrom key ks i r).2 = r ∨
      ∃ k ∈ ks, (findIndexFrom key ks i r).2 = wrap32 (k - key) := by
  induction ks generalizing i r with
  | nil => left; simp [findIndexFrom]
  | cons k ks ih =>
    simp only [findIndexFrom]
    split
    · right
      rcases ih (i + 1) (wrap32 (k - key)) with h | ⟨k1, hk1, h⟩
      · exact ⟨k, List.mem_cons_self _ _, h⟩
      · exact ⟨k1, List.mem_cons_of_mem _ hk1, h⟩
    · right
      exact ⟨k, List.mem_cons_self _ _, rfl⟩

theorem findIndexFrom_snd_cons (key : Int) (k : Int) (ks : List Int) (i : Nat) (r : Int) :
    ∃ k1 ∈ k :: ks, (findIndexFrom key (k :: ks) i r).2 = wrap32 (k1 - key) := by
  simp only [findIndexFrom]
  split
  · rcases findIndexFrom_snd key ks (i + 1) (wrap32 (k - key)) with h | ⟨k1, hk1, h⟩
    · exact ⟨k, List.mem_cons_self _ _, h⟩
    · exact ⟨k1, List.mem_cons_of_mem _ hk1, h⟩
  · exact ⟨k, List.mem_cons_self _ _, rfl⟩

/-- In a node with at least one key that does not hold `key`, the local
search reports `ret ≠ 0` whatever `ret` held before. -/
theorem find_index_absent (leaf : Bool) (ks : List Int) (cs : List BTree) (key ret0 : Int)
    (hn : 1 ≤ ks.length) (hkey : int32 key = true) (hks : ∀ x ∈ ks, int32 x = true)
    (habs : key ∉ ks) :
    (btree_find_index (.node leaf ks cs) key ret0).2 ≠ 0 ∧
      (btree_find_index (.node leaf ks cs) key ret0).1 ≤ ks.length ∧
      (btree_find_index (.node leaf ks cs) key ret0).1 =
        (btree_find_index (.node leaf ks cs) key 0).1 := by
  simp only [btree_find_index, key_node]
  refine ⟨?_, ?_, findIndexFrom_fst _ _ _ _ _⟩
  · cases ks with
    | nil => simp at hn
    | cons k ks =>
      obtain ⟨k1, hk1, h⟩ := findIndexFrom_snd_cons key k ks 0 ret0
      rw [h]
      intro h0
      exact habs (by rw [← wrap32_eq_zero k1 key (hks k1 hk1) hkey h0]; exact hk1)
  · have := findIndexFrom_le key ks 0 ret0
    omega

theorem keys_subset_inorder (r : Bool) (h : Nat) (leaf : Bool) (ks : List Int)
    (cs : List BTree) (hs : shaped r (h + 1) (.node leaf ks cs) = true) :
    ∀ x ∈ ks, x ∈ inorder (.node leaf ks cs) := by
  rw [shaped_iff] at hs
  intro x hx
  cases leaf with
  | true => simpa [inorder] using hx
  | false =>
    simp only [inorder, Bool.false_eq_true, if_false]
    exact (keys_sublist_inorderList ks cs (hs.2.2.2.2 rfl).1).subset hx

theorem child_subset_inorder (ks : List Int) (cs : List BTree) (i : Nat) (c : BTree)
    (hi : i ≤ ks.length) (hc : cs[i]? = some c) :
    ∀ x ∈ inorder c, x ∈ inorder (.node false ks cs) := by
  obtain ⟨hsplit, htl⟩ := list_split_at cs i c hc
  have hkl : (cs.take i).length = (ks.take i).length := by
    rw [htl]; simp; omega
  have e1 : inorderList ks cs =
      headA (ks.take i) (cs.take i) ++ (inorder c ++ tailB (ks.drop i) (cs.drop (i + 1))) := by
    conv_lhs => rw [← List.take_append_drop i ks, hsplit]
    exact inorderList_split _ _ _ _ _ hkl
  intro x hx
  simp only [inorder, Bool.false_eq_true, if_false]
  rw [e1]
  simp only [List.mem_append]
  tauto

theorem set_self {α : Type} (l : List α) (i : Nat) (a : α) (h : l[i]? = some a) :
    l.set i a = l := by
  induction l generalizing i with
  | nil => rfl
  | cons b l ih =>
    cases i with
    | zero => simp at h; simp [h]
    | succ i => simp at h; simp [ih i h]

theorem delete_aux_absent (dm : DataModel) (ret0 key : Int) (hkey : int32 key = true)
    (h : Nat) : ∀ (r : Bool) (t : BTree), shaped r h t = true → 1 ≤ t.num →
      key ∉ inorder t → (∀ x ∈ inorder t, int32 x = true) → richPath key h t = true →
      btree_delete_aux dm ret0 h t key = .ok t := by
  induction h with
  | zero => intro r t hs; rw [shaped_zero] at hs; cases hs
  | succ h ih =>
    intro r t hs hn habs hint hrich
    obtain ⟨leaf, ks, cs⟩ := t
    have hsub := keys_subset_inorder r h leaf ks cs hs
    obtain ⟨hret, hidx, hidx0⟩ := find_index_absent leaf ks cs key ret0 hn hkey
      (fun x hx => hint x (hsub x hx)) (fun hm => habs (hsub key hm))
    rw [shaped_iff] at hs
    simp only [btree_delete_aux, deleteStep]
    generalize hfi : btree_find_index (.node leaf ks cs) key ret0 = fi at hret hidx hidx0
    obtain ⟨index, ret⟩ := fi
    simp only at hret hidx hidx0
    cases leaf with
    | true => simp [hret]
    | false =>
      obtain ⟨hlen, hall⟩ := hs.2.2.2.2 rfl
      simp only [richPath, Bool.false_eq_true, Bool.false_or, ← hidx0] at hrich
      have hlt : index < cs.length := by omega
      have hc : cs[index]? = some cs[index] := List.getElem?_eq_getElem hlt
      generalize cs[index] = c at hc
      rw [hc] at hrich
      simp only [Bool.and_eq_true, decide_eq_true_eq] at hrich
      have hcn : c.num ≠ M - 1 := by
        have := hrich.1
        simp only [M] at this ⊢
        omega
      have hcmem : c ∈ cs := List.getElem?_mem hc
      have hrec := ih false c (hall c hcmem) (by have := hrich.1; simp only [M] at this; omega)
        (fun hm => habs (child_subset_inorder ks cs index c hidx hc key hm))
        (fun x hx => hint x (child_subset_inorder ks cs index c hidx hc x hx))
        hrich.2
      simp [hret, enrich, hc, hcn, hrec, putChild, leaf_node, key_node, child_node,
        set_self cs index c hc]

/-! ## The insert loop of the test -/

theorem insertAll_spec (keys : List Int) : ∀ (t : BTree) (h : Nat), shaped true h t = true →
    (inorder t).Pairwise (· ≤ ·) →
    ∃ t1, insertAll t keys = .ok t1 ∧ shaped true (height t1) t1 = true ∧
      (inorder t1).Pairwise (· ≤ ·) ∧ (∀ x ∈ inorder t, x ∈ inorder t1) ∧
      ∀ k ∈ keys, k ∈ inorder t1 := by
  induction keys with
  | nil =>
    intro t h hs hsort
    refine ⟨t, rfl, ?_, hsort, fun x hx => hx, by simp⟩
    rw [shaped_height _ _ _ hs]; exact hs
  | cons k keys ih =>
    intro t h hs hsort
    obtain ⟨t1, h1, h2, _, _, h5⟩ := insert_spec t k h hs hsort
    obtain ⟨t2, g1, g2, g3, g4, g5⟩ := ih t1 (height t1) h2 (h5.sorted hsort)
    refine ⟨t2, by simp only [insertAll, h1]; exact g1, g2, g3,
      fun x hx => g4 x (h5.subset x hx), ?_⟩
    intro x hx
    rcases List.mem_cons.1 hx with rfl | hx
    · exact g4 x h5.mem
    · exact g5 x hx

/-! ## The first eight insertions -/

theorem insertAll_append (t : BTree) (l1 l2 : List Int) :
    insertAll t (l1 ++ l2) =
      match insertAll t l1 with
      | .ok t1 => insertAll t1 l2
      | e => e := by
  induction l1 generalizing t with
  | nil => simp [insertAll]
  | cons k l1 ih =>
    simp only [List.cons_append, insertAll]
    cases h : btree_insert t k with
    | ok t1 => exact ih t1
    | undefined => rfl
    | corrupt => rfl
    | exhausted => rfl

theorem insert_leaf_room (ks : List Int) (key : Int) (h : ks.length < 7) :
    ∃ ks1, btree_insert (.node true ks []) key = .ok (.node true ks1 []) ∧
      ks1.length = ks.length + 1 := by
  have hp := scanDown_le key ks ks.length
  refine ⟨ks.take (scanDown key ks ks.length) ++ key :: ks.drop (scanDown key ks ks.length),
    ?_, ?_⟩
  · simp only [btree_insert, num_node, KEY_NUM, M]
    rw [if_neg (by omega)]
    simp only [height, heightList, btree_insert_nonfull, if_true, KEY_NUM, M]
    rw [if_neg (by omega)]
  · simp; omega

theorem insertAll_leaf_room (l : List Int) : ∀ ks : List Int, ks.length + l.length ≤ 7 →
    ∃ ks1, insertAll (.node true ks []) l = .ok (.node true ks1 []) ∧
      ks1.length = ks.length + l.length := by
  induction l with
  | nil => intro ks _; exact ⟨ks, rfl, rfl⟩
  | cons k l ih =>
    intro ks h
    simp only [List.length_cons] at h
    obtain ⟨ks1, h1, h2⟩ := insert_leaf_room ks k (by omega)
    obtain ⟨ks2, h3, h4⟩ := ih ks1 (by omega)
    refine ⟨ks2, ?_, ?_⟩
    · simp only [insertAll, h1, h3]
    · simp only [List.length_cons]; omega

theorem insert_leaf_full (ks : List Int) (key : Int) (h : ks.length = 7) :
    ∃ m l r, btree_insert (.node true ks []) key =
        .ok (.node false [m] [.node true l [], .node true r []]) ∧
      l.length + r.length = 7 ∧ ks[3]? = some m := by
  obtain ⟨a, b, c, d, e, f, g, rfl⟩ := length_seven ks h
  have hsp : btree_split_child (.node false [] [.node true [a, b, c, d, e, f, g] []]) 0
      (.node true [a, b, c, d, e, f, g] []) =
      .ok (.node false [d] [.node true [a, b, c] [], .node true [e, f, g] []]) := by
    simp [btree_split_child, BTree.num, BTree.key, BTree.leaf, BTree.child, KEY_NUM, M]
  have hh : height (.node false [d] [.node true [a, b, c] [], .node true [e, f, g] []]) = 2 := by
    simp [height, heightList]
  simp only [btree_insert, num_node, List.length_cons, List.length_nil, KEY_NUM, M, hsp, hh]
  by_cases hk : key < d
  · have hp1 := scanDown_le key [a, b, c] 3
    refine ⟨d, [a, b, c].take (scanDown key [a, b, c] 3) ++
      key :: [a, b, c].drop (scanDown key [a, b, c] 3), [e, f, g], ?_, ?_, rfl⟩
    · simp [btree_insert_nonfull, scanDown, hk, BTree.num, BTree.key, KEY_NUM, M]
    · simp; omega
  · have hp1 := scanDown_le key [e, f, g] 3
    refine ⟨d, [a, b, c], [e, f, g].take (scanDown key [e, f, g] 3) ++
      key :: [e, f, g].drop (scanDown key [e, f, g] 3), ?_, ?_, rfl⟩
    · simp [btree_insert_nonfull, scanDown, hk, BTree.num, BTree.key, KEY_NUM, M]
    · simp; omega

/-! ## The postcondition of `btree_split_child` -/

theorem inorder_split_full (c : BTree) (hfull : c.num = KEY_NUM)
    (hcc : c.leaf = false → c.child.length = KEY_NUM + 1) :
    ∃ median, c.key[M - 1]? = some median ∧
      inorder c = inorder (.node c.leaf (c.key.take (M - 1)) (c.child.take M)) ++
        median :: inorder (.node c.leaf ((c.key.drop M).take (M - 1))
          (if c.leaf then [] else (c.child.drop M).take M)) := by
  obtain ⟨leaf, ks, cs⟩ := c
  simp only [BTree.num, BTree.key, KEY_NUM, M] at hfull
  obtain ⟨k0, k1, k2, k3, k4, k5, k6, rfl⟩ := length_seven ks hfull
  cases leaf with
  | true =>
    exact ⟨k3, rfl, by simp [inorder, BTree.leaf, BTree.key, BTree.child, M]⟩
  | false =>
    have hlen := hcc rfl
    simp only [BTree.child, KEY_NUM, M] at hlen
    obtain ⟨c0, c1, c2, c3, c4, c5, c6, c7, rfl⟩ := length_eight cs hlen
    exact ⟨k3, rfl, by simp [inorder, inorderList, BTree.leaf, BTree.key, BTree.child, M]⟩

theorem getElem?_insert_lt {α : Type} (l : List α) (pos : Nat) (a : α) (j : Nat)
    (hj : j < pos) (hpos : pos ≤ l.length) :
    (l.take pos ++ a :: l.drop pos)[j]? = l[j]? := by
  rw [List.getElem?_append_left (by simp; omega)]
  rw [List.getElem?_take_of_lt hj]

theorem getElem?_insert_ge {α : Type} (l : List α) (pos : Nat) (a : α) (j : Nat)
    (hj : pos ≤ j) (hpos : pos ≤ l.length) :
    (l.take pos ++ a :: l.drop pos)[j + 1]? = l[j]? := by
  rw [List.getElem?_append_right (by simp; omega)]
  have : j + 1 - (l.take pos).length = (j - pos) + 1 := by simp; omega
  rw [this, List.getElem?_cons_succ, List.getElem?_drop]
  congr 1; omega

theorem getElem?_insert2_gt {α : Type} (l : List α) (pos : Nat) (a b : α) (j : Nat)
    (hj : pos < j) (hpos : pos < l.length) :
    (l.take pos ++ a :: b :: l.drop (pos + 1))[j + 1]? = l[j]? := by
  rw [List.getElem?_append_right (by simp; omega)]
  have : j + 1 - (l.take pos).length = (j - pos - 1) + 2 := by simp; omega
  rw [this]
  simp only [List.getElem?_cons_succ, List.getElem?_drop]
  congr 1; omega

/-! ## The local search without overflow -/

theorem wrap32_id (x : Int) (h : int32 x = true) : wrap32 x = x := by
  simp only [int32, Bool.and_eq_true, decide_eq_true_eq] at h
  simp only [wrap32]
  omega

/-- Without overflow the loop of `btree_find_index` stops where the scan of
`btree_search` stops. -/
theorem findIndexFrom_eq (key : Int) (ks : List Int) (i : Nat) (r : Int)
    (hov : ∀ x ∈ ks, int32 (x - key) = true) :
    (findIndexFrom key ks i r).1 = i + scanUp key ks ∧
    (ks = [] → (findIndexFrom key ks i r).2 = r) ∧
    (∀ x, ks[scanUp key ks]? = some x →
      (findIndexFrom key ks i r).2 = x - key ∧ 0 ≤ x - key) ∧
    (ks ≠ [] → scanUp key ks = ks.length → (findIndexFrom key ks i r).2 < 0) := by
  induction ks generalizing i r with
  | nil => simp [findIndexFrom, scanUp]
  | cons k ks ih =>
    have hk := wrap32_id (k - key) (hov k (List.mem_cons_self _ _))
    have ih1 := ih (i + 1) (k - key) (fun x hx => hov x (List.mem_cons_of_mem _ hx))
    simp only [findIndexFrom, scanUp, hk]
    by_cases hlt : k - key < 0
    · have hgt : key > k := by omega
      rw [if_pos hlt, if_pos hgt]
      refine ⟨by rw [ih1.1]; omega, by simp, ?_, ?_⟩
      · intro x hx
        rw [List.getElem?_cons_succ] at hx
        exact ih1.2.2.1 x hx
      · intro _ hlen
        simp only [List.length_cons, Nat.add_right_cancel_iff] at hlen
        cases ks with
        | nil => simpa [findIndexFrom] using hlt
        | cons k2 ks => exact ih1.2.2.2 (by simp) hlen
    · have hgt : ¬ key > k := by omega
      rw [if_neg hlt, if_neg hgt]
      refine ⟨by simp, by simp, ?_, ?_⟩
      · intro x hx
        simp only [List.getElem?_cons_zero, Option.some.injEq] at hx
        subst hx
        exact ⟨rfl, by omega⟩
      · intro _ hlen
        simp at hlen

/-- The local search of delete on a node with at least one key, without
overflow: the index is the one `btree_search` chooses and `ret = 0` says
that the key sits there. -/
theorem find_index_spec (leaf : Bool) (ks : List Int) (cs : List BTree) (key ret0 : Int)
    (hne : ks ≠ []) (hov : ∀ x ∈ ks, int32 (x - key) = true) :
    (btree_find_index (.node leaf ks cs) key ret0).1 = scanUp key ks ∧
    ((btree_find_index (.node leaf ks cs) key ret0).2 = 0 ↔
      ks[scanUp key ks]? = some key) := by
  obtain ⟨h1, _, h3, h4⟩ := findIndexFrom_eq key ks 0 ret0 hov
  simp only [btree_find_index, key_node]
  refine ⟨by rw [h1]; omega, ?_⟩
  by_cases hlt : scanUp key ks < ks.length
  · have hx : ks[scanUp key ks]? = some ks[scanUp key ks] := List.getElem?_eq_getElem hlt
    obtain ⟨e, _⟩ := h3 _ hx
    rw [e, hx]
    simp only [Option.some.injEq]
    constructor <;> intro h <;> omega
  · have hlen : scanUp key ks = ks.length := by
      have := scanUp_le key ks; omega
    have := h4 hne hlen
    rw [List.getElem?_eq_none (by omega)]
    simp only [reduceCtorEq, iff_false]
    omega

/-! ## Erasing a key from sorted lists -/

theorem eraseIdx_eq_erase (ks : List Int) (i : Nat) (key : Int)
    (hbefore : ∀ x ∈ ks.take i, x ≠ key) (hat : ks[i]? = some key) :
    ks.eraseIdx i = ks.erase key := by
  induction ks generalizing i with
  | nil => simp at hat
  | cons k ks ih =>
    cases i with
    | zero =>
      simp only [List.getElem?_cons_zero, Option.some.injEq] at hat
      subst hat
      simp
    | succ i =>
      simp only [List.getElem?_cons_succ] at hat
      have hk : k ≠ key := hbefore k (by simp)
      rw [List.eraseIdx_cons_succ, List.erase_cons_tail (by simpa using hk)]
      rw [ih i (fun x hx => hbefore x (by simp [hx])) hat]

/-- Erasing a key from a duplicate-free list that is cut in three, when the
key can only be in the middle part. -/
theorem erase_region (A X B : List Int) (key : Int) (hnd : (A ++ (X ++ B)).Nodup)
    (hloc : key ∈ A ++ (X ++ B) → key ∈ X) :
    (A ++ (X ++ B)).erase key = A ++ (X.erase key ++ B) := by
  have hA : key ∉ A := by
    intro h
    have hX := hloc (List.mem_append_left _ h)
    exact (List.nodup_append.1 hnd).2.2 h (List.mem_append_left _ hX)
  have hB : key ∉ B := by
    intro h
    have hX := hloc (List.mem_append_right _ (List.mem_append_right _ h))
    exact (List.nodup_append.1 (List.nodup_append.1 hnd).2.1).2.2 hX h
  rw [List.erase_append_right _ hA]
  by_cases hX : key ∈ X
  · rw [List.erase_append_left _ hX]
  · rw [List.erase_append_right _ hX, List.erase_of_not_mem hB, List.erase_of_not_mem hX]

theorem pairwise_lt_nodup (l : List Int) (h : l.Pairwise (· < ·)) : l.Nodup :=
  h.imp (fun hab => ne_of_lt hab)

theorem erase_sorted (l : List Int) (key : Int) (h : l.Pairwise (· < ·)) :
    (l.erase key).Pairwise (· < ·) :=
  h.sublist (List.erase_sublist _ _)

/-! ## Deleting from a leaf -/

theorem deleteStep_leaf (dm : DataModel) (ret0 key : Int) (ks : List Int) (cs : List BTree)
    (hne : ks ≠ []) (hs : ks.Pairwise (· < ·)) (hov : ∀ x ∈ ks, int32 (x - key) = true) :
    deleteStep dm ret0 (.node true ks cs) key = .ok (.done (.node true (ks.erase key) cs)) := by
  obtain ⟨h1, h2⟩ := find_index_spec true ks cs key ret0 hne hov
  simp only [deleteStep]
  generalize btree_find_index (.node true ks cs) key ret0 = fi at h1 h2
  obtain ⟨index, ret⟩ := fi
  simp only at h1 h2
  subst h1
  by_cases hret : ret = 0
  · have hat := h2.1 hret
    have hlt : scanUp key ks < ks.length := by
      by_contra hc
      rw [List.getElem?_eq_none (by omega)] at hat
      cases hat
    simp only [hret, and_self, if_true]
    rw [if_neg (by omega)]
    rw [eraseIdx_eq_erase ks _ key (fun x hx => ne_of_lt (scanUp_take_lt key ks x hx)) hat]
  · have hnot : ks[scanUp key ks]? ≠ some key := fun h => hret (h2.2 h)
    have hmem := not_mem_keys_of_scanUp key ks (pairwise_lt_le _ hs) hnot
    simp [hret, List.erase_of_not_mem hmem]

theorem delete_aux_leaf (dm : DataModel) (ret0 key : Int) (fuel : Nat) (ks : List Int)
    (cs : List BTree) (hne : ks ≠ []) (hs : ks.Pairwise (· < ·))
    (hov : ∀ x ∈ ks, int32 (x - key) = true) :
    btree_delete_aux dm ret0 (fuel + 1) (.node true ks cs) key =
      .ok (.node true (ks.erase key) cs) := by
  simp only [btree_delete_aux, deleteStep_leaf dm ret0 key ks cs hne hs hov]

/-! ## From a sorted traversal back to the ordering invariant -/

theorem pairwise_strictSorted (ks : List Int) (h : ks.Pairwise (· < ·)) :
    strictSorted ks = true := by
  induction ks with
  | nil => rfl
  | cons a l ih =>
    cases l with
    | nil => rfl
    | cons b l =>
      rw [List.pairwise_cons] at h
      simp only [strictSorted, Bool.and_eq_true, decide_eq_true_eq]
      exact ⟨h.1 b (List.mem_cons_self _ _), ih h.2⟩

theorem orderedList_of_sorted (cs : List BTree) : ∀ (ks : List Int) (lo : Option Int),
    cs.length = ks.length + 1 → (inorderList ks cs).Pairwise (· < ·) →
    (∀ x ∈ inorderList ks cs, ∀ l, lo = some l → l < x) →
    (∀ c ∈ cs, (inorder c).Pairwise (· < ·) → ordered c = true) →
    orderedList lo ks cs = true := by
  induction cs with
  | nil => intro ks lo hlen; simp at hlen
  | cons c cs ih =>
    intro ks lo hlen hs hlo hc
    simp only [orderedList, Bool.and_eq_true]
    cases ks with
    | nil =>
      simp only [List.length_cons, List.length_nil, Nat.zero_add, Nat.add_left_eq_self,
        List.length_eq_zero] at hlen
      subst hlen
      simp only [inorderList] at hs hlo
      refine ⟨⟨hc c (List.mem_cons_self _ _) hs, ?_⟩, by simp [orderedList]⟩
      rw [between_iff]
      intro x hx
      exact ⟨fun l hl => hlo x hx l hl, by simp⟩
    | cons k ks =>
      simp only [List.length_cons, Nat.add_right_cancel_iff] at hlen
      simp only [inorderList] at hs hlo
      rw [List.pairwise_append] at hs
      obtain ⟨hs1, hs2, hs3⟩ := hs
      rw [List.pairwise_cons] at hs2
      refine ⟨⟨hc c (List.mem_cons_self _ _) hs1, ?_⟩, ?_⟩
      · rw [between_iff]
        intro x hx
        refine ⟨fun l hl => hlo x (List.mem_append_left _ hx) l hl, ?_⟩
        intro u hu
        simp only [List.head?_cons, Option.some.injEq] at hu
        subst hu
        exact hs3 x hx _ (List.mem_cons_self _ _)
      · simp only [List.head?_cons, List.tail_cons]
        refine ih ks (some k) hlen hs2.2 ?_ (fun d hd => hc d (List.mem_cons_of_mem _ hd))
        intro x hx l hl
        simp only [Option.some.injEq] at hl
        subst hl
        exact hs2.1 x hx

theorem sorted_ordered (h : Nat) : ∀ (r : Bool) (t : BTree), shaped r h t = true →
    (inorder t).Pairwise (· < ·) → ordered t = true := by
  induction h with
  | zero => intro r t hs; rw [shaped_zero] at hs; cases hs
  | succ h ih =>
    intro r t hs hsort
    obtain ⟨leaf, ks, cs⟩ := t
    rw [shaped_iff] at hs
    simp only [ordered, Bool.and_eq_true]
    cases leaf with
    | true =>
      obtain ⟨_, hcs⟩ := hs.2.2.2.1 rfl
      subst hcs
      simp only [inorder, if_true] at hsort
      exact ⟨pairwise_strictSorted ks hsort, by simp [orderedList]⟩
    | false =>
      obtain ⟨hlen, hall⟩ := hs.2.2.2.2 rfl
      simp only [inorder, Bool.false_eq_true, if_false] at hsort
      refine ⟨pairwise_strictSorted ks (hsort.sublist (keys_sublist_inorderList ks cs hlen)), ?_⟩
      exact orderedList_of_sorted cs ks none hlen hsort (by simp)
        (fun c hc hcs => ih false c (hall c hc) hcs)

theorem wellFormed_of (h : Nat) (t : BTree) (hs : shaped true h t = true)
    (hsort : (inorder t).Pairwise (· < ·)) : wellFormed t = true := by
  rw [wellFormed_iff, shaped_height _ _ _ hs]
  exact ⟨hs, sorted_ordered h true t hs hsort⟩

/-! ## The right sibling after a borrow, when it is a leaf -/

theorem shrinkRightSibling_leaf (dm : DataModel) (up : Int) (rest : List Int) (cs : List BTree)
    (h : rest.length < KEY_NUM) :
    shrinkRightSibling dm (.node true (up :: rest) cs) = .ok (.node true rest cs) := by
  simp only [KEY_NUM, M] at h
  match rest, h with
  | [], _ => cases dm <;> rfl
  | [a], _ => cases dm <;> rfl
  | [a, b], _ => cases dm <;> rfl
  | [a, b, c], _ => cases dm <;> rfl
  | [a, b, c, d], _ => cases dm <;> rfl
  | [a, b, c, d, e], _ => cases dm <;> rfl
  | [a, b, c, d, e, f], _ => cases dm <;> rfl

/-! ## The branches of the enrichment step -/

theorem enrich_rich (dm : DataModel) (leaf : Bool) (ks : List Int) (cs : List BTree)
    (i : Nat) (key : Int) (c : BTree) (hc : cs[i]? = some c) (hcn : c.num ≠ M - 1) :
    enrich dm leaf ks cs i key = .ok (.into (.node leaf ks cs) i key) := by
  simp only [enrich, hc]
  rw [if_pos hcn]

theorem enrich_borrow_right (dm : DataModel) (leaf : Bool) (ks : List Int) (cs : List BTree)
    (i : Nat) (key : Int) (c s s1 : BTree) (sep up : Int)
    (hc : cs[i]? = some c) (hcn : c.num = M - 1)
    (hR : rightSibling ks cs i = some s) (hsn : M ≤ s.num)
    (hsep : ks[i]? = some sep) (hup : s.key.head? = some up)
    (hsh : shrinkRightSibling dm s = .ok s1) :
    enrich dm leaf ks cs i key =
      .ok (.into (.node leaf (ks.set i up)
        ((cs.set i (.node c.leaf (c.key ++ [sep])
          (c.child ++ s.child.head?.toList))).set (i + 1) s1)) i key) := by
  simp only [enrich, hc, hR]
  rw [if_neg (by simp [hcn])]
  simp [hsn, hsep, hup, hsh]

theorem enrich_borrow_left (dm : DataModel) (leaf : Bool) (ks : List Int) (cs : List BTree)
    (i : Nat) (key : Int) (c s : BTree) (sep up : Int)
    (hc : cs[i]? = some c) (hcn : c.num = M - 1)
    (hR : ∀ r, rightSibling ks cs i = some r → r.num < M)
    (hL : leftSibling cs i = some s) (hsn : M ≤ s.num)
    (hsep : ks[i - 1]? = some sep) (hup : s.key.getLast? = some up) :
    enrich dm leaf ks cs i key =
      .ok (.into (.node leaf (ks.set (i - 1) up)
        ((cs.set i (.node c.leaf (sep :: c.key)
          ((s.child[s.num]?).toList ++ c.child))).set (i - 1)
          (.node s.leaf s.key.dropLast (s.child.take s.num)))) i key) := by
  simp only [enrich, hc, hL]
  rw [if_neg (by simp [hcn])]
  cases hr : rightSibling ks cs i with
  | none => simp [hsn, hsep, hup]
  | some r =>
    have := hR r hr
    have hnot : ¬ (M ≤ r.num) := by omega
    simp [hnot, hsn, hsep, hup]

theorem enrich_merge_right (dm : DataModel) (leaf : Bool) (ks : List Int) (cs : List BTree)
    (i : Nat) (key : Int) (c s : BTree) (sep : Int)
    (hc : cs[i]? = some c) (hcn : c.num = M - 1)
    (hR : rightSibling ks cs i = some s) (hsn : s.num = M - 1)
    (hL : ∀ l, leftSibling cs i = some l → l.num < M)
    (hsep : ks[i]? = some sep) :
    enrich dm leaf ks cs i key =
      .ok (dropSeparator leaf ks cs i
        (.node c.leaf (c.key ++ sep :: s.key) (c.child ++ s.child)) key) := by
  simp only [enrich, hc, hR]
  rw [if_neg (by simp [hcn])]
  cases hl : leftSibling cs i with
  | none => simp [hsn, hsep, M]
  | some l =>
    have := hL l hl
    have hnotl : ¬ (M ≤ l.num) := by omega
    simp only [M] at hnotl
    simp [hnotl, hsn, hsep, M]

theorem enrich_merge_left (dm : DataModel) (leaf : Bool) (ks : List Int) (cs : List BTree)
    (i : Nat) (key : Int) (c s : BTree) (sep : Int)
    (hc : cs[i]? = some c) (hcn : c.num = M - 1)
    (hR : rightSibling ks cs i = none)
    (hL : leftSibling cs i = some s) (hsn : s.num = M - 1)
    (hsep : ks[i - 1]? = some sep) :
    enrich dm leaf ks cs i key =
      .ok (dropSeparator leaf ks cs (i - 1)
        (.node s.leaf (s.key ++ sep :: c.key) (s.child ++ c.child)) key) := by
  simp only [enrich, hc, hR, hL]
  rw [if_neg (by simp [hcn])]
  simp [hsn, hsep, M]

/-! ## A node over leaves, seen around two adjacent children -/

theorem shaped_leaf_iff (c : BTree) :
    shaped false 1 c = true ↔ ∃ ck, c = .node true ck [] ∧ 3 ≤ ck.length ∧ ck.length ≤ 7 := by
  obtain ⟨leaf, ks, cs⟩ := c
  rw [shaped_iff]
  cases leaf with
  | true =>
    simp only [KEY_NUM, M]
    constructor
    · rintro ⟨h1, h2, _, h4, _⟩
      obtain ⟨_, rfl⟩ := h4 trivial
      exact ⟨ks, rfl, h2 trivial, h1⟩
    · rintro ⟨ck, h, h1, h2⟩
      cases h
      exact ⟨h2, fun _ => h1, by simp, by simp, by simp⟩
  | false =>
    constructor
    · rintro ⟨_, _, _, _, h5⟩
      obtain ⟨hlen, hall⟩ := h5 rfl
      cases cs with
      | nil => simp at hlen
      | cons c cs =>
        have := hall c (List.mem_cons_self _ _)
        rw [shaped_zero] at this
        cases this
    · rintro ⟨ck, h, _⟩
      cases h

theorem pair_view (ks : List Int) (cs : List BTree) (n : Nat)
    (hlen : cs.length = ks.length + 1) (hn : n < ks.length) :
    ∃ ks1 sep ks2 cs1 x y cs2, ks = ks1 ++ sep :: ks2 ∧ cs = cs1 ++ x :: y :: cs2 ∧
      ks1.length = n ∧ cs1.length = n ∧ cs2.length = ks2.length := by
  refine ⟨ks.take n, ks[n], ks.drop (n + 1), cs.take n, cs[n], cs[n + 1], cs.drop (n + 2),
    ?_, ?_, ?_, ?_, ?_⟩
  · simp
  · have h2 : cs[n + 1] :: cs.drop (n + 2) = cs.drop (n + 1) := by simp
    rw [h2]
    simp
  · simp; omega
  · simp; omega
  · simp; omega

theorem get_sep (ks1 : List Int) (sep : Int) (ks2 : List Int) (n : Nat)
    (h : ks1.length = n) : (ks1 ++ sep :: ks2)[n]? = some sep := by
  subst h
  rw [List.getElem?_append_right (le_refl _)]
  simp

theorem set_sep (ks1 : List Int) (sep up : Int) (ks2 : List Int) (n : Nat)
    (h : ks1.length = n) : (ks1 ++ sep :: ks2).set n up = ks1 ++ up :: ks2 := by
  subst h; simp

theorem eraseIdx_at {α : Type} (l1 : List α) (a : α) (l2 : List α) (n : Nat)
    (h : l1.length = n) : (l1 ++ a :: l2).eraseIdx n = l1 ++ l2 := by
  subst h
  rw [List.eraseIdx_append_of_length_le (le_refl _)]
  simp

theorem eraseIdx_next {α : Type} (l1 : List α) (a b : α) (l2 : List α) (n : Nat)
    (h : l1.length = n) : (l1 ++ a :: b :: l2).eraseIdx (n + 1) = l1 ++ a :: l2 := by
  subst h
  rw [List.eraseIdx_append_of_length_le (by omega)]
  simp

theorem rightSibling_view (ks1 : List Int) (sep : Int) (ks2 : List Int) (cs1 : List BTree)
    (x y : BTree) (cs2 : List BTree) (n : Nat) (hk : ks1.length = n) (hc : cs1.length = n) :
    rightSibling (ks1 ++ sep :: ks2) (cs1 ++ x :: y :: cs2) n = some y := by
  simp only [rightSibling]
  rw [if_pos (by simp; omega)]
  exact getElem?_append_cons_cons _ _ _ _ _ hc

theorem leftSibling_view (cs1 : List BTree) (x y : BTree) (cs2 : List BTree) (n : Nat)
    (hc : cs1.length = n) : leftSibling (cs1 ++ x :: y :: cs2) (n + 1) = some x := by
  simp only [leftSibling]
  rw [if_pos (by omega)]
  simp only [Nat.add_sub_cancel]
  exact getElem?_append_cons _ _ _ _ hc

theorem inorder_pair (ks1 : List Int) (sep : Int) (ks2 : List Int) (cs1 : List BTree)
    (x y : BTree) (cs2 : List BTree) (h : cs1.length = ks1.length) :
    inorderList (ks1 ++ sep :: ks2) (cs1 ++ x :: y :: cs2) =
      headA ks1 cs1 ++ (inorder x ++ sep :: (inorder y ++ tailB ks2 cs2)) := by
  rw [inorderList_split _ _ _ _ _ h]
  simp only [tailB, inorderList_cons]

theorem inorder_one (ks1 ks2 : List Int) (cs1 : List BTree) (x : BTree) (cs2 : List BTree)
    (h : cs1.length = ks1.length) :
    inorderList (ks1 ++ ks2) (cs1 ++ x :: cs2) =
      headA ks1 cs1 ++ (inorder x ++ tailB ks2 cs2) :=
  inorderList_split _ _ _ _ _ h

theorem erase_getLast (l : List Int) (r : Int) (hnd : l.Nodup) (h : l.getLast? = some r) :
    l.erase r ++ [r] = l := by
  obtain ⟨l0, rfl⟩ : ∃ l0, l = l0 ++ [r] := by
    rcases List.eq_nil_or_concat l with rfl | ⟨l0, b, rfl⟩
    · simp at h
    · simp at h
      subst h
      exact ⟨l0, by simp⟩
  have hr : r ∉ l0 := by
    intro hm
    exact (List.nodup_append.1 hnd).2.2 hm (List.mem_singleton_self _)
  rw [List.erase_append_right _ hr]
  simp

theorem erase_head (l : List Int) (r : Int) (h : l.head? = some r) :
    r :: l.erase r = l := by
  cases l with
  | nil => simp at h
  | cons a l =>
    simp only [List.head?_cons, Option.some.injEq] at h
    subst h
    simp

/-! ## Finishing a delete in a leaf child -/

theorem delete_aux_into (dm : DataModel) (ret0 key k1 : Int) (fuel : Nat) (t : BTree)
    (bl : Bool) (bks : List Int) (bcs : List BTree) (i : Nat) (X : List Int) (xc : List BTree)
    (hstep : deleteStep dm ret0 t key = .ok (.into (.node bl bks bcs) i k1))
    (hc : bcs[i]? = some (.node true X xc)) (hne : X ≠ []) (hs : X.Pairwise (· < ·))
    (hov : ∀ x ∈ X, int32 (x - k1) = true) :
    btree_delete_aux dm ret0 (fuel + 2) t key =
      .ok (.node bl bks (bcs.set i (.node true (X.erase k1) xc))) := by
  rw [btree_delete_aux]
  simp only [hstep, child_node, hc, delete_aux_leaf dm ret0 k1 fuel X xc hne hs hov, putChild,
    leaf_node, key_node]

theorem delete_aux_root (dm : DataModel) (ret0 key k1 : Int) (fuel : Nat) (t : BTree)
    (X : List Int) (xc : List BTree)
    (hstep : deleteStep dm ret0 t key = .ok (.root (.node true X xc) k1))
    (hne : X ≠ []) (hs : X.Pairwise (· < ·)) (hov : ∀ x ∈ X, int32 (x - k1) = true) :
    btree_delete_aux dm ret0 (fuel + 2) t key = .ok (.node true (X.erase k1) xc) := by
  rw [btree_delete_aux]
  simp only [hstep, delete_aux_leaf dm ret0 k1 fuel X xc hne hs hov]

/-! ## One activation of `btree_delete` on an internal node -/

theorem find_index_pair (leaf : Bool) (ks : List Int) (cs : List BTree) (key ret0 : Int)
    (hne : ks ≠ []) (hov : ∀ x ∈ ks, int32 (x - key) = true) :
    ∃ r, btree_find_index (.node leaf ks cs) key ret0 = (scanUp key ks, r) ∧
      (r = 0 ↔ ks[scanUp key ks]? = some key) := by
  obtain ⟨h1, h2⟩ := find_index_spec leaf ks cs key ret0 hne hov
  refine ⟨(btree_find_index (.node leaf ks cs) key ret0).2, ?_, h2⟩
  rw [← h1]

theorem step_absent (dm : DataModel) (ret0 key : Int) (ks : List Int) (cs : List BTree)
    (hne : ks ≠ []) (hov : ∀ x ∈ ks, int32 (x - key) = true)
    (hf : ks[scanUp key ks]? ≠ some key) :
    deleteStep dm ret0 (.node false ks cs) key = enrich dm false ks cs (scanUp key ks) key := by
  obtain ⟨r, hfi, hr⟩ := find_index_pair false ks cs key ret0 hne hov
  have h0 : r ≠ 0 := fun h => hf (hr.1 h)
  simp [deleteStep, hfi, h0]

theorem step_found_pred (dm : DataModel) (ret0 key : Int) (ks : List Int) (cs : List BTree)
    (p : BTree) (r : Int)
    (hne : ks ≠ []) (hov : ∀ x ∈ ks, int32 (x - key) = true)
    (hf : ks[scanUp key ks]? = some key) (hc : cs[scanUp key ks]? = some p)
    (hp : M ≤ p.num) (hr : p.key.getLast? = some r) :
    deleteStep dm ret0 (.node false ks cs) key =
      .ok (.into (.node false (ks.set (scanUp key ks) r) cs) (scanUp key ks) r) := by
  obtain ⟨r0, hfi, hr0⟩ := find_index_pair false ks cs key ret0 hne hov
  have h0 : r0 = 0 := hr0.2 hf
  simp [deleteStep, hfi, h0, hc, hp, hr]

theorem step_found_succ (dm : DataModel) (ret0 key : Int) (ks : List Int) (cs : List BTree)
    (p s : BTree) (r : Int)
    (hne : ks ≠ []) (hov : ∀ x ∈ ks, int32 (x - key) = true)
    (hf : ks[scanUp key ks]? = some key) (hc : cs[scanUp key ks]? = some p)
    (hp : p.num < M) (hs : cs[scanUp key ks + 1]? = some s)
    (hsn : M ≤ s.num) (hr : s.key.head? = some r) :
    deleteStep dm ret0 (.node false ks cs) key =
      .ok (.into (.node false (ks.set (scanUp key ks) r) cs) (scanUp key ks + 1) r) := by
  obtain ⟨r0, hfi, hr0⟩ := find_index_pair false ks cs key ret0 hne hov
  have h0 : r0 = 0 := hr0.2 hf
  have hp1 : ¬ (M ≤ p.num) := by omega
  simp [deleteStep, hfi, h0, hc, hp1, hs, hsn, hr]

theorem step_found_merge (dm : DataModel) (ret0 key : Int) (ks : List Int) (cs : List BTree)
    (p s : BTree)
    (hne : ks ≠ []) (hov : ∀ x ∈ ks, int32 (x - key) = true)
    (hf : ks[scanUp key ks]? = some key) (hc : cs[scanUp key ks]? = some p)
    (hp : p.num = M - 1) (hs : cs[scanUp key ks + 1]? = some s) (hsn : s.num = M - 1) :
    deleteStep dm ret0 (.node false ks cs) key =
      .ok (dropSeparator false ks cs (scanUp key ks)
        (.node p.leaf (p.key ++ key :: s.key) (p.child ++ s.child)) key) := by
  obtain ⟨r0, hfi, hr0⟩ := find_index_pair false ks cs key ret0 hne hov
  have h0 : r0 = 0 := hr0.2 hf
  simp [deleteStep, hfi, h0, hc, hp, hs, hsn, M]

/-! ## Where the key of an absent separator lies -/

theorem mem_child_of_scanUp (key : Int) (ks : List Int) (cs : List BTree) (c : BTree)
    (hlen : cs.length = ks.length + 1) (hs : (inorderList ks cs).Pairwise (· ≤ ·))
    (hf : ks[scanUp key ks]? ≠ some key) (hc : cs[scanUp key ks]? = some c)
    (hk : key ∈ inorderList ks cs) : key ∈ inorder c := by
  obtain ⟨e, _, hA, hB⟩ := inorder_around ks cs (scanUp key ks) c hlen (scanUp_le _ _) hc hs
  rw [e] at hk
  rcases List.mem_append.1 hk with h | h
  · obtain ⟨k, hk1, hk2⟩ := hA key h
    have := scanUp_take_lt key ks k hk1
    omega
  · rcases List.mem_append.1 h with h | h
    · exact h
    · obtain ⟨k, hk1, hk2⟩ := hB key h
      have hge : key ≤ k := by
        apply scanUp_drop_ge key ks k
        rw [List.head?_drop]
        exact hk1
      have : k = key := by omega
      rw [this] at hk1
      exact absurd hk1 hf

/-! ## The shape and the traversal of the results -/

theorem shaped_pair (ks1 : List Int) (up : Int) (ks2 : List Int) (cs1 : List BTree)
    (xk yk : List Int) (cs2 : List BTree)
    (hn1 : cs1.length = ks1.length) (hn2 : cs2.length = ks2.length)
    (hsz : ks1.length + 1 + ks2.length ≤ 7)
    (hall : ∀ c ∈ cs1 ++ cs2, shaped false 1 c = true)
    (hx3 : 3 ≤ xk.length) (hx7 : xk.length ≤ 7) (hy3 : 3 ≤ yk.length) (hy7 : yk.length ≤ 7) :
    shaped true 2 (.node false (ks1 ++ up :: ks2)
      (cs1 ++ .node true xk [] :: .node true yk [] :: cs2)) = true := by
  rw [shaped_iff]
  refine ⟨by simp [KEY_NUM, M]; omega, by simp, fun _ _ => by simp; omega, by simp,
    fun _ => ⟨by simp; omega, ?_⟩⟩
  intro c hc
  simp only [List.mem_append, List.mem_cons] at hc
  rcases hc with h | rfl | rfl | h
  · exact hall c (List.mem_append_left _ h)
  · exact (shaped_leaf_iff _).2 ⟨xk, rfl, hx3, hx7⟩
  · exact (shaped_leaf_iff _).2 ⟨yk, rfl, hy3, hy7⟩
  · exact hall c (List.mem_append_right _ h)

theorem shaped_one (ks1 ks2 : List Int) (cs1 : List BTree) (xk : List Int) (cs2 : List BTree)
    (hn1 : cs1.length = ks1.length) (hn2 : cs2.length = ks2.length)
    (hsz : ks1.length + ks2.length ≤ 7) (hne : 1 ≤ ks1.length + ks2.length)
    (hall : ∀ c ∈ cs1 ++ cs2, shaped false 1 c = true)
    (hx3 : 3 ≤ xk.length) (hx7 : xk.length ≤ 7) :
    shaped true 2 (.node false (ks1 ++ ks2) (cs1 ++ .node true xk [] :: cs2)) = true := by
  rw [shaped_iff]
  refine ⟨by simp [KEY_NUM, M]; omega, by simp, fun _ _ => by simp; omega, by simp,
    fun _ => ⟨by simp; omega, ?_⟩⟩
  intro c hc
  simp only [List.mem_append, List.mem_cons] at hc
  rcases hc with h | rfl | h
  · exact hall c (List.mem_append_left _ h)
  · exact (shaped_leaf_iff _).2 ⟨xk, rfl, hx3, hx7⟩
  · exact hall c (List.mem_append_right _ h)

theorem shaped_root_leaf (X : List Int) (h : X.length ≤ 7) :
    shaped true 1 (.node true X []) = true := by
  rw [shaped_iff]
  exact ⟨by simpa [KEY_NUM, M] using h, by simp, by simp, by simp, by simp⟩

theorem inorder_pair_leaves (ks1 : List Int) (sep : Int) (ks2 : List Int) (cs1 : List BTree)
    (xk yk : List Int) (cs2 : List BTree) (h : cs1.length = ks1.length) :
    inorderList (ks1 ++ sep :: ks2) (cs1 ++ .node true xk [] :: .node true yk [] :: cs2) =
      headA ks1 cs1 ++ (xk ++ sep :: (yk ++ tailB ks2 cs2)) := by
  rw [inorder_pair _ _ _ _ _ _ _ h]
  simp [inorder_node]

theorem inorder_one_leaf (ks1 ks2 : List Int) (cs1 : List BTree) (xk : List Int)
    (cs2 : List BTree) (h : cs1.length = ks1.length) :
    inorderList (ks1 ++ ks2) (cs1 ++ .node true xk [] :: cs2) =
      headA ks1 cs1 ++ (xk ++ tailB ks2 cs2) := by
  rw [inorder_one _ _ _ _ _ h]
  simp [inorder_node]

/-! ## Deleting below a root over leaves -/

theorem inorder_internal (ks : List Int) (cs : List BTree) :
    inorder (.node false ks cs) = inorderList ks cs := by
  simp [inorder]

theorem region_facts (A X B orig : List Int) (e : orig = A ++ (X ++ B))
    (hs : orig.Pairwise (· < ·)) : X.Pairwise (· < ·) ∧ ∀ x ∈ X, x ∈ orig := by
  subst e
  refine ⟨hs.sublist ((List.sublist_append_left X B).trans (List.sublist_append_right A _)), ?_⟩
  intro x hx
  simp [hx]

theorem erase_in_region (A X B orig : List Int) (key : Int) (e : orig = A ++ (X ++ B))
    (hs : orig.Pairwise (· < ·)) (hloc : key ∈ orig → key ∈ X) :
    orig.erase key = A ++ (X.erase key ++ B) := by
  subst e
  exact erase_region A X B key (pairwise_lt_nodup _ hs) hloc

theorem length_erase_bounds (X : List Int) (key : Int) :
    X.length - 1 ≤ (X.erase key).length ∧ (X.erase key).length ≤ X.length := by
  rw [List.length_erase]
  split <;> omega

theorem merge_finish (dm : DataModel) (ret0 key : Int) (t : BTree) (ks1 : List Int) (sep : Int)
    (ks2 : List Int) (cs1 : List BTree) (x y : BTree) (cs2 : List BTree) (X : List Int)
    (hn1 : cs1.length = ks1.length) (hn2 : cs2.length = ks2.length)
    (hsz : ks1.length + 1 + ks2.length ≤ 7)
    (hall : ∀ c ∈ cs1 ++ cs2, shaped false 1 c = true)
    (hX : X.length = 7) (hs : X.Pairwise (· < ·)) (hov : ∀ a ∈ X, int32 (a - key) = true)
    (hstep : deleteStep dm ret0 t key = .ok (dropSeparator false (ks1 ++ sep :: ks2)
      (cs1 ++ x :: y :: cs2) ks1.length (.node true X []) key)) :
    ∃ t1, btree_delete_aux dm ret0 2 t key = .ok t1 ∧
      inorder t1 = headA ks1 cs1 ++ (X.erase key ++ tailB ks2 cs2) ∧
      (shaped true 2 t1 = true ∨ shaped true 1 t1 = true) := by
  have hne : X ≠ [] := by intro h; rw [h] at hX; cases hX
  have hel := length_erase_bounds X key
  by_cases h1 : (ks1 ++ sep :: ks2).length > 1
  · have hd : dropSeparator false (ks1 ++ sep :: ks2) (cs1 ++ x :: y :: cs2) ks1.length
        (.node true X []) key =
        .into (.node false (ks1 ++ ks2) (cs1 ++ .node true X [] :: cs2)) ks1.length key := by
      simp only [dropSeparator, if_pos h1, eraseIdx_at _ _ _ _ rfl,
        set_append_cons _ _ _ _ _ hn1, eraseIdx_next _ _ _ _ _ hn1]
    rw [hd] at hstep
    have hc : (cs1 ++ BTree.node true X [] :: cs2)[ks1.length]? = some (.node true X []) :=
      getElem?_append_cons _ _ _ _ hn1
    have haux := delete_aux_into dm ret0 key key 0 t _ _ _ _ X [] hstep hc hne hs hov
    rw [set_append_cons _ _ _ _ _ hn1] at haux
    refine ⟨_, haux, ?_, Or.inl ?_⟩
    · rw [inorder_internal]
      exact inorder_one_leaf _ _ _ _ _ hn1
    · simp only [List.length_append, List.length_cons] at h1
      exact shaped_one _ _ _ _ _ hn1 hn2 (by omega) (by omega) hall (by omega) (by omega)
  · simp only [List.length_append, List.length_cons] at h1
    obtain rfl : ks1 = [] := List.length_eq_zero.1 (by omega)
    obtain rfl : ks2 = [] := List.length_eq_zero.1 (by omega)
    obtain rfl : cs1 = [] := List.length_eq_zero.1 (by simpa using hn1)
    obtain rfl : cs2 = [] := List.length_eq_zero.1 (by simpa using hn2)
    have hd : dropSeparator false ([] ++ [sep]) ([] ++ x :: y :: []) ([] : List Int).length
        (.node true X []) key = .root (.node true X []) key := by
      simp [dropSeparator]
    rw [hd] at hstep
    have haux := delete_aux_root dm ret0 key key 0 t X [] hstep hne hs hov
    refine ⟨_, haux, ?_, Or.inr (shaped_root_leaf _ (by omega))⟩
    simp [inorder, headA, tailB]

theorem delete_found_view (dm : DataModel) (ret0 key : Int) (ks1 ks2 : List Int)
    (cs1 : List BTree) (xk yk : List Int) (cs2 : List BTree) (orig : List Int)
    (ho : orig = headA ks1 cs1 ++ (xk ++ key :: (yk ++ tailB ks2 cs2)))
    (hn1 : cs1.length = ks1.length) (hn2 : cs2.length = ks2.length)
    (hi : scanUp key (ks1 ++ key :: ks2) = ks1.length)
    (hsz : ks1.length + 1 + ks2.length ≤ 7)
    (hall : ∀ c ∈ cs1 ++ cs2, shaped false 1 c = true)
    (hx3 : 3 ≤ xk.length) (hx7 : xk.length ≤ 7) (hy3 : 3 ≤ yk.length) (hy7 : yk.length ≤ 7)
    (hsort : orig.Pairwise (· < ·))
    (hov : ∀ a ∈ orig, ∀ b ∈ key :: orig, int32 (a - b) = true) :
    ∃ t1, btree_delete_aux dm ret0 2 (.node false (ks1 ++ key :: ks2)
        (cs1 ++ .node true xk [] :: .node true yk [] :: cs2)) key = .ok t1 ∧
      inorder t1 = orig.erase key ∧
      (shaped true 2 t1 = true ∨ shaped true 1 t1 = true) := by
  have hlen : (cs1 ++ BTree.node true xk [] :: BTree.node true yk [] :: cs2).length =
      (ks1 ++ key :: ks2).length + 1 := by simp; omega
  have hio := inorder_pair_leaves ks1 key ks2 cs1 xk yk cs2 hn1
  have hsub : ∀ a ∈ ks1 ++ key :: ks2, a ∈ orig := by
    intro a ha
    rw [ho, ← hio]
    exact (keys_sublist_inorderList _ _ hlen).subset ha
  have hne : ks1 ++ key :: ks2 ≠ [] := by simp
  have hovk : ∀ a ∈ ks1 ++ key :: ks2, int32 (a - key) = true :=
    fun a ha => hov a (hsub a ha) key (List.mem_cons_self _ _)
  have hf : (ks1 ++ key :: ks2)[scanUp key (ks1 ++ key :: ks2)]? = some key := by
    rw [hi]; exact get_sep _ _ _ _ rfl
  have hc : (cs1 ++ BTree.node true xk [] :: BTree.node true yk [] :: cs2)[
      scanUp key (ks1 ++ key :: ks2)]? = some (.node true xk []) := by
    rw [hi]; exact getElem?_append_cons _ _ _ _ hn1
  have hs1 : (cs1 ++ BTree.node true xk [] :: BTree.node true yk [] :: cs2)[
      scanUp key (ks1 ++ key :: ks2) + 1]? = some (.node true yk []) := by
    rw [hi]; exact getElem?_append_cons_cons _ _ _ _ _ hn1
  have herase : orig.erase key = headA ks1 cs1 ++ (xk ++ (yk ++ tailB ks2 cs2)) := by
    have := erase_in_region (headA ks1 cs1 ++ xk) [key] (yk ++ tailB ks2 cs2) orig key
      (by rw [ho]; simp) hsort (fun _ => List.mem_singleton_self _)
    simpa using this
  obtain ⟨hxs, hxm⟩ := region_facts (headA ks1 cs1) xk (key :: (yk ++ tailB ks2 cs2)) orig
    ho hsort
  obtain ⟨hys, hym⟩ := region_facts (headA ks1 cs1 ++ (xk ++ [key])) yk (tailB ks2 cs2) orig
    (by rw [ho]; simp) hsort
  by_cases hp : 4 ≤ xk.length
  · -- case 2a: the last key of the preceding leaf replaces the key
    obtain ⟨r, hr⟩ : ∃ r, xk.getLast? = some r := by
      cases h : xk.getLast? with
      | none => rw [List.getLast?_eq_none_iff] at h; subst h; simp at hp
      | some r => exact ⟨r, rfl⟩
    have hrx : r ∈ xk := List.mem_of_getLast?_eq_some hr
    have hstep := step_found_pred dm ret0 key _ _ _ r hne hovk hf hc hp hr
    rw [hi, set_sep _ _ _ _ _ rfl] at hstep
    have haux := delete_aux_into dm ret0 key r 0 _ false _ _ ks1.length xk [] hstep
      (getElem?_append_cons _ _ _ _ hn1) (by intro h; subst h; simp at hp) hxs
      (fun a ha => hov a (hxm a ha) r (List.mem_cons_of_mem _ (hxm r hrx)))
    rw [set_append_cons _ _ _ _ _ hn1] at haux
    have hl := length_erase_bounds xk r
    refine ⟨_, haux, ?_, Or.inl (shaped_pair _ _ _ _ _ _ _ hn1 hn2 hsz hall (by omega)
      (by omega) hy3 hy7)⟩
    rw [inorder_internal, inorder_pair_leaves _ _ _ _ _ _ _ hn1, herase]
    have e := erase_getLast xk r (pairwise_lt_nodup _ hxs) hr
    conv_rhs => rw [← e]
    simp
  · by_cases hq : 4 ≤ yk.length
    · -- case 2b: the first key of the successor leaf replaces the key
      obtain ⟨r, hr⟩ : ∃ r, yk.head? = some r := by
        cases h : yk.head? with
        | none => rw [List.head?_eq_none_iff] at h; subst h; simp at hq
        | some r => exact ⟨r, rfl⟩
      have hry : r ∈ yk := List.mem_of_mem_head? hr
      have hstep := step_found_succ dm ret0 key _ _ _ _ r hne hovk hf hc
        (by rw [num_node]; simp only [M]; omega) hs1 hq hr
      rw [hi, set_sep _ _ _ _ _ rfl] at hstep
      have haux := delete_aux_into dm ret0 key r 0 _ false _ _ (ks1.length + 1) yk [] hstep
        (getElem?_append_cons_cons _ _ _ _ _ hn1) (by intro h; subst h; simp at hq) hys
        (fun a ha => hov a (hym a ha) r (List.mem_cons_of_mem _ (hym r hry)))
      rw [set_append_cons_cons _ _ _ _ _ _ hn1] at haux
      have hl := length_erase_bounds yk r
      refine ⟨_, haux, ?_, Or.inl (shaped_pair _ _ _ _ _ _ _ hn1 hn2 hsz hall hx3 hx7
        (by omega) (by omega))⟩
      rw [inorder_internal, inorder_pair_leaves _ _ _ _ _ _ _ hn1, herase]
      have e := erase_head yk r hr
      conv_rhs => rw [← e]
      simp
    · -- case 2c: the two leaves and the key are merged
      have hstep := step_found_merge dm ret0 key _ _ _ _ hne hovk hf hc
        (by rw [num_node]; simp only [M]; omega) hs1 (by rw [num_node]; simp only [M]; omega)
      obtain ⟨hXs, hXm⟩ := region_facts (headA ks1 cs1) (xk ++ key :: yk) (tailB ks2 cs2) orig
        (by rw [ho]; simp) hsort
      rw [hi] at hstep
      obtain ⟨t1, h1, h2, h3⟩ := merge_finish dm ret0 key _ ks1 key ks2 cs1 _ _ cs2
        (xk ++ key :: yk) hn1 hn2 hsz hall (by simp; omega) hXs
        (fun a ha => hov a (hXm a ha) key (List.mem_cons_self _ _)) hstep
      refine ⟨t1, h1, ?_, h3⟩
      rw [h2, erase_in_region (headA ks1 cs1) (xk ++ key :: yk) (tailB ks2 cs2) orig key
        (by rw [ho]; simp) hsort (fun _ => by simp)]

theorem delete_borrow_right_view (dm : DataModel) (ret0 key : Int) (ks1 : List Int) (sep : Int)
    (ks2 : List Int) (cs1 : List BTree) (xk yk : List Int) (cs2 : List BTree) (orig : List Int)
    (ho : orig = headA ks1 cs1 ++ (xk ++ sep :: (yk ++ tailB ks2 cs2)))
    (hn1 : cs1.length = ks1.length) (hn2 : cs2.length = ks2.length)
    (hi : scanUp key (ks1 ++ sep :: ks2) = ks1.length) (hsep : sep ≠ key)
    (hsz : ks1.length + 1 + ks2.length ≤ 7)
    (hall : ∀ c ∈ cs1 ++ cs2, shaped false 1 c = true)
    (hx : xk.length = 3) (hy4 : 4 ≤ yk.length) (hy7 : yk.length ≤ 7)
    (hsort : orig.Pairwise (· < ·))
    (hov : ∀ a ∈ orig, ∀ b ∈ key :: orig, int32 (a - b) = true)
    (hloc : key ∈ orig → key ∈ xk) :
    ∃ t1, btree_delete_aux dm ret0 2 (.node false (ks1 ++ sep :: ks2)
        (cs1 ++ .node true xk [] :: .node true yk [] :: cs2)) key = .ok t1 ∧
      inorder t1 = orig.erase key ∧
      (shaped true 2 t1 = true ∨ shaped true 1 t1 = true) := by
  have hlen : (cs1 ++ BTree.node true xk [] :: BTree.node true yk [] :: cs2).length =
      (ks1 ++ sep :: ks2).length + 1 := by simp; omega
  have hio := inorder_pair_leaves ks1 sep ks2 cs1 xk yk cs2 hn1
  have hsub : ∀ a ∈ ks1 ++ sep :: ks2, a ∈ orig := by
    intro a ha
    rw [ho, ← hio]
    exact (keys_sublist_inorderList _ _ hlen).subset ha
  have hne : ks1 ++ sep :: ks2 ≠ [] := by simp
  have hovk : ∀ a ∈ ks1 ++ sep :: ks2, int32 (a - key) = true :=
    fun a ha => hov a (hsub a ha) key (List.mem_cons_self _ _)
  have hf : (ks1 ++ sep :: ks2)[scanUp key (ks1 ++ sep :: ks2)]? ≠ some key := by
    rw [hi, get_sep _ _ _ _ rfl]
    simpa using hsep
  obtain ⟨up, rest, rfl⟩ : ∃ up rest, yk = up :: rest := by
    cases yk with
    | nil => simp at hy4
    | cons up rest => exact ⟨up, rest, rfl⟩
  simp only [List.length_cons] at hy4 hy7
  have hstep := step_absent dm ret0 key _ (cs1 ++ BTree.node true xk [] ::
    BTree.node true (up :: rest) [] :: cs2) hne hovk hf
  rw [hi, enrich_borrow_right dm false _ _ _ key (.node true xk []) (.node true (up :: rest) [])
    (.node true rest []) sep up (getElem?_append_cons _ _ _ _ hn1) (by rw [num_node, hx]; rfl)
    (rightSibling_view _ _ _ _ _ _ _ _ rfl hn1)
    (by rw [num_node]; simp only [M, List.length_cons]; omega)
    (get_sep _ _ _ _ rfl) rfl
    (shrinkRightSibling_leaf dm up rest [] (by simp only [KEY_NUM, M]; omega)),
    set_sep _ _ _ _ _ rfl, set_append_cons _ _ _ _ _ hn1,
    set_append_cons_cons _ _ _ _ _ _ hn1] at hstep
  simp only [leaf_node, key_node, child_node, List.head?_nil, Option.toList, List.append_nil]
    at hstep
  have e : orig = headA ks1 cs1 ++ ((xk ++ [sep]) ++ (up :: (rest ++ tailB ks2 cs2))) := by
    rw [ho]; simp
  obtain ⟨hXs, hXm⟩ := region_facts _ _ _ orig e hsort
  have haux := delete_aux_into dm ret0 key key 0 _ false _ _ ks1.length (xk ++ [sep]) [] hstep
    (getElem?_append_cons _ _ _ _ hn1) (by simp) hXs
    (fun a ha => hov a (hXm a ha) key (List.mem_cons_self _ _))
  rw [set_append_cons _ _ _ _ _ hn1] at haux
  have hl := length_erase_bounds (xk ++ [sep]) key
  simp only [List.length_append, List.length_singleton] at hl
  refine ⟨_, haux, ?_, Or.inl (shaped_pair _ _ _ _ _ _ _ hn1 hn2 hsz hall (by omega)
    (by omega) (by omega) (by omega))⟩
  rw [inorder_internal, inorder_pair_leaves _ _ _ _ _ _ _ hn1,
    erase_in_region _ _ _ orig key e hsort (fun h => List.mem_append_left _ (hloc h))]

theorem delete_borrow_left_view (dm : DataModel) (ret0 key : Int) (ks1 : List Int) (sep : Int)
    (ks2 : List Int) (cs1 : List BTree) (xk yk : List Int) (cs2 : List BTree) (orig : List Int)
    (ho : orig = headA ks1 cs1 ++ (xk ++ sep :: (yk ++ tailB ks2 cs2)))
    (hn1 : cs1.length = ks1.length) (hn2 : cs2.length = ks2.length)
    (hi : scanUp key (ks1 ++ sep :: ks2) = ks1.length + 1)
    (hf : (ks1 ++ sep :: ks2)[ks1.length + 1]? ≠ some key)
    (hR : ∀ r, rightSibling (ks1 ++ sep :: ks2)
      (cs1 ++ .node true xk [] :: .node true yk [] :: cs2) (ks1.length + 1) = some r →
      r.num < M)
    (hsz : ks1.length + 1 + ks2.length ≤ 7)
    (hall : ∀ c ∈ cs1 ++ cs2, shaped false 1 c = true)
    (hx4 : 4 ≤ xk.length) (hx7 : xk.length ≤ 7) (hy : yk.length = 3)
    (hsort : orig.Pairwise (· < ·))
    (hov : ∀ a ∈ orig, ∀ b ∈ key :: orig, int32 (a - b) = true)
    (hloc : key ∈ orig → key ∈ yk) :
    ∃ t1, btree_delete_aux dm ret0 2 (.node false (ks1 ++ sep :: ks2)
        (cs1 ++ .node true xk [] :: .node true yk [] :: cs2)) key = .ok t1 ∧
      inorder t1 = orig.erase key ∧
      (shaped true 2 t1 = true ∨ shaped true 1 t1 = true) := by
  have hlen : (cs1 ++ BTree.node true xk [] :: BTree.node true yk [] :: cs2).length =
      (ks1 ++ sep :: ks2).length + 1 := by simp; omega
  have hio := inorder_pair_leaves ks1 sep ks2 cs1 xk yk cs2 hn1
  have hsub : ∀ a ∈ ks1 ++ sep :: ks2, a ∈ orig := by
    intro a ha
    rw [ho, ← hio]
    exact (keys_sublist_inorderList _ _ hlen).subset ha
  have hne : ks1 ++ sep :: ks2 ≠ [] := by simp
  have hovk : ∀ a ∈ ks1 ++ sep :: ks2, int32 (a - key) = true :=
    fun a ha => hov a (hsub a ha) key (List.mem_cons_self _ _)
  obtain ⟨up, hup⟩ : ∃ up, xk.getLast? = some up := by
    cases h : xk.getLast? with
    | none => rw [List.getLast?_eq_none_iff] at h; subst h; simp at hx4
    | some r => exact ⟨r, rfl⟩
  have hstep := step_absent dm ret0 key _ (cs1 ++ BTree.node true xk [] ::
    BTree.node true yk [] :: cs2) hne hovk (by rw [hi]; exact hf)
  rw [hi, enrich_borrow_left dm false _ _ _ key (.node true yk []) (.node true xk [])
    sep up (getElem?_append_cons_cons _ _ _ _ _ hn1) (by rw [num_node, hy]; rfl) hR
    (leftSibling_view _ _ _ _ _ hn1) hx4 (get_sep _ _ _ _ rfl) hup] at hstep
  simp only [Nat.add_sub_cancel, leaf_node, key_node, child_node, List.getElem?_nil,
    Option.toList, List.append_nil, List.take_nil] at hstep
  rw [set_sep _ _ _ _ _ rfl, set_append_cons_cons _ _ _ _ _ _ hn1,
    set_append_cons _ _ _ _ _ hn1] at hstep
  have e : orig = (headA ks1 cs1 ++ xk) ++ ((sep :: yk) ++ tailB ks2 cs2) := by
    rw [ho]; simp
  obtain ⟨hXs, hXm⟩ := region_facts _ _ _ orig e hsort
  have haux := delete_aux_into dm ret0 key key 0 _ false _ _ (ks1.length + 1) (sep :: yk) []
    hstep (getElem?_append_cons_cons _ _ _ _ _ hn1) (by simp) hXs
    (fun a ha => hov a (hXm a ha) key (List.mem_cons_self _ _))
  rw [set_append_cons_cons _ _ _ _ _ _ hn1] at haux
  have hl := length_erase_bounds (sep :: yk) key
  simp only [List.length_cons] at hl
  refine ⟨_, haux, ?_, Or.inl (shaped_pair _ _ _ _ _ _ _ hn1 hn2 hsz hall
    (by rw [List.length_dropLast]; omega) (by rw [List.length_dropLast]; omega)
    (by omega) (by omega))⟩
  rw [inorder_internal, inorder_pair_leaves _ _ _ _ _ _ _ hn1,
    erase_in_region _ _ _ orig key e hsort (fun h => List.mem_cons_of_mem _ (hloc h))]
  have e2 := List.dropLast_append_getLast? up hup
  conv_rhs => rw [← e2]
  simp

theorem delete_merge_right_view (dm : DataModel) (ret0 key : Int) (ks1 : List Int) (sep : Int)
    (ks2 : List Int) (cs1 : List BTree) (xk yk : List Int) (cs2 : List BTree) (orig : List Int)
    (ho : orig = headA ks1 cs1 ++ (xk ++ sep :: (yk ++ tailB ks2 cs2)))
    (hn1 : cs1.length = ks1.length) (hn2 : cs2.length = ks2.length)
    (hi : scanUp key (ks1 ++ sep :: ks2) = ks1.length) (hsep : sep ≠ key)
    (hL : ∀ l, leftSibling (cs1 ++ .node true xk [] :: .node true yk [] :: cs2) ks1.length =
      some l → l.num < M)
    (hsz : ks1.length + 1 + ks2.length ≤ 7)
    (hall : ∀ c ∈ cs1 ++ cs2, shaped false 1 c = true)
    (hx : xk.length = 3) (hy : yk.length = 3)
    (hsort : orig.Pairwise (· < ·))
    (hov : ∀ a ∈ orig, ∀ b ∈ key :: orig, int32 (a - b) = true)
    (hloc : key ∈ orig → key ∈ xk) :
    ∃ t1, btree_delete_aux dm ret0 2 (.node false (ks1 ++ sep :: ks2)
        (cs1 ++ .node true xk [] :: .node true yk [] :: cs2)) key = .ok t1 ∧
      inorder t1 = orig.erase key ∧
      (shaped true 2 t1 = true ∨ shaped true 1 t1 = true) := by
  have hlen : (cs1 ++ BTree.node true xk [] :: BTree.node true yk [] :: cs2).length =
      (ks1 ++ sep :: ks2).length + 1 := by simp; omega
  have hio := inorder_pair_leaves ks1 sep ks2 cs1 xk yk cs2 hn1
  have hsub : ∀ a ∈ ks1 ++ sep :: ks2, a ∈ orig := by
    intro a ha
    rw [ho, ← hio]
    exact (keys_sublist_inorderList _ _ hlen).subset ha
  have hne : ks1 ++ sep :: ks2 ≠ [] := by simp
  have hovk : ∀ a ∈ ks1 ++ sep :: ks2, int32 (a - key) = true :=
    fun a ha => hov a (hsub a ha) key (List.mem_cons_self _ _)
  have hf : (ks1 ++ sep :: ks2)[scanUp key (ks1 ++ sep :: ks2)]? ≠ some key := by
    rw [hi, get_sep _ _ _ _ rfl]
    simpa using hsep
  have hstep := step_absent dm ret0 key _ (cs1 ++ BTree.node true xk [] ::
    BTree.node true yk [] :: cs2) hne hovk hf
  rw [hi, enrich_merge_right dm false _ _ _ key (.node true xk []) (.node true yk [])
    sep (getElem?_append_cons _ _ _ _ hn1) (by rw [num_node, hx]; rfl)
    (rightSibling_view _ _ _ _ _ _ _ _ rfl hn1) (by rw [num_node, hy]; rfl) hL
    (get_sep _ _ _ _ rfl)] at hstep
  have e : orig = headA ks1 cs1 ++ ((xk ++ sep :: yk) ++ tailB ks2 cs2) := by
    rw [ho]; simp
  obtain ⟨hXs, hXm⟩ := region_facts _ _ _ orig e hsort
  obtain ⟨t1, h1, h2, h3⟩ := merge_finish dm ret0 key _ ks1 sep ks2 cs1 _ _ cs2
    (xk ++ sep :: yk) hn1 hn2 hsz hall (by simp; omega) hXs
    (fun a ha => hov a (hXm a ha) key (List.mem_cons_self _ _)) hstep
  refine ⟨t1, h1, ?_, h3⟩
  rw [h2, erase_in_region _ _ _ orig key e hsort (fun h => List.mem_append_left _ (hloc h))]

theorem delete_merge_left_view (dm : DataModel) (ret0 key : Int) (ks1 : List Int) (sep : Int)
    (ks2 : List Int) (cs1 : List BTree) (xk yk : List Int) (cs2 : List BTree) (orig : List Int)
    (ho : orig = headA ks1 cs1 ++ (xk ++ sep :: (yk ++ tailB ks2 cs2)))
    (hn1 : cs1.length = ks1.length) (hn2 : cs2.length = ks2.length)
    (hi : scanUp key (ks1 ++ sep :: ks2) = ks1.length + 1)
    (hf : (ks1 ++ sep :: ks2)[ks1.length + 1]? ≠ some key)
    (hR : rightSibling (ks1 ++ sep :: ks2)
      (cs1 ++ .node true xk [] :: .node true yk [] :: cs2) (ks1.length + 1) = none)
    (hsz : ks1.length + 1 + ks2.length ≤ 7)
    (hall : ∀ c ∈ cs1 ++ cs2, shaped false 1 c = true)
    (hx : xk.length = 3) (hy : yk.length = 3)
    (hsort : orig.Pairwise (· < ·))
    (hov : ∀ a ∈ orig, ∀ b ∈ key :: orig, int32 (a - b) = true)
    (hloc : key ∈ orig → key ∈ yk) :
    ∃ t1, btree_delete_aux dm ret0 2 (.node false (ks1 ++ sep :: ks2)
        (cs1 ++ .node true xk [] :: .node true yk [] :: cs2)) key = .ok t1 ∧
      inorder t1 = orig.erase key ∧
      (shaped true 2 t1 = true ∨ shaped true 1 t1 = true) := by
  have hlen : (cs1 ++ BTree.node true xk [] :: BTree.node true yk [] :: cs2).length =
      (ks1 ++ sep :: ks2).length + 1 := by simp; omega
  have hio := inorder_pair_leaves ks1 sep ks2 cs1 xk yk cs2 hn1
  have hsub : ∀ a ∈ ks1 ++ sep :: ks2, a ∈ orig := by
    intro a ha
    rw [ho, ← hio]
    exact (keys_sublist_inorderList _ _ hlen).subset ha
  have hne : ks1 ++ sep :: ks2 ≠ [] := by simp
  have hovk : ∀ a ∈ ks1 ++ sep :: ks2, int32 (a - key) = true :=
    fun a ha => hov a (hsub a ha) key (List.mem_cons_self _ _)
  have hstep := step_absent dm ret0 key _ (cs1 ++ BTree.node true xk [] ::
    BTree.node true yk [] :: cs2) hne hovk (by rw [hi]; exact hf)
  rw [hi, enrich_merge_left dm false _ _ _ key (.node true yk []) (.node true xk [])
    sep (getElem?_append_cons_cons _ _ _ _ _ hn1) (by rw [num_node, hy]; rfl) hR
    (leftSibling_view _ _ _ _ _ hn1) (by rw [num_node, hx]; rfl) (get_sep _ _ _ _ rfl)] at hstep
  simp only [Nat.add_sub_cancel] at hstep
  have e : orig = headA ks1 cs1 ++ ((xk ++ sep :: yk) ++ tailB ks2 cs2) := by
    rw [ho]; simp
  obtain ⟨hXs, hXm⟩ := region_facts _ _ _ orig e hsort
  obtain ⟨t1, h1, h2, h3⟩ := merge_finish dm ret0 key _ ks1 sep ks2 cs1 _ _ cs2
    (xk ++ sep :: yk) hn1 hn2 hsz hall (by simp; omega) hXs
    (fun a ha => hov a (hXm a ha) key (List.mem_cons_self _ _)) hstep
  refine ⟨t1, h1, ?_, h3⟩
  rw [h2, erase_in_region _ _ _ orig key e hsort
    (fun h => List.mem_append_right _ (List.mem_cons_of_mem _ (hloc h)))]

theorem right_view (ks : List Int) (cs : List BTree) (i : Nat) (ck : List Int)
    (hlen : cs.length = ks.length + 1) (hlt : i < ks.length)
    (hc : cs[i]? = some (.node true ck []))
    (hall : ∀ c ∈ cs, shaped false 1 c = true) :
    ∃ ks1 sep ks2 cs1 yk cs2, ks = ks1 ++ sep :: ks2 ∧
      cs = cs1 ++ .node true ck [] :: .node true yk [] :: cs2 ∧
      ks1.length = i ∧ cs1.length = ks1.length ∧ cs2.length = ks2.length ∧
      3 ≤ yk.length ∧ yk.length ≤ 7 := by
  obtain ⟨ks1, sep, ks2, cs1, x, y, cs2, rfl, rfl, h1, h2, h3⟩ := pair_view ks cs i hlen hlt
  rw [getElem?_append_cons _ _ _ _ h2] at hc
  cases hc
  obtain ⟨yk, rfl, hy3, hy7⟩ := (shaped_leaf_iff y).1 (hall y (by simp))
  exact ⟨ks1, sep, ks2, cs1, yk, cs2, rfl, rfl, h1, by omega, h3, hy3, hy7⟩

theorem left_view (ks : List Int) (cs : List BTree) (i : Nat) (ck : List Int)
    (hlen : cs.length = ks.length + 1) (h0 : 0 < i) (hle : i ≤ ks.length)
    (hc : cs[i]? = some (.node true ck []))
    (hall : ∀ c ∈ cs, shaped false 1 c = true) :
    ∃ ks1 sep ks2 cs1 xk cs2, ks = ks1 ++ sep :: ks2 ∧
      cs = cs1 ++ .node true xk [] :: .node true ck [] :: cs2 ∧
      ks1.length + 1 = i ∧ cs1.length = ks1.length ∧ cs2.length = ks2.length ∧
      3 ≤ xk.length ∧ xk.length ≤ 7 := by
  obtain ⟨ks1, sep, ks2, cs1, x, y, cs2, rfl, rfl, h1, h2, h3⟩ :=
    pair_view ks cs (i - 1) hlen (by omega)
  have hi : i = cs1.length + 1 := by omega
  rw [hi, getElem?_append_cons_cons _ _ _ _ _ rfl] at hc
  cases hc
  obtain ⟨xk, rfl, hx3, hx7⟩ := (shaped_leaf_iff x).1 (hall x (by simp))
  exact ⟨ks1, sep, ks2, cs1, xk, cs2, rfl, rfl, by omega, by omega, h3, hx3, hx7⟩

theorem delete_rich_child (dm : DataModel) (ret0 key : Int) (ks : List Int) (cs : List BTree)
    (ck : List Int) (hlen : cs.length = ks.length + 1) (hk7 : ks.length ≤ 7)
    (hk1 : 1 ≤ ks.length) (hall : ∀ c ∈ cs, shaped false 1 c = true)
    (hf : ks[scanUp key ks]? ≠ some key) (hc : cs[scanUp key ks]? = some (.node true ck []))
    (h4 : 4 ≤ ck.length) (h7 : ck.length ≤ 7)
    (hsort : (inorderList ks cs).Pairwise (· < ·))
    (hov : ∀ a ∈ inorderList ks cs, ∀ b ∈ key :: inorderList ks cs, int32 (a - b) = true) :
    ∃ t1, btree_delete_aux dm ret0 2 (.node false ks cs) key = .ok t1 ∧
      inorder t1 = (inorderList ks cs).erase key ∧
      (shaped true 2 t1 = true ∨ shaped true 1 t1 = true) := by
  have hne : ks ≠ [] := by intro h; subst h; simp at hk1
  have hovk : ∀ a ∈ ks, int32 (a - key) = true :=
    fun a ha => hov a ((keys_sublist_inorderList _ _ hlen).subset ha) key
      (List.mem_cons_self _ _)
  obtain ⟨e, eset, _, _⟩ := inorder_around ks cs (scanUp key ks) _ hlen (scanUp_le _ _) hc
    (pairwise_lt_le _ hsort)
  rw [inorder_node] at e
  simp only [if_true] at e
  obtain ⟨hXs, hXm⟩ := region_facts _ _ _ _ e hsort
  have hstep := step_absent dm ret0 key ks cs hne hovk hf
  rw [enrich_rich dm false ks cs _ key _ hc (by rw [num_node]; simp only [M]; omega)] at hstep
  have haux := delete_aux_into dm ret0 key key 0 _ false _ _ _ ck [] hstep hc
    (by intro h; subst h; simp at h4) hXs
    (fun a ha => hov a (hXm a ha) key (List.mem_cons_self _ _))
  have hl := length_erase_bounds ck key
  refine ⟨_, haux, ?_, Or.inl ?_⟩
  · rw [inorder_internal, eset, inorder_node]
    simp only [if_true]
    rw [erase_in_region _ _ _ _ key e hsort
      (fun h => by
        have := mem_child_of_scanUp key ks cs _ hlen (pairwise_lt_le _ hsort) hf hc h
        rwa [inorder_node] at this)]
  · rw [shaped_iff]
    refine ⟨by simpa [KEY_NUM, M] using hk7, by simp, fun _ _ => hk1, by simp,
      fun _ => ⟨by simpa using hlen, ?_⟩⟩
    intro c hcm
    rcases List.mem_or_eq_of_mem_set hcm with h | rfl
    · exact hall c h
    · exact (shaped_leaf_iff _).2 ⟨_, rfl, by omega, by omega⟩

/-- On a root over leaves `btree_delete` returns a tree whose traversal is the old one
without the key, and whose shape is that of a tree of the same height or of a single
leaf. -/
theorem delete_two_levels (dm : DataModel) (ret0 key : Int) (ks : List Int) (cs : List BTree)
    (hs : shaped true 2 (.node false ks cs) = true)
    (hsort : (inorderList ks cs).Pairwise (· < ·))
    (hov : ∀ a ∈ inorderList ks cs, ∀ b ∈ key :: inorderList ks cs, int32 (a - b) = true) :
    ∃ t1, btree_delete_aux dm ret0 2 (.node false ks cs) key = .ok t1 ∧
      inorder t1 = (inorderList ks cs).erase key ∧
      (shaped true 2 t1 = true ∨ shaped true 1 t1 = true) := by
  rw [shaped_iff] at hs
  obtain ⟨hk7, _, hk1, _, hi⟩ := hs
  obtain ⟨hlen, hall⟩ := hi rfl
  have hk1 := hk1 rfl rfl
  simp only [KEY_NUM, M] at hk7
  have hle := scanUp_le key ks
  by_cases hf : ks[scanUp key ks]? = some key
  · -- the key is a separator of the root
    have hlt : scanUp key ks < ks.length := by
      by_contra hc
      rw [List.getElem?_eq_none (by omega)] at hf
      cases hf
    obtain ⟨c, hc⟩ : ∃ c, cs[scanUp key ks]? = some c :=
      ⟨cs[scanUp key ks], List.getElem?_eq_getElem (by omega)⟩
    obtain ⟨xk, rfl, hx3, hx7⟩ := (shaped_leaf_iff c).1 (hall c (List.getElem?_mem hc))
    obtain ⟨ks1, sep, ks2, cs1, yk, cs2, rfl, rfl, h1, h2, h3, hy3, hy7⟩ :=
      right_view ks cs _ xk hlen hlt hc hall
    rw [← h1, get_sep _ _ _ _ rfl] at hf
    cases hf
    simp only [List.length_append, List.length_cons] at hk7
    exact delete_found_view dm ret0 key ks1 ks2 cs1 xk yk cs2 _
      (inorder_pair_leaves _ _ _ _ _ _ _ h2) h2 h3 h1.symm (by omega)
      (fun c hc => hall c (by
        rcases List.mem_append.1 hc with h | h
        · simp [h]
        · simp [h]))
      hx3 hx7 hy3 hy7 hsort hov
  · -- the key is looked for in the child of index `scanUp key ks`
    obtain ⟨c, hc⟩ : ∃ c, cs[scanUp key ks]? = some c :=
      ⟨cs[scanUp key ks], List.getElem?_eq_getElem (by omega)⟩
    obtain ⟨ck, rfl, hc3, hc7⟩ := (shaped_leaf_iff c).1 (hall c (List.getElem?_mem hc))
    have hloc : key ∈ inorderList ks cs → key ∈ ck := fun h => by
      have := mem_child_of_scanUp key ks cs _ hlen (pairwise_lt_le _ hsort) hf hc h
      rwa [inorder_node] at this
    by_cases h4 : 4 ≤ ck.length
    · exact delete_rich_child dm ret0 key ks cs ck hlen hk7 hk1 hall hf hc h4 hc7 hsort hov
    have hck : ck.length = 3 := by omega
    by_cases hPR : ∃ s, rightSibling ks cs (scanUp key ks) = some s ∧ M ≤ s.num
    · -- borrow from the right sibling
      obtain ⟨s, hR, hs4⟩ := hPR
      have hlt : scanUp key ks < ks.length := by
        by_contra hcon
        simp [rightSibling, hcon] at hR
      obtain ⟨ks1, sep, ks2, cs1, yk, cs2, rfl, rfl, h1, h2, h3, hy3, hy7⟩ :=
        right_view ks cs _ ck hlen hlt hc hall
      rw [← h1, rightSibling_view _ _ _ _ _ _ _ _ rfl h2] at hR
      cases hR
      rw [← h1, get_sep _ _ _ _ rfl] at hf
      simp only [List.length_append, List.length_cons] at hk7
      exact delete_borrow_right_view dm ret0 key ks1 sep ks2 cs1 ck yk cs2 _
        (inorder_pair_leaves _ _ _ _ _ _ _ h2) h2 h3 h1.symm (fun h => hf (by rw [h]))
        (by omega)
        (fun c hc => hall c (by
          rcases List.mem_append.1 hc with h | h
          · simp [h]
          · simp [h]))
        hck hs4 hy7 hsort hov hloc
    by_cases hPL : ∃ l, leftSibling cs (scanUp key ks) = some l ∧ M ≤ l.num
    · -- borrow from the left sibling
      obtain ⟨l, hL, hl4⟩ := hPL
      have h0 : 0 < scanUp key ks := by
        by_contra hcon
        simp [leftSibling, hcon] at hL
      have hR : ∀ r, rightSibling ks cs (scanUp key ks) = some r → r.num < M := by
        intro r hr
        by_contra hcon
        exact hPR ⟨r, hr, by omega⟩
      obtain ⟨ks1, sep, ks2, cs1, xk, cs2, rfl, rfl, h1, h2, h3, hx3, hx7⟩ :=
        left_view ks cs _ ck hlen h0 hle hc hall
      rw [← h1] at hL hR hf
      rw [leftSibling_view _ _ _ _ _ h2] at hL
      cases hL
      simp only [List.length_append, List.length_cons] at hk7
      exact delete_borrow_left_view dm ret0 key ks1 sep ks2 cs1 xk ck cs2 _
        (inorder_pair_leaves _ _ _ _ _ _ _ h2) h2 h3 h1.symm hf hR (by omega)
        (fun c hc => hall c (by
          rcases List.mem_append.1 hc with h | h
          · simp [h]
          · simp [h]))
        hl4 hx7 hck hsort hov hloc
    by_cases hlt : scanUp key ks < ks.length
    · -- merge with the right sibling
      have hL : ∀ l, leftSibling cs (scanUp key ks) = some l → l.num < M := by
        intro l hl
        by_contra hcon
        exact hPL ⟨l, hl, by omega⟩
      obtain ⟨ks1, sep, ks2, cs1, yk, cs2, rfl, rfl, h1, h2, h3, hy3, hy7⟩ :=
        right_view ks cs _ ck hlen hlt hc hall
      have hy : yk.length = 3 := by
        by_contra hcon
        apply hPR
        refine ⟨.node true yk [], ?_, ?_⟩
        · rw [← h1]; exact rightSibling_view _ _ _ _ _ _ _ _ rfl h2
        · rw [num_node]; simp only [M]; omega
      rw [← h1] at hL
      rw [← h1, get_sep _ _ _ _ rfl] at hf
      simp only [List.length_append, List.length_cons] at hk7
      exact delete_merge_right_view dm ret0 key ks1 sep ks2 cs1 ck yk cs2 _
        (inorder_pair_leaves _ _ _ _ _ _ _ h2) h2 h3 h1.symm (fun h => hf (by rw [h])) hL
        (by omega)
        (fun c hc => hall c (by
          rcases List.mem_append.1 hc with h | h
          · simp [h]
          · simp [h]))
        hck hy hsort hov hloc
    · -- merge with the left sibling
      have h0 : 0 < scanUp key ks := by omega
      have hR : rightSibling ks cs (scanUp key ks) = none := by
        simp [rightSibling, hlt]
      obtain ⟨ks1, sep, ks2, cs1, xk, cs2, rfl, rfl, h1, h2, h3, hx3, hx7⟩ :=
        left_view ks cs _ ck hlen h0 hle hc hall
      have hx : xk.length = 3 := by
        by_contra hcon
        apply hPL
        refine ⟨.node true xk [], ?_, ?_⟩
        · rw [← h1]; exact leftSibling_view _ _ _ _ _ h2
        · rw [num_node]; simp only [M]; omega
      rw [← h1] at hR hf
      simp only [List.length_append, List.length_cons] at hk7
      exact delete_merge_left_view dm ret0 key ks1 sep ks2 cs1 xk ck cs2 _
        (inorder_pair_leaves _ _ _ _ _ _ _ h2) h2 h3 h1.symm hf hR (by omega)
        (fun c hc => hall c (by
          rcases List.mem_append.1 hc with h | h
          · simp [h]
          · simp [h]))
        hx hck hsort hov hloc

/-! ## Deleting from a tree of at most two levels -/

theorem delete_shallow (dm : DataModel) (ret0 : Int) (t : BTree) (k : Int)
    (hw : wellFormed t = true) (hn : 1 ≤ t.num)
    (hh : t.leaf = true ∨ ∀ c ∈ t.child, c.leaf = true)
    (hov : ∀ x ∈ inorder t, ∀ y ∈ k :: inorder t, int32 (x - y) = true) :
    ∃ t1, btree_delete dm ret0 t k = .ok t1 ∧ inorder t1 = (inorder t).erase k ∧
      (inorder t1).Pairwise (· < ·) ∧ (shaped true 2 t1 = true ∨ shaped true 1 t1 = true) := by
  have hsh := (wellFormed_inv t hw).1
  have hsort := wellFormed_sorted t hw
  have core : ∃ t1, btree_delete dm ret0 t k = .ok t1 ∧ inorder t1 = (inorder t).erase k ∧
      (shaped true 2 t1 = true ∨ shaped true 1 t1 = true) := by
    obtain ⟨leaf, ks, cs⟩ := t
    cases hht : height (.node leaf ks cs) with
    | zero => rw [hht, shaped_zero] at hsh; cases hsh
    | succ h =>
      rw [hht] at hsh
      have hsh0 := hsh
      rw [shaped_iff] at hsh
      obtain ⟨hk7, _, _, hl, hi⟩ := hsh
      cases leaf with
      | true =>
        obtain ⟨rfl, rfl⟩ := hl rfl
        rw [inorder_node] at hsort hov ⊢
        simp only [if_true] at hsort hov ⊢
        rw [num_node] at hn
        have hne : ks ≠ [] := by intro h; subst h; simp at hn
        refine ⟨.node true (ks.erase k) [], ?_, ?_, Or.inr (shaped_root_leaf _ ?_)⟩
        · rw [btree_delete, hht]
          exact delete_aux_leaf dm ret0 k 0 ks [] hne hsort
            (fun x hx => hov x hx k (List.mem_cons_self _ _))
        · rw [inorder_node]; rfl
        · have := (length_erase_bounds ks k).2
          simp only [KEY_NUM, M] at hk7
          omega
      | false =>
        obtain ⟨hlen, hall⟩ := hi rfl
        have hleaf : ∀ c ∈ cs, c.leaf = true := by
          rcases hh with h | h
          · cases h
          · exact h
        obtain ⟨c, hc⟩ : ∃ c, c ∈ cs := by
          cases cs with
          | nil => simp at hlen
          | cons c cs => exact ⟨c, List.mem_cons_self _ _⟩
        have h1 : h = 1 := by
          have hcs := hall c hc
          have hcl := hleaf c hc
          obtain ⟨cl, ck, cc⟩ := c
          cases h with
          | zero => rw [shaped_zero] at hcs; cases hcs
          | succ h =>
            rw [shaped_iff] at hcs
            rw [leaf_node] at hcl
            rw [(hcs.2.2.2.1 hcl).1]
        subst h1
        rw [inorder_internal] at hsort hov ⊢
        rw [btree_delete, hht]
        exact delete_two_levels dm ret0 k ks cs hsh0 hsort hov
  obtain ⟨t1, h1, h2, h3⟩ := core
  exact ⟨t1, h1, h2, by rw [h2]; exact erase_sorted _ _ hsort, h3⟩

theorem shaped_two_size (t : BTree) (hs : shaped true 2 t = true) :
    7 ≤ (inorder t).length := by
  obtain ⟨leaf, ks, cs⟩ := t
  rw [shaped_iff] at hs
  obtain ⟨_, _, hk1, hl, hi⟩ := hs
  cases leaf with
  | true => have := (hl rfl).1; omega
  | false =>
    obtain ⟨hlen, hall⟩ := hi rfl
    have hk1 := hk1 rfl rfl
    obtain ⟨ks1, sep, ks2, cs1, x, y, cs2, rfl, rfl, h1, h2, h3⟩ :=
      pair_view ks cs 0 hlen (by omega)
    obtain ⟨xk, rfl, hx3, _⟩ := (shaped_leaf_iff x).1 (hall x (by simp))
    obtain ⟨yk, rfl, hy3, _⟩ := (shaped_leaf_iff y).1 (hall y (by simp))
    rw [inorder_internal, inorder_pair_leaves _ _ _ _ _ _ _ (by omega)]
    simp only [List.length_append, List.length_cons]
    omega

theorem shaped_one_leaf (t : BTree) (hs : shaped true 1 t = true) :
    ∃ ks, t = .node true ks [] := by
  obtain ⟨leaf, ks, cs⟩ := t
  rw [shaped_iff] at hs
  obtain ⟨_, _, _, hl, hi⟩ := hs
  cases leaf with
  | true => exact ⟨ks, by rw [(hl rfl).2]⟩
  | false =>
    obtain ⟨hlen, hall⟩ := hi rfl
    cases cs with
    | nil => simp at hlen
    | cons c cs =>
      have := hall c (List.mem_cons_self _ _)
      rw [shaped_zero] at this
      cases this

/-! # The claims -/

/-- C1: on every well-formed tree `btree_search` returns a node (Found) exactly
when the key occurs in the in-order traversal; a returned node holds the key
at the returned index, and a `NULL` result comes with index `-1`. -/
theorem search_found_iff_member (t : BTree) (key : Int) (hw : wellFormed t = true) :
    ((btree_search t key).1.isSome = true ↔ key ∈ inorder t) ∧
    (∀ n, (btree_search t key).1 = some n →
      ∃ i : Nat, (btree_search t key).2 = (i : Int) ∧ n.key[i]? = some key) ∧
    ((btree_search t key).1 = none → (btree_search t key).2 = -1) := by
  obtain ⟨hs, hsort⟩ := wellFormed_inv t hw
  rcases search_spec key (height t) true t hs hsort with ⟨h1, h2⟩ | ⟨h1, n, i, h2, h3⟩
  · rw [h2]
    refine ⟨by simp [h1], by simp, by simp⟩
  · rw [h2]
    refine ⟨by simp [h1], ?_, by simp⟩
    intro m hm
    simp only [Option.some.injEq] at hm
    subst hm
    exact ⟨i, rfl, h3⟩

/-- An instance of the search theorem: the key 6 in the tree built from the keys
1 .. 8. -/
theorem search_found_iff_member_witness :
    wellFormed eightKeys = true ∧
    (((btree_search eightKeys 6).1.isSome = true ↔ (6 : Int) ∈ inorder eightKeys) ∧
    (∀ n, (btree_search eightKeys 6).1 = some n →
      ∃ i : Nat, (btree_search eightKeys 6).2 = (i : Int) ∧ n.key[i]? = some 6) ∧
    ((btree_search eightKeys 6).1 = none → (btree_search eightKeys 6).2 = -1)) :=
  ⟨by decide, search_found_iff_member eightKeys 6 (by decide)⟩

/-- C2: after `btree_insert` of any key into any well-formed tree,
`btree_search` for that key returns a node and a non-negative index at which
the node holds the key; and the tree that the test builds by inserting
1 .. 19999 into the empty tree has every one of these keys found. -/
theorem insert_then_search_found (t : BTree) (key : Int) (hw : wellFormed t = true) :
    (∃ t1 n, ∃ i : Nat, btree_insert t key = .ok t1 ∧
      btree_search t1 key = (some n, (i : Int)) ∧ n.key[i]? = some key) ∧
    (∃ t2, insertAll btree_create testKeys = .ok t2 ∧
      ∀ k ∈ testKeys, ∃ n, ∃ i : Nat,
        btree_search t2 k = (some n, (i : Int)) ∧ n.key[i]? = some k) := by
  constructor
  · obtain ⟨hs, hsort⟩ := wellFormed_inv t hw
    obtain ⟨t1, h1, h2, _, _, h5⟩ := insert_spec t key (height t) hs hsort
    rcases search_spec key (height t1) true t1 h2 (h5.sorted hsort) with
      ⟨g1, _⟩ | ⟨_, n, i, g2, g3⟩
    · exact absurd h5.mem g1
    · exact ⟨t1, n, i, h1, g2, g3⟩
  · obtain ⟨t2, h1, h2, h3, _, h5⟩ := insertAll_spec testKeys btree_create 1 (by decide)
      (by simp [btree_create, inorder])
    refine ⟨t2, h1, ?_⟩
    intro k hk
    rcases search_spec k (height t2) true t2 h2 h3 with ⟨g1, _⟩ | ⟨_, n, i, g2, g3⟩
    · exact absurd (h5 k hk) g1
    · exact ⟨n, i, g2, g3⟩

/-- An instance of the round trip: the key 9 inserted into the tree built from
the keys 1 .. 8. -/
theorem insert_then_search_found_witness :
    wellFormed eightKeys = true ∧
    ((∃ t1 n, ∃ i : Nat, btree_insert eightKeys 9 = .ok t1 ∧
      btree_search t1 9 = (some n, (i : Int)) ∧ n.key[i]? = some 9) ∧
    (∃ t2, insertAll btree_create testKeys = .ok t2 ∧
      ∀ k ∈ testKeys, ∃ n, ∃ i : Nat,
        btree_search t2 k = (some n, (i : Int)) ∧ n.key[i]? = some k)) :=
  ⟨by decide, insert_then_search_found eightKeys 9 (by decide)⟩

/-- C5: inserting a key that is not in a well-formed tree yields a tree whose
in-order traversal is strictly increasing and is the old traversal with the
key inserted at its sorted position, so that the new traversal is a
permutation of the key and the old traversal. -/
theorem insert_keeps_sorted (t : BTree) (key : Int) (hw : wellFormed t = true)
    (hk : key ∉ inorder t) :
    ∃ t1, btree_insert t key = .ok t1 ∧ (inorder t1).Pairwise (· < ·) ∧
      inorder t1 = (inorder t).orderedInsert (· ≤ ·) key ∧
      (inorder t1).Perm (key :: inorder t) := by
  obtain ⟨hs, hsort⟩ := wellFormed_inv t hw
  obtain ⟨t1, h1, _, _, _, h5⟩ := insert_spec t key (height t) hs hsort
  obtain ⟨g1, g2⟩ := h5.strict (wellFormed_sorted t hw) hk
  refine ⟨t1, h1, g1, g2, ?_⟩
  rw [g2]
  exact List.perm_orderedInsert _ _ _

/-- An instance of sortedness under insert: the key 9 and the tree built from
the keys 1 .. 8. -/
theorem insert_keeps_sorted_witness :
    wellFormed eightKeys = true ∧ (9 : Int) ∉ inorder eightKeys ∧
    ∃ t1, btree_insert eightKeys 9 = .ok t1 ∧ (inorder t1).Pairwise (· < ·) ∧
      inorder t1 = (inorder eightKeys).orderedInsert (· ≤ ·) 9 ∧
      (inorder t1).Perm (9 :: inorder eightKeys) :=
  ⟨by decide, by decide, insert_keeps_sorted eightKeys 9 (by decide) (by decide)⟩

/-- C7: `btree_insert` of any key into any well-formed tree returns a tree
(no key array is written beyond its `2M - 1` slots) in which the root holds
between 1 and 7 keys and which satisfies the shape invariant `shaped`: every
non-root node holds between `M - 1 = 3` and `2M - 1 = 7` keys, every internal
node with `n` keys has `n + 1` children, and all leaves are at the same
depth. -/
theorem insert_keeps_occupancy (t : BTree) (key : Int) (hw : wellFormed t = true) :
    ∃ t1, btree_insert t key = .ok t1 ∧ shaped true (height t1) t1 = true ∧
      1 ≤ t1.num ∧ t1.num ≤ 7 := by
  obtain ⟨hs, hsort⟩ := wellFormed_inv t hw
  obtain ⟨t1, h1, h2, h3, h4, _⟩ := insert_spec t key (height t) hs hsort
  exact ⟨t1, h1, h2, h3, h4⟩

/-- An instance of occupancy under insert: the key 9 and the tree built from the
keys 1 .. 8. -/
theorem insert_keeps_occupancy_witness :
    wellFormed eightKeys = true ∧
    ∃ t1, btree_insert eightKeys 9 = .ok t1 ∧ shaped true (height t1) t1 = true ∧
      1 ≤ t1.num ∧ t1.num ≤ 7 :=
  ⟨by decide, insert_keeps_occupancy eightKeys 9 (by decide)⟩

/-- C3, evaluated at the failing input: the root leaf with the keys
-2000000000 and 2000000000 is what `btree_insert` builds from these two keys,
it is well-formed, its keys are 32-bit values and 2000000000 occurs once;
`btree_find_index` stops at index 0 with `ret = 294967296`, the wrapped value
of `-2000000000 - 2000000000`, so `btree_delete` returns the leaf unchanged
and `btree_search` still finds the key. -/
theorem delete_overflow_keeps_key :
    insertAll btree_create [-2000000000, 2000000000] = .ok farApart ∧
    wellFormed farApart = true ∧
    (inorder farApart).all int32 = true ∧
    (inorder farApart).count 2000000000 = 1 ∧
    btree_find_index farApart 2000000000 0 = (0, 294967296) ∧
    (∀ dm ret0, btree_delete dm ret0 farApart 2000000000 = .ok farApart) ∧
    btree_search farApart 2000000000 = (some farApart, 1) :=
  ⟨by decide!, by decide!, by decide!, by decide!, by decide!, fun _ _ => rfl, by decide!⟩

/-- C4, evaluated at the failing input: on the well-formed tree built from
the keys 36, 35, ..., 1, deleting the root key 21 takes the last key 17 of
the internal left child as replacement instead of the predecessor 20; the
keys 18, 19, 20 end up left of the new root key 17, and `btree_search`, which
found 18 before, no longer finds it. -/
theorem delete_internal_loses_other_key :
    insertAll btree_create (upTo 36).reverse = .ok descending36 ∧
    wellFormed descending36 = true ∧
    (btree_search descending36 21).1.isSome = true ∧
    (btree_search descending36 18).1.isSome = true ∧
    (∀ dm ret0, btree_delete dm ret0 descending36 21 = .ok descending36Less21) ∧
    btree_search descending36Less21 18 = (none, -1) :=
  ⟨by decide!, by decide!, by decide!, by decide!, fun _ _ => rfl, by decide!⟩

/-- C6, evaluated at the failing input: on the well-formed tree built from
the keys 36, 35, ..., 1, the tree that `btree_delete` returns for the root
key 21 has the in-order traversal ..., 16, 18, 19, 20, 17, 22, ..., which is
not increasing: the subtree left of the root key 17 holds 18, 19 and 20. -/
theorem delete_internal_breaks_order :
    wellFormed descending36 = true ∧
    (∀ dm ret0, btree_delete dm ret0 descending36 21 = .ok descending36Less21) ∧
    inorder descending36Less21 =
      [1, 2, 3, 4, 5, 6, 7, 8, 9, 10, 11, 12, 13, 14, 15, 16, 18, 19, 20, 17,
        22, 23, 24, 25, 26, 27, 28, 29, 30, 31, 32, 33, 34, 35, 36] ∧
    ¬ (inorder descending36Less21).Pairwise (· < ·) ∧
    ordered descending36Less21 = false :=
  ⟨by decide!, fun _ _ => rfl, by decide!, by decide!, by decide!⟩

/-- C8, evaluated at the failing input: on the well-formed tree built from
the keys 1, 2, ..., 48, deleting the key 1 borrows from the right child of the
root, an internal node with `2M - 1` keys.  Under LP64 the `memmove` of
`sizeof(type_t*) * 6` bytes over its key array runs on into `child[0]` and
`child[1]`: of the words of the sibling from `&key[0]` on, the six keys are
followed by the padding in `key[6]`, by the first word of `child[0]` in the
padding, and the slots `child[0]` and `child[1]` hold the second word of one
pointer next to the first word of the next.  The second `memmove` copies that
`child[1]` into `child[0]`, so the sibling is left with a first child slot
that holds no node address.  Under ILP32 the same call returns a tree of the
right shape. -/
theorem delete_borrow_tears_child_slot :
    insertAll btree_create (upTo 48) = .ok ascending48 ∧
    wellFormed ascending48 = true ∧
    (shiftedWords .lp64 [20, 24, 28, 32, 36, 40, 44]).take 14 =
      [.key 24, .key 28, .key 32, .key 36, .key 40, .key 44, .junk, .ptr 0 0,
       .ptr 0 1, .ptr 1 0, .ptr 1 1, .ptr 2 0, .ptr 2 0, .ptr 2 1] ∧
    (∀ ret0, btree_delete .lp64 ret0 ascending48 1 = .corrupt) ∧
    (∀ ret0, ∃ t1, btree_delete .ilp32 ret0 ascending48 1 = .ok t1 ∧
      shaped true (height t1) t1 = true) :=
  ⟨by decide!, by decide!, by decide!, fun _ => rfl, fun _ => ⟨_, rfl, by decide!⟩⟩

/-- C9 fails as stated: on the well-formed tree built from the keys 1 .. 8,
deleting the absent key 0 moves the separator 4 down into the left leaf and
the key 5 up into the root. -/
theorem delete_absent_rebalances :
    wellFormed eightKeys = true ∧ (0 : Int) ∉ inorder eightKeys ∧
    btree_delete .lp64 1 eightKeys 0 =
      .ok (.node false [5] [.node true [1, 2, 3, 4] [], .node true [6, 7, 8] []]) ∧
    btree_delete .lp64 1 eightKeys 0 ≠ .ok eightKeys := by
  decide!

/-- C9 as amended: on a well-formed tree whose root holds at least one key
and whose keys are 32-bit values, deleting a 32-bit key that does not occur
in the tree returns the tree itself, provided every node below the root on
the path that the delete follows for the key holds at least `M` keys. -/
theorem delete_absent_unchanged (dm : DataModel) (ret0 : Int) (t : BTree) (key : Int)
    (hw : wellFormed t = true) (hn : 1 ≤ t.num) (hk : key ∉ inorder t)
    (hkey : int32 key = true) (hkeys : ∀ x ∈ inorder t, int32 x = true)
    (hpath : richPath key (height t) t = true) :
    btree_delete dm ret0 t key = .ok t :=
  delete_aux_absent dm ret0 key hkey (height t) true t ((wellFormed_iff t).1 hw).1 hn hk
    hkeys hpath

/-- An instance of the unchanged delete: the absent key 9 leads into the right
leaf of the tree built from the keys 1 .. 8, which holds `M` keys. -/
theorem delete_absent_unchanged_witness :
    wellFormed eightKeys = true ∧ 1 ≤ eightKeys.num ∧ (9 : Int) ∉ inorder eightKeys ∧
    int32 9 = true ∧ (∀ x ∈ inorder eightKeys, int32 x = true) ∧
    richPath 9 (height eightKeys) eightKeys = true ∧
    btree_delete .lp64 0 eightKeys 9 = .ok eightKeys :=
  ⟨by decide, by decide, by decide, by decide, by decide, by decide,
    delete_absent_unchanged .lp64 0 eightKeys 9 (by decide) (by decide) (by decide)
      (by decide) (by decide) (by decide)⟩

/-- C10, evaluated at the failing input: on the well-formed tree built from
the keys 1, 2, ..., 48, deleting the absent key 0 under LP64 borrows from the
right child of the root as in C8 and leaves no tree to traverse; under ILP32
the traversal is unchanged. -/
theorem delete_absent_tears_child_slot :
    wellFormed ascending48 = true ∧ 1 ≤ (inorder ascending48).length ∧
    (0 : Int) ∉ inorder ascending48 ∧
    (∀ ret0, btree_delete .lp64 ret0 ascending48 0 = .corrupt) ∧
    (∀ ret0, ∃ t1, btree_delete .ilp32 ret0 ascending48 0 = .ok t1 ∧
      inorder t1 = inorder ascending48) :=
  ⟨by decide!, by decide!, by decide!, fun _ => rfl, fun _ => ⟨_, rfl, by decide!⟩⟩

/-- C11, evaluated at the failing input: on the well-formed tree built from
the keys 36, 35, ..., 1, `btree_delete` of the root key 21 followed by
`btree_insert` of 21 returns a tree that is not well-formed, whose traversal
reads ..., 16, 18, 19, 20, 17, 21, ... and in which 18 is no longer found,
because delete case 2a replaced 21 by the last key 17 of the internal left
child.  The test's own loop meets the same case: with the keys 1 .. 199 in
place of 1 .. 19999, the pairs for the keys 1 .. 31 leave every key found,
and after the pair for the key 32 the keys 28, 29, 30, 31 are not found. -/
theorem reinsert_after_delete_loses_order :
    wellFormed descending36 = true ∧ (21 : Int) ∈ inorder descending36 ∧
    (∀ dm ret0, btree_delete dm ret0 descending36 21 = .ok descending36Less21) ∧
    btree_insert descending36Less21 21 = .ok descending36Again ∧
    wellFormed descending36Again = false ∧
    inorder descending36Again ≠ inorder descending36 ∧
    (btree_search descending36 18).1.isSome = true ∧
    btree_search descending36Again 18 = (none, -1) ∧
    notFound (upTo 199) (testRun .lp64 1 199 31) = [] ∧
    notFound (upTo 199) (testRun .lp64 1 199 32) = [28, 29, 30, 31] ∧
    notFound (upTo 199) (testRun .ilp32 1 199 32) = [28, 29, 30, 31] :=
  ⟨by decide!, by decide!, fun _ _ => rfl, by decide!, by decide!, by decide!, by decide!,
    by decide!, by decide!, by decide!, by decide!⟩

/-- C12: for every sequence of `2M = 8` keys inserted one after the other
into the tree of `btree_create`, the root is a single leaf after each of the
first seven insertions (holding as many keys as were inserted), and the
eighth insertion returns an internal root with exactly one key, the fourth
key of the full leaf, over exactly two leaves that hold seven keys between
them: the height goes from one node to two. -/
theorem eighth_insert_splits_root (keys : List Int) (h : keys.length = 8) :
    (∀ j, j ≤ 7 → ∃ ks, insertAll btree_create (keys.take j) = .ok (.node true ks []) ∧
      ks.length = j ∧ height (.node true ks []) = 1) ∧
    (∃ m l r, insertAll btree_create keys =
        .ok (.node false [m] [.node true l [], .node true r []]) ∧
      l.length + r.length = 7 ∧
      height (.node false [m] [.node true l [], .node true r []]) = 2) := by
  have hrun : ∀ j, j ≤ 7 → ∃ ks, insertAll btree_create (keys.take j) =
      .ok (.node true ks []) ∧ ks.length = j := by
    intro j hj
    obtain ⟨ks, h1, h2⟩ := insertAll_leaf_room (keys.take j) [] (by simp; omega)
    refine ⟨ks, h1, ?_⟩
    rw [h2]; simp; omega
  constructor
  · intro j hj
    obtain ⟨ks, h1, h2⟩ := hrun j hj
    exact ⟨ks, h1, h2, by simp [height, heightList]⟩
  · obtain ⟨ks, h1, h2⟩ := hrun 7 (le_refl _)
    have hsplit : keys = keys.take 7 ++ keys.drop 7 := (List.take_append_drop 7 keys).symm
    obtain ⟨k8, hk8⟩ : ∃ k8, keys.drop 7 = [k8] := by
      have : (keys.drop 7).length = 1 := by simp; omega
      match hd : keys.drop 7, this with
      | [k8], _ => exact ⟨k8, rfl⟩
    obtain ⟨m, l, r, g1, g2, _⟩ := insert_leaf_full ks k8 h2
    refine ⟨m, l, r, ?_, g2, by simp [height, heightList]⟩
    rw [hsplit, insertAll_append, h1, hk8]
    simp only [insertAll, g1]

/-- An instance of the split boundary: the keys 5, 3, 8, 1, 9, 2, 7, 4. -/
theorem eighth_insert_splits_root_witness :
    [5, 3, 8, 1, 9, 2, 7, (4 : Int)].length = 8 ∧
    ((∀ j, j ≤ 7 → ∃ ks, insertAll btree_create ([5, 3, 8, 1, 9, 2, 7, 4].take j) =
        .ok (.node true ks []) ∧ ks.length = j ∧ height (.node true ks []) = 1) ∧
    (∃ m l r, insertAll btree_create [5, 3, 8, 1, 9, 2, 7, 4] =
        .ok (.node false [m] [.node true l [], .node true r []]) ∧
      l.length + r.length = 7 ∧
      height (.node false [m] [.node true l [], .node true r []]) = 2)) :=
  ⟨by decide, eighth_insert_splits_root [5, 3, 8, 1, 9, 2, 7, 4] (by decide)⟩

/-- C13: on a well-formed tree whose root is internal with one key over two
leaves of `M - 1` keys each, and for a key of the tree (differences of keys
fitting in a signed 32-bit integer), `btree_delete` returns a single leaf; it
holds the `2M - 2` other keys of the tree in increasing order, and the height,
counted in nodes on a path from the root to a leaf, drops from 2 to 1. -/
theorem delete_merges_minimal_root (dm : DataModel) (ret0 : Int) (t : BTree) (k : Int)
    (hw : wellFormed t = true) (hl : t.leaf = false) (hn : t.num = 1)
    (hc : ∀ c ∈ t.child, c.leaf = true ∧ c.num = M - 1)
    (hk : k ∈ inorder t)
    (hov : ∀ x ∈ inorder t, ∀ y ∈ k :: inorder t, int32 (x - y) = true) :
    ∃ ks, btree_delete dm ret0 t k = .ok (.node true ks []) ∧
      ks = (inorder t).erase k ∧ (∀ x, x ∈ ks ↔ x ∈ inorder t ∧ x ≠ k) ∧
      ks.length = 2 * M - 2 ∧ ks.Pairwise (· < ·) ∧
      height t = 2 ∧ height (.node true ks []) = 1 := by
  obtain ⟨t1, h1, h2, h3, h4⟩ := delete_shallow dm ret0 t k hw (by omega)
    (Or.inr fun c hcm => (hc c hcm).1) hov
  have hsort := wellFormed_sorted t hw
  have hsh := (wellFormed_inv t hw).1
  -- the tree holds seven keys
  have hlen7 : (inorder t).length = 7 ∧ height t = 2 := by
    obtain ⟨leaf, ks, cs⟩ := t
    rw [leaf_node] at hl
    subst hl
    rw [num_node] at hn
    cases hht : height (.node false ks cs) with
    | zero => rw [hht, shaped_zero] at hsh; cases hsh
    | succ h =>
      rw [hht, shaped_iff] at hsh
      obtain ⟨hlen, hall⟩ := hsh.2.2.2.2 rfl
      rw [child_node] at hc
      match ks, cs, hn, hlen, hc, hall with
      | [sep], [x, y], _, _, hc, hall =>
        obtain ⟨xl, xk, xc⟩ := x
        obtain ⟨yl, yk, yc⟩ := y
        have hx := hc _ (List.mem_cons_self _ _)
        have hy := hc _ (List.mem_cons_of_mem _ (List.mem_cons_self _ _))
        simp only [leaf_node, num_node, M] at hx hy
        obtain ⟨rfl, hx⟩ := hx
        obtain ⟨rfl, hy⟩ := hy
        have hxs := hall _ (List.mem_cons_self _ _)
        have h1 : h = 1 := by
          cases h with
          | zero => rw [shaped_zero] at hxs; cases hxs
          | succ h =>
            rw [shaped_iff] at hxs
            rw [(hxs.2.2.2.1 rfl).1]
        refine ⟨?_, by omega⟩
        simp [inorder, inorderList, hx, hy]
  have hlen6 : (inorder t1).length = 6 := by
    rw [h2, List.length_erase_of_mem hk, hlen7.1]
  rcases h4 with h | h
  · have := shaped_two_size t1 h
    omega
  · obtain ⟨ks, rfl⟩ := shaped_one_leaf t1 h
    rw [inorder_node] at h2 h3 hlen6
    simp only [if_true] at h2 h3 hlen6
    refine ⟨ks, h1, h2, ?_, by simpa [M] using hlen6, h3, hlen7.2,
      by simp [height, heightList]⟩
    intro x
    rw [h2, (pairwise_lt_nodup _ hsort).mem_erase_iff]
    exact and_comm

/-- An instance of the merge: the key 2 of the left leaf of a minimal tree of
two levels. -/
theorem delete_merges_minimal_root_witness :
    wellFormed minimalPair = true ∧ minimalPair.leaf = false ∧ minimalPair.num = 1 ∧
    (∀ c ∈ minimalPair.child, c.leaf = true ∧ c.num = M - 1) ∧
    (2 : Int) ∈ inorder minimalPair ∧
    (∀ x ∈ inorder minimalPair, ∀ y ∈ (2 : Int) :: inorder minimalPair,
      int32 (x - y) = true) ∧
    ∃ ks, btree_delete .lp64 0 minimalPair 2 = .ok (.node true ks []) ∧
      ks = (inorder minimalPair).erase 2 ∧
      (∀ x, x ∈ ks ↔ x ∈ inorder minimalPair ∧ x ≠ 2) ∧
      ks.length = 2 * M - 2 ∧ ks.Pairwise (· < ·) ∧
      height minimalPair = 2 ∧ height (.node true ks []) = 1 :=
  ⟨by decide, by decide, by decide, by decide, by decide, by decide,
    delete_merges_minimal_root .lp64 0 minimalPair 2 (by decide) (by decide) (by decide)
      (by decide) (by decide) (by decide)⟩

/-- C14 fails as stated: `btree_insert` of 2 into the root leaf 1, 2, 3 returns
the leaf 1, 2, 2, 3, a single node that holds 2 twice. -/
theorem duplicate_lands_in_same_leaf :
    wellFormed (.node true [1, 2, 3] []) = true ∧
    (2 : Int) ∈ inorder (.node true [1, 2, 3] []) ∧
    btree_insert (.node true [1, 2, 3] []) 2 = .ok (.node true [1, 2, 2, 3] []) ∧
    (BTree.node true [1, 2, 2, 3] []).key.count 2 = 2 := by
  decide!

/-- C14 as amended: `btree_insert` of a key that a well-formed tree already
holds is not rejected: the returned tree holds the key exactly twice, its
in-order traversal is weakly increasing and a permutation of the old one
with one more entry of the key, and it keeps the shape invariant; whether
the two entries land in one node or in two is left open. -/
theorem duplicate_insert_adds_entry (t : BTree) (key : Int) (hw : wellFormed t = true)
    (hk : key ∈ inorder t) :
    ∃ t1, btree_insert t key = .ok t1 ∧ (inorder t1).count key = 2 ∧
      (inorder t1).Pairwise (· ≤ ·) ∧ (inorder t1).Perm (key :: inorder t) ∧
      shaped true (height t1) t1 = true := by
  obtain ⟨hs, hsort⟩ := wellFormed_inv t hw
  obtain ⟨t1, h1, h2, _, _, h5⟩ := insert_spec t key (height t) hs hsort
  have hperm : (inorder t1).Perm (key :: inorder t) := by
    obtain ⟨l, r, e1, e2, _, _⟩ := h5
    rw [e1, e2]
    exact List.perm_middle
  refine ⟨t1, h1, ?_, h5.sorted hsort, hperm, h2⟩
  rw [hperm.count_eq, List.count_cons_self]
  have hnd : (inorder t).Nodup := (wellFormed_sorted t hw).imp (fun h => ne_of_lt h)
  rw [List.count_eq_one_of_mem hnd hk]

/-- An instance of the duplicate insert: the key 6 and the tree built from the
keys 1 .. 8. -/
theorem duplicate_insert_adds_entry_witness :
    wellFormed eightKeys = true ∧ (6 : Int) ∈ inorder eightKeys ∧
    ∃ t1, btree_insert eightKeys 6 = .ok t1 ∧ (inorder t1).count 6 = 2 ∧
      (inorder t1).Pairwise (· ≤ ·) ∧ (inorder t1).Perm (6 :: inorder eightKeys) ∧
      shaped true (height t1) t1 = true :=
  ⟨by decide, by decide, duplicate_insert_adds_entry eightKeys 6 (by decide) (by decide)⟩

/-- C15, evaluated at the failing inputs.  When the allocation of the new root
fails, `btree_insert` returns `NULL`, as the claim says.  When that allocation
succeeds and the one inside `btree_split_child` fails, `btree_insert` on the
full root leaf 1 .. 7 passes the `NULL` it got to `btree_insert_nonfull`.
When the allocation for a full child met on the way down fails, the insert
of 12 into `fullMiddle` goes on into the full leaf 5 .. 11 and writes
`key[KEY_NUM]`.  Neither call returns `NULL`.  With no failing allocation the
function is `btree_insert`. -/
theorem insert_alloc_failure_not_reported :
    insertAll btree_create [1, 2, 3, 4, 20, 21, 22, 23, 5, 6, 7, 8, 9, 10, 11] = .ok fullMiddle ∧
    wellFormed sevenKeys = true ∧ wellFormed fullMiddle = true ∧
    btree_insert_alloc [false] sevenKeys 8 = .ok none ∧
    btree_insert_alloc [true, false] sevenKeys 8 = .undefined ∧
    btree_insert_alloc [false] fullMiddle 12 = .undefined ∧
    btree_split_child_alloc false fullMiddle 1 (.node true [5, 6, 7, 8, 9, 10, 11] []) = .ok none ∧
    btree_insert_nonfull 1 (.node true [5, 6, 7, 8, 9, 10, 11] []) 12 = .undefined ∧
    (∃ t1, btree_insert_alloc [] fullMiddle 12 = .ok (some t1) ∧
      btree_insert fullMiddle 12 = .ok t1) :=
  ⟨by decide!, by decide!, by decide!, by decide!, by decide!, by decide!, by decide!,
    by decide!, ⟨_, rfl, by decide!⟩⟩

/-- C16, evaluated at the failing input: the node with the strictly sorted
32-bit keys -2000000000 and 2000000000 and the target 2000000000.  One key is
strictly less than the target and the key at index 1 equals it, but
`btree_find_index` returns the index 0 and `ret = 294967296`, the difference
`-2000000000 - 2000000000` taken modulo `2^32`; `btree_search` chooses the
index 1. -/
theorem find_index_wraps :
    strictSorted farApart.key = true ∧ farApart.num = 2 ∧
    farApart.key.all int32 = true ∧ int32 2000000000 = true ∧
    (farApart.key.filter fun x => decide (x < 2000000000)).length = 1 ∧
    farApart.key[1]? = some 2000000000 ∧
    scanUp 2000000000 farApart.key = 1 ∧
    wrap32 (-2000000000 - 2000000000) = 294967296 ∧
    ∀ ret0, btree_find_index farApart 2000000000 ret0 = (0, 294967296) :=
  ⟨by decide!, by decide!, by decide!, by decide!, by decide!, by decide!, by decide!,
    by decide!, fun _ => rfl⟩

/-- C17: for a parent that is not full, a position `pos ≤ num` and a full
child in the parent's slot `pos`, `btree_split_child` returns the parent with
one more key and one more child: the child's `M`-th key sits at key index
`pos`, the keys from `pos` on are shifted right by one and the earlier ones
stay; slot `pos` holds the child cut down to its lower `M - 1` keys (and lower
`M` children), slot `pos + 1` a sibling of the same kind with the upper
`M - 1` keys (and upper `M` children), the children behind `pos` are shifted
right by one and the earlier ones stay; the in-order traversal of the parent
is unchanged. -/
theorem split_child_postcondition (parent : BTree) (pos : Nat) (child : BTree)
    (hroom : parent.num < KEY_NUM) (hpos : pos ≤ parent.num)
    (hint : parent.leaf = false) (hpc : parent.child.length = parent.num + 1)
    (hc : parent.child[pos]? = some child) (hfull : child.num = KEY_NUM)
    (hcc : child.leaf = false → child.child.length = KEY_NUM + 1) :
    ∃ p median low high, btree_split_child parent pos child = .ok p ∧
      child.key[M - 1]? = some median ∧
      low.leaf = child.leaf ∧ low.key = child.key.take (M - 1) ∧ low.num = M - 1 ∧
      (child.leaf = false → low.child = child.child.take M ∧ low.child.length = M) ∧
      high.leaf = child.leaf ∧ high.key = child.key.drop M ∧ high.num = M - 1 ∧
      (child.leaf = false → high.child = child.child.drop M ∧ high.child.length = M) ∧
      p.leaf = parent.leaf ∧ p.num = parent.num + 1 ∧
      p.child.length = parent.child.length + 1 ∧
      p.key[pos]? = some median ∧
      (∀ j, j < pos → p.key[j]? = parent.key[j]?) ∧
      (∀ j, pos ≤ j → p.key[j + 1]? = parent.key[j]?) ∧
      p.child[pos]? = some low ∧ p.child[pos + 1]? = some high ∧
      (∀ j, j < pos → p.child[j]? = parent.child[j]?) ∧
      (∀ j, pos < j → p.child[j + 1]? = parent.child[j]?) ∧
      inorder p = inorder parent := by
  obtain ⟨median, hm, hin⟩ := inorder_split_full child hfull hcc
  obtain ⟨pl, pks, pcs⟩ := parent
  simp only [leaf_node, num_node, child_node, key_node] at hroom hpos hint hpc hc ⊢
  subst hint
  have hsp := split_child_eq (.node false pks pcs) pos child median hroom hfull hpos hm
  simp only [leaf_node, key_node, child_node] at hsp
  have hklen : child.key.length = 7 := by simpa [BTree.num, KEY_NUM, M] using hfull
  have htk : (pks.take pos).length = pos := by simp; omega
  have htc : (pcs.take pos).length = pos := by simp; omega
  refine ⟨_, median, BTree.node child.leaf (child.key.take (M - 1)) (child.child.take M),
    BTree.node child.leaf ((child.key.drop M).take (M - 1))
      (if child.leaf then [] else (child.child.drop M).take M),
    hsp, hm, rfl, rfl, ?_, ?_, rfl, ?_, ?_, ?_, rfl, ?_, ?_, ?_, ?_, ?_,
    ?_, ?_, ?_, ?_, ?_⟩
  · simp [num_node, hklen, M]
  · intro _
    have := hcc ‹_›
    simp only [KEY_NUM, M] at this
    simp [child_node, this, M]
  · simp only [key_node, M]
    rw [List.take_of_length_le (by simp; omega)]
  · simp [num_node, hklen, M]
  · intro hl
    have := hcc hl
    simp only [KEY_NUM, M] at this
    simp only [child_node, hl, Bool.false_eq_true, if_false, M]
    rw [List.take_of_length_le (by simp; omega)]
    exact ⟨rfl, by simp; omega⟩
  · simp [num_node]; omega
  · simp [child_node]; omega
  · exact getElem?_append_cons _ _ _ _ htk
  · intro j hj
    exact getElem?_insert_lt pks pos median j hj hpos
  · intro j hj
    exact getElem?_insert_ge pks pos median j hj hpos
  · exact getElem?_append_cons _ _ _ _ htc
  · exact getElem?_append_cons_cons _ _ _ _ _ htc
  · intro j hj
    rw [child_node, List.getElem?_append_left (by simp; omega)]
    rw [List.getElem?_take_of_lt hj]
  · intro j hj
    exact getElem?_insert2_gt pcs pos _ _ j hj (by omega)
  · obtain ⟨hsplit, _⟩ := list_split_at pcs pos child hc
    simp only [inorder, Bool.false_eq_true, if_false]
    conv_rhs => rw [← List.take_append_drop pos pks, hsplit]
    rw [inorderList_split _ _ _ _ _ (by rw [htk, htc])]
    rw [inorderList_split _ _ _ _ _ (by rw [htk, htc])]
    simp only [tailB, inorderList_cons]
    rw [hin]
    simp [inorder]

/-- An instance of the split postcondition: the root 4, 20 of `fullMiddle`
and its full middle leaf. -/
theorem split_child_postcondition_witness :
    ∃ (p : BTree) (median : Int) (low high : BTree),
      btree_split_child fullMiddle 1 (.node true [5, 6, 7, 8, 9, 10, 11] []) = .ok p ∧
      (BTree.node true [5, 6, 7, 8, 9, 10, 11] []).key[M - 1]? = some median ∧
      low.leaf = true ∧ low.key = [5, 6, 7] ∧ high.leaf = true ∧ high.key = [9, 10, 11] ∧
      p.key[1]? = some median ∧ p.child[1]? = some low ∧ p.child[2]? = some high ∧
      inorder p = inorder fullMiddle := by
  obtain ⟨p, median, low, high, h1, h2, h3, h4, _, _, h7, h8, _, _, _, _, _, h14, _, _, h17,
    h18, _, _, h21⟩ :=
    split_child_postcondition fullMiddle 1 (.node true [5, 6, 7, 8, 9, 10, 11] [])
      (by decide) (by decide) (by decide) (by decide) (by decide) (by decide) (by decide)
  exact ⟨p, median, low, high, h1, h2, h3, h4, h7, h8, h14, h17, h18, h21⟩

/-- C18, evaluated at the failing input: the root of `ascending48` with the
child index 0; the child holds `M - 1 = 3` keys and the right sibling is
internal with `s = 2M - 1 = 7` keys.  Under ILP32 the rotation is the one the
claim describes.  Under LP64 the `memmove` of `sizeof(type_t*) * 6` bytes
(lines 225-227) overwrites the child slots 0 and 1 of the sibling, and the
sibling's new first child, which should be its old second child, is no node
address. -/
theorem borrow_right_tears_sibling :
    rightSibling [16] ascending48.child 0 =
      some (.node false [20, 24, 28, 32, 36, 40, 44]
        [.node true [17, 18, 19] [], .node true [21, 22, 23] [], .node true [25, 26, 27] [],
         .node true [29, 30, 31] [], .node true [33, 34, 35] [], .node true [37, 38, 39] [],
         .node true [41, 42, 43] [], .node true [45, 46, 47, 48] []]) ∧
    (∀ key, enrich .ilp32 false [16] ascending48.child 0 key =
      .ok (.into (.node false [20]
        [.node false [4, 8, 12, 16]
          [.node true [1, 2, 3] [], .node true [5, 6, 7] [], .node true [9, 10, 11] [],
           .node true [13, 14, 15] [], .node true [17, 18, 19] []],
         .node false [24, 28, 32, 36, 40, 44]
          [.node true [21, 22, 23] [], .node true [25, 26, 27] [],
           .node true [29, 30, 31] [], .node true [33, 34, 35] [], .node true [37, 38, 39] [],
           .node true [41, 42, 43] [], .node true [45, 46, 47, 48] []]]) 0 key)) ∧
    slotIntact .lp64 (shiftedWords .lp64 [20, 24, 28, 32, 36, 40, 44]) 1 = false ∧
    (∀ key, enrich .lp64 false [16] ascending48.child 0 key = .corrupt) :=
  ⟨by decide!, fun _ => rfl, by decide!, fun _ => rfl⟩

/-- C19, evaluated at the failing input: on the empty tree the loop of
`btree_find_index` does not run and `ret` keeps the value it happened to
hold.  When that value is 0, `btree_delete` takes the leaf-found branch with
`index = 0` and `num = 0`, a `memmove` of length `-1` keys; for every other
value it returns the root as it is. -/
theorem delete_on_empty_reads_garbage :
    (∀ key ret0, btree_find_index btree_create key ret0 = (0, ret0)) ∧
    (∀ dm key, deleteStep dm 0 btree_create key = .undefined) ∧
    (∀ dm key, btree_delete dm 0 btree_create key = .undefined) ∧
    (∀ dm key ret0, btree_delete dm ret0 btree_create key =
      if ret0 = 0 then .undefined else .ok btree_create) := by
  refine ⟨fun _ _ => rfl, fun _ _ => rfl, fun _ _ => rfl, ?_⟩
  intro dm key ret0
  by_cases h : ret0 = 0
  · subst h
    rfl
  · simp [btree_delete, btree_create, height, heightList, btree_delete_aux, deleteStep,
      btree_find_index, findIndexFrom, BTree.key, h]

/-- C20: on a well-formed tree with at least one key whose root is a leaf or
whose root has only leaves as children, and for a key whose differences with
the keys of the tree, and the differences of these among themselves, fit in a
signed 32-bit integer, `btree_delete` returns a tree, for either data model
and whatever the uninitialised `ret` holds; the traversal of that tree is the
old traversal without the key, the same traversal when the key is absent, and
the tree is well-formed. -/
theorem delete_exact_on_shallow_trees (dm : DataModel) (ret0 : Int) (t : BTree) (k : Int)
    (hw : wellFormed t = true) (hn : 1 ≤ t.num)
    (hh : t.leaf = true ∨ ∀ c ∈ t.child, c.leaf = true)
    (hov : ∀ x ∈ inorder t, ∀ y ∈ k :: inorder t, int32 (x - y) = true) :
    ∃ t1, btree_delete dm ret0 t k = .ok t1 ∧ inorder t1 = (inorder t).erase k ∧
      (k ∉ inorder t → inorder t1 = inorder t) ∧ wellFormed t1 = true := by
  obtain ⟨t1, h1, h2, h3, h4⟩ := delete_shallow dm ret0 t k hw hn hh hov
  refine ⟨t1, h1, h2, fun hk => by rw [h2, List.erase_of_not_mem hk], ?_⟩
  rcases h4 with h | h
  · exact wellFormed_of 2 t1 h h3
  · exact wellFormed_of 1 t1 h h3

/-- An instance of the exact delete: the key 4 is a separator of the root of a
tree whose middle leaf is full, and is replaced by the first key of that leaf. -/
theorem delete_exact_on_shallow_trees_witness :
    wellFormed fullMiddle = true ∧ 1 ≤ fullMiddle.num ∧
    (fullMiddle.leaf = true ∨ ∀ c ∈ fullMiddle.child, c.leaf = true) ∧
    (∀ x ∈ inorder fullMiddle, ∀ y ∈ (4 : Int) :: inorder fullMiddle,
      int32 (x - y) = true) ∧
    ∃ t1, btree_delete .lp64 0 fullMiddle 4 = .ok t1 ∧
      inorder t1 = (inorder fullMiddle).erase 4 ∧
      ((4 : Int) ∉ inorder fullMiddle → inorder t1 = inorder fullMiddle) ∧
      wellFormed t1 = true :=
  ⟨by decide, by decide, by decide, by decide,
    delete_exact_on_shallow_trees .lp64 0 fullMiddle 4 (by decide) (by decide) (by decide)
      (by decide)⟩

end BtreeC
